import Mathlib

/-!
Verification of the go-cover repository: Knuth Dancing Links (DLX) exact-cover
engine.  The Go pointer graph is shallowly embedded as a heap: a list of node
records indexed by position, where a pointer is the index of its target node.
Loops over the circular linked structure are fuel bounded; code paths that
dereference a nil pointer (such as a missing Meta or Col field) or run out of
fuel are modelled with Option, none standing for a crash or divergence.
-/

namespace GoCover

deriving instance DecidableEq for Except

/-- Word size of the Go uint used for the Size counter (64-bit platform). -/
def U64 : Nat := 2 ^ 64

/-- Meta struct: carried by column headers (and the root), holding the live
size counter and the column name.  Size is a Go uint, kept reduced mod 2^64. -/
structure Meta where
  size : Nat
  name : String
deriving DecidableEq, Repr

/-- Node struct: element of the four-way linked list.  The Right, Up, Left,
Down and Col pointers are heap indices; Col and Meta are nil-able in Go and
hence Option here. -/
structure Node where
  right : Nat
  up : Nat
  left : Nat
  down : Nat
  col : Option Nat
  meta : Option Meta
deriving DecidableEq, Repr

instance : Inhabited Node := ⟨⟨0, 0, 0, 0, none, none⟩⟩

/-- The heap: node records addressed by index. -/
abbrev H := List Node

/-- Dereference a heap index. -/
def getN (s : H) (i : Nat) : Node := s.getD i default

/-- Write a node record at a heap index. -/
def setN (s : H) (i : Nat) (n : Node) : H := s.set i n

/-- Assignment x.Right = v for the node at index i. -/
def updRight (s : H) (i v : Nat) : H := setN s i { getN s i with right := v }

/-- Assignment x.Up = v for the node at index i. -/
def updUp (s : H) (i v : Nat) : H := setN s i { getN s i with up := v }

/-- Assignment x.Left = v for the node at index i. -/
def updLeft (s : H) (i v : Nat) : H := setN s i { getN s i with left := v }

/-- Assignment x.Down = v for the node at index i. -/
def updDown (s : H) (i v : Nat) : H := setN s i { getN s i with down := v }

/-- Assignment x.Col = v for the node at index i. -/
def updCol (s : H) (i : Nat) (v : Option Nat) : H := setN s i { getN s i with col := v }

/-- Assignment x.Meta = v for the node at index i. -/
def updMeta (s : H) (i : Nat) (v : Option Meta) : H := setN s i { getN s i with meta := v }

/-- NewNode: allocates a node whose four neighbours point to itself. -/
def newNode (s : H) : H × Nat :=
  let i := s.length
  (s ++ [{ right := i, up := i, left := i, down := i, col := none, meta := none }], i)

/-- NewColNode: a fresh node plus a Meta with the given name and size zero. -/
def newColNode (s : H) (name : String) : H × Nat :=
  let p := newNode s
  (updMeta p.1 p.2 (some { size := 0, name := name }), p.2)

/-- RowAppend: inserts node n before node r in the row ring, following the Go
statement order (n.Right = r; n.Left = r.Left; r.Left.Right = n; r.Left = n). -/
def RowAppend (s : H) (r n : Nat) : H :=
  let rL := (getN s r).left
  let s1 := updLeft (updRight s n r) n rL
  let s2 := updRight s1 rL n
  updLeft s2 r n

/-- ColAppend: inserts node n at the bottom of column c and bumps the live
size counter of c; dereferencing a missing Meta is a crash (none). -/
def ColAppend (s : H) (c n : Nat) : Option H :=
  let cU := (getN s c).up
  let s1 := updUp (updDown (updCol s n (some c)) n c) n cU
  let s2 := updDown s1 cU n
  let s3 := updUp s2 c n
  match (getN s3 c).meta with
  | none => none
  | some mt => some (updMeta s3 c (some { mt with size := (mt.size + 1) % U64 }))

/-- Body of the inner Cover loop: j.Down.Up = j.Up; j.Up.Down = j.Down;
j.Col.Meta.Size-- (the vertical unlink of one cell). -/
def vUnlink (s : H) (j : Nat) : Option H :=
  let nj := getN s j
  let s1 := updUp s nj.down nj.up
  let s2 := updDown s1 nj.up nj.down
  match nj.col with
  | none => none
  | some d =>
    match (getN s2 d).meta with
    | none => none
    | some mt => some (updMeta s2 d (some { mt with size := (mt.size + (U64 - 1)) % U64 }))

/-- Body of the inner Uncover loop: j.Col.Meta.Size++; j.Down.Up = j;
j.Up.Down = j (the vertical relink of one cell).  Neighbour fields are
re-read between writes, matching the Go statement order. -/
def vRelink (s : H) (j : Nat) : Option H :=
  match (getN s j).col with
  | none => none
  | some d =>
    match (getN s d).meta with
    | none => none
    | some mt =>
      let s1 := updMeta s d (some { mt with size := (mt.size + 1) % U64 })
      let s2 := updUp s1 ((getN s1 j).down) j
      some (updDown s2 ((getN s2 j).up) j)

/-- Inner Cover loop: for j := i.Right; j != i; j = j.Right, unlinking each j. -/
def coverInnerGo : Nat → H → Nat → Nat → Option H
  | 0, _, _, _ => none
  | fuel + 1, s, i, j =>
    if j = i then some s
    else
      match vUnlink s j with
      | none => none
      | some s1 => coverInnerGo fuel s1 i ((getN s1 j).right)

/-- Outer Cover loop: for i := c.Down; i != c; i = i.Down. -/
def coverRowsGo : Nat → H → Nat → Nat → Option H
  | 0, _, _, _ => none
  | fuel + 1, s, c, i =>
    if i = c then some s
    else
      match coverInnerGo (s.length + 1) s i ((getN s i).right) with
      | none => none
      | some s1 => coverRowsGo fuel s1 c ((getN s1 i).down)

/-- Cover: logs the column name (a crash when Meta is nil), splices the header
out of the header row, then unlinks every cell of every intersecting row. -/
def Cover (s : H) (c : Nat) : Option H :=
  match (getN s c).meta with
  | none => none
  | some _ =>
    let nc := getN s c
    let s1 := updLeft s nc.right nc.left
    let s2 := updRight s1 nc.left nc.right
    coverRowsGo (s2.length + 1) s2 c ((getN s2 c).down)

/-- Inner Uncover loop: for j := i.Left; j != i; j = j.Left, relinking each j. -/
def uncoverInnerGo : Nat → H → Nat → Nat → Option H
  | 0, _, _, _ => none
  | fuel + 1, s, i, j =>
    if j = i then some s
    else
      match vRelink s j with
      | none => none
      | some s1 => uncoverInnerGo fuel s1 i ((getN s1 j).left)

/-- Outer Uncover loop: for i := c.Up; i != c; i = i.Up. -/
def uncoverRowsGo : Nat → H → Nat → Nat → Option H
  | 0, _, _, _ => none
  | fuel + 1, s, c, i =>
    if i = c then some s
    else
      match uncoverInnerGo (s.length + 1) s i ((getN s i).left) with
      | none => none
      | some s1 => uncoverRowsGo fuel s1 c ((getN s1 i).up)

/-- Uncover: logs the column name, relinks every cell of every intersecting
row walking up and left, then splices the header back into the header row. -/
def Uncover (s : H) (c : Nat) : Option H :=
  match (getN s c).meta with
  | none => none
  | some _ =>
    match uncoverRowsGo (s.length + 1) s c ((getN s c).up) with
    | none => none
    | some s1 =>
      let nc := getN s1 c
      let s2 := updLeft s1 nc.right c
      some (updRight s2 ((getN s2 c).left) c)

/-- Root: m.Left.Right, as in the Go source. -/
def Root (s : H) (m : Nat) : Nat := (getN s (getN s m).left).right

/-- Scan loop of SmallestCol, carrying the best column seen and the running
minimum; reading the Size of a header without Meta is a crash. -/
def smallestColGo : Nat → H → Nat → Nat → Option Nat → Nat → Option (Option Nat)
  | 0, _, _, _, _, _ => none
  | fuel + 1, s, root, col, r, mn =>
    if col = root then some r
    else
      match (getN s col).meta with
      | none => none
      | some mt =>
        if mt.size < mn then smallestColGo fuel s root ((getN s col).right) (some col) mt.size
        else smallestColGo fuel s root ((getN s col).right) r mn

/-- SmallestCol: linear scan of the live header row, min initialised to
^uint(0); the inner Option is the returned pointer, which may be nil. -/
def SmallestCol (s : H) (m : Nat) : Option (Option Nat) :=
  let root := Root s m
  smallestColGo (s.length + 1) s root ((getN s root).right) none (U64 - 1)

/-- Scan loop of Col: exact name match over the live header row; reaching the
root again yields the panic with its formatted message. -/
def colGo : Nat → H → Nat → Nat → String → Option (Except String Nat)
  | 0, _, _, _, _ => none
  | fuel + 1, s, root, col, name =>
    if col = root then some (Except.error ("Column \"" ++ name ++ "\" not found"))
    else
      match (getN s col).meta with
      | none => none
      | some mt =>
        if mt.name = name then some (Except.ok col)
        else colGo fuel s root ((getN s col).right) name

/-- Col: looks up a live column by name, panicking when it is absent. -/
def Col (s : H) (m : Nat) (name : String) : Option (Except String Nat) :=
  let root := Root s m
  colGo (s.length + 1) s root ((getN s root).right) name

/-- Inner loop of one matrix row during construction: for each cell with a
positive value create a node, ColAppend it to the current header and RowAppend
it after the first node of the row; indexing past the row is a crash. -/
def buildRowGo : Nat → H → List Int → Nat → Option Nat → Nat → Option H
  | 0, s, _, _, _, _ => some s
  | count + 1, s, row, j, prev, head =>
    match row[j]? with
    | none => none
    | some v =>
      if v > 0 then
        let p := newNode s
        match ColAppend p.1 head p.2 with
        | none => none
        | some s2 =>
          match prev with
          | some pr =>
            let s3 := RowAppend s2 pr p.2
            buildRowGo count s3 row (j + 1) (some pr) ((getN s3 head).right)
          | none =>
            buildRowGo count s2 row (j + 1) (some p.2) ((getN s2 head).right)
      else buildRowGo count s row (j + 1) prev ((getN s head).right)

/-- Outer loop over the matrix rows; each row starts at root.Right with no
previous node. -/
def buildRows (C : Nat) : H → Nat → List (List Int) → Option H
  | s, _, [] => some s
  | s, root, row :: rest =>
    match buildRowGo C s row 0 none ((getN s root).right) with
    | none => none
    | some s1 => buildRows C s1 root rest

/-- Header-construction loop: one column node per name, appended to the
header ring anchored at root. -/
def buildHeaders (root : Nat) : H → List String → H
  | s, [] => s
  | s, h :: t =>
    let p := newColNode s h
    buildHeaders root (RowAppend p.1 root p.2) t

/-- NewSparseMatrix: the root (index 0) with Left and Right pointing to
itself, then the headers, then one data node per positive cell.  The Go root
leaves Up and Down as nil pointers that are never read; they are modelled as
self references. -/
def NewSparseMatrix (matrix : List (List Int)) (headers : List String) : Option (H × Nat) :=
  let root : Node :=
    { right := 0, up := 0, left := 0, down := 0, col := none,
      meta := some { size := 0, name := "root" } }
  let s := buildHeaders 0 [root] headers
  match buildRows headers.length s 0 matrix with
  | none => none
  | some s1 => some (s1, 0)

/-- Solution: depth-indexed sequence of chosen row representatives; entries
are nil-able Go pointers. -/
structure Solution where
  items : List (Option Nat)
deriving DecidableEq, Repr

/-- Solution.Set: overwrite in place when the index is in range, append
otherwise. -/
def Solution.set (sol : Solution) (i : Nat) (n : Nat) : Solution :=
  if i < sol.items.length then ⟨sol.items.set i (some n)⟩
  else ⟨sol.items ++ [some n]⟩

/-- Solution.Get: plain indexing; out of range is a panic (outer none), the
inner Option is the stored pointer. -/
def Solution.get (sol : Solution) (i : Nat) : Option (Option Nat) := sol.items[i]?

/-- Solution.Len. -/
def Solution.len (sol : Solution) : Nat := sol.items.length

/-- Name of the column owning a data node: n.Col.Meta.Name, crashing on nil. -/
def colName (s : H) (j : Nat) : Option String :=
  match (getN s j).col with
  | none => none
  | some d =>
    match (getN s d).meta with
    | none => none
    | some mt => some mt.name

/-- Inner loop of Solution.String: for m := n.Right; n != m; m = m.Right,
appending a space and the column name of m. -/
def solLineGo : Nat → H → Nat → Nat → Option String
  | 0, _, _, _ => none
  | fuel + 1, s, n, m =>
    if n = m then some ""
    else
      match colName s m with
      | none => none
      | some nm =>
        match solLineGo fuel s n ((getN s m).right) with
        | none => none
        | some rest => some (" " ++ nm ++ rest)

/-- One rendered line of Solution.String for a non-nil entry. -/
def solEntry (s : H) (n : Nat) : Option String :=
  match colName s n with
  | none => none
  | some nm =>
    match solLineGo (s.length + 1) s n ((getN s n).right) with
    | none => none
    | some rest => some (nm ++ rest ++ "\n")

/-- Solution.String: concatenation of the rendered lines of the non-nil
entries, in depth order. -/
def solutionString (s : H) : List (Option Nat) → Option String
  | [] => some ""
  | none :: rest => solutionString s rest
  | some n :: rest =>
    match solEntry s n with
    | none => none
    | some line =>
      match solutionString s rest with
      | none => none
      | some tail => some (line ++ tail)

/-- Observable events of a Search run: the Cover and Uncover calls (which the
Go code logs by column) and the solutions printed at terminal success. -/
inductive Ev where
  | cover : Nat → Ev
  | uncover : Nat → Ev
  | emit : String → Ev
deriving DecidableEq, Repr

/-- A Guesser: given the current heap and depth, the chosen column and the
backtrack flag; none models a crash inside ChooseCol. -/
abbrev Guesser := H → Nat → Option (Nat × Bool)

/-- Walk of the row-cell Cover loop inside Search: for j := r.Right; j != r;
j = j.Right, covering j.Col. -/
def searchRowCover : Nat → H → Nat → Nat → Option (H × List Ev)
  | 0, _, _, _ => none
  | fuel + 1, s, r, j =>
    if j = r then some (s, [])
    else
      match (getN s j).col with
      | none => none
      | some d =>
        match Cover s d with
        | none => none
        | some s1 =>
          match searchRowCover fuel s1 r ((getN s1 j).right) with
          | none => none
          | some (s2, evs) => some (s2, Ev.cover d :: evs)

/-- Walk of the row-cell Uncover loop inside Search: for j := r.Left; j != r;
j = j.Left, uncovering j.Col. -/
def searchRowUncover : Nat → H → Nat → Nat → Option (H × List Ev)
  | 0, _, _, _ => none
  | fuel + 1, s, r, j =>
    if j = r then some (s, [])
    else
      match (getN s j).col with
      | none => none
      | some d =>
        match Uncover s d with
        | none => none
        | some s1 =>
          match searchRowUncover fuel s1 r ((getN s1 j).left) with
          | none => none
          | some (s2, evs) => some (s2, Ev.uncover d :: evs)

/-- Row loop of Search, with the recursive Search call abstracted as rec.
The loop variable r and the comparison column c are re-read from the solution
and its Col field after each recursive call, exactly as in the Go source; a
false backtrack flag returns the sub-result directly with no Uncover. -/
def searchLoopGo (rec : H → Solution → Option (H × Solution × List Ev)) :
    Nat → H → Solution → Nat → Bool → Nat → Nat → Option (H × Solution × List Ev)
  | 0, _, _, _, _, _, _ => none
  | fuel + 1, s, O, k, bt, c, r =>
    if r = c then
      match Uncover s c with
      | none => none
      | some s1 => some (s1, O, [Ev.uncover c])
    else
      let O1 := O.set k r
      match searchRowCover (s.length + 1) s r ((getN s r).right) with
      | none => none
      | some (s1, ev1) =>
        match rec s1 O1 with
        | none => none
        | some (s2, O2, ev2) =>
          if bt = false then some (s2, O2, ev1 ++ ev2)
          else
            match O2.get k with
            | none => none
            | some none => none
            | some (some r2) =>
              match (getN s2 r2).col with
              | none => none
              | some c2 =>
                match searchRowUncover (s2.length + 1) s2 r2 ((getN s2 r2).left) with
                | none => none
                | some (s3, ev3) =>
                  match searchLoopGo rec fuel s3 O2 k bt c2 ((getN s3 r2).down) with
                  | none => none
                  | some (s4, O4, ev4) => some (s4, O4, ev1 ++ ev2 ++ ev3 ++ ev4)

/-- Search: at an empty header row render and emit the solution; otherwise
ask the guesser, cover the chosen column and run the row loop.  The fuel
bounds the recursion depth. -/
def SearchGo : Nat → H → Solution → Nat → Guesser → Nat → Option (H × Solution × List Ev)
  | 0, _, _, _, _, _ => none
  | fuel + 1, s, O, k, g, m =>
    let root := Root s m
    if (getN s root).right = root then
      match solutionString s O.items with
      | none => none
      | some str => some (s, O, [Ev.emit str])
    else
      match g s k with
      | none => none
      | some (c, bt) =>
        match Cover s c with
        | none => none
        | some s1 =>
          match searchLoopGo (fun s' O' => SearchGo fuel s' O' (k + 1) g m)
              (s1.length + 1) s1 O k bt c ((getN s1 c).down) with
          | none => none
          | some (s2, O2, evs) => some (s2, O2, Ev.cover c :: evs)

/-- Default Guesser of the Solver: SmallestCol with backtracking always on;
the log line dereferences the Meta of the result, so a nil result or a
missing Meta is a crash. -/
def solverChooseCol (m : Nat) : Guesser := fun s _ =>
  match SmallestCol s m with
  | some (some c) =>
    match (getN s c).meta with
    | some _ => some (c, true)
    | none => none
  | _ => none

/-- The solution strings printed by a Search run. -/
def emissions (res : Option (H × Solution × List Ev)) : Option (List String) :=
  match res with
  | none => none
  | some (_, _, evs) =>
    some (evs.filterMap fun e => match e with | Ev.emit str => some str | _ => none)

/-- Fuel-bounded walk through the linked structure along one pointer field,
collecting the visited nodes until the stop node is reached; none when the
fuel runs out before closing the cycle. -/
def walkF (f : Node → Nat) : Nat → H → Nat → Nat → Option (List Nat)
  | 0, _, _, _ => none
  | fuel + 1, s, stop, j =>
    if j = stop then some []
    else
      match walkF f fuel s stop (f (getN s j)) with
      | none => none
      | some l => some (j :: l)

/-- Name stored in the Meta of a node, empty when the Meta is absent. -/
def hdrName (s : H) (x : Nat) : String :=
  match (getN s x).meta with
  | none => ""
  | some mt => mt.name

/-- Size stored in the Meta of a node, zero when the Meta is absent. -/
def hdrSize (s : H) (x : Nat) : Nat :=
  match (getN s x).meta with
  | none => 0
  | some mt => mt.size

/-- Reference running-minimum scan over a list of headers, carrying the best
column seen so far and the running minimum, mirroring the SmallestCol loop. -/
def scanMin (s : H) : List Nat → Option Nat × Nat → Option Nat × Nat
  | [], acc => acc
  | x :: t, acc =>
    scanMin s t (if hdrSize s x < acc.2 then (some x, hdrSize s x) else acc)

/-- Sequential vertical unlink of a list of cells, the order in which the
Cover loops visit them. -/
def unlinkList : H → List Nat → Option H
  | s, [] => some s
  | s, j :: t =>
    match vUnlink s j with
    | none => none
    | some s1 => unlinkList s1 t

/-- Sequential vertical relink of a list of cells, the order in which the
Uncover loops visit them. -/
def relinkList : H → List Nat → Option H
  | s, [] => some s
  | s, j :: t =>
    match vRelink s j with
    | none => none
    | some s1 => relinkList s1 t

/-- Local well-formedness of one cell about to be vertically unlinked: the
indices are in range, the vertical neighbours point back at the cell, and the
owning column has a Meta with an in-range size. -/
def localOk (s : H) (j : Nat) : Bool :=
  decide (j < s.length) &&
  decide ((getN s j).down < s.length) &&
  decide ((getN s j).up < s.length) &&
  decide ((getN s (getN s j).down).up = j) &&
  decide ((getN s (getN s j).up).down = j) &&
  (match (getN s j).col with
   | none => false
   | some d =>
     decide (d < s.length) &&
     (match (getN s d).meta with
      | none => false
      | some mt => decide (mt.size < U64)))

/-- The local conditions threaded along an actual unlink sequence. -/
def unlinksOk : H → List Nat → Bool
  | _, [] => true
  | s, j :: t =>
    localOk s j &&
    (match vUnlink s j with
     | none => false
     | some s1 => unlinksOk s1 t)

/-- Well-formedness of the rows loop of one Cover call, checked by following
the actual computation row by row: every intersecting row is a consistent
ring (walking left is the exact reverse of walking right), its cells satisfy
the threaded local unlink conditions, and after the row is unlinked the
vertical
spine of the covered column is intact (the next row still points back up). -/
def rowsOk : Nat → H → Nat → Nat → Bool
  | 0, _, _, _ => false
  | fuel + 1, s, c, i =>
    if i = c then true
    else
      match walkF (fun nd => nd.right) (s.length + 1) s i ((getN s i).right) with
      | none => false
      | some l =>
        decide (walkF (fun nd => nd.left) (s.length + 1) s i ((getN s i).left) =
          some l.reverse) &&
        unlinksOk s l &&
        (match coverInnerGo (s.length + 1) s i ((getN s i).right) with
         | none => false
         | some s1 =>
           decide ((getN s1 ((getN s1 i).down)).up = i) &&
           rowsOk fuel s1 c ((getN s1 i).down))

/-- Executable well-formedness of a matrix around column c: everything
Cover followed by Uncover relies on to be an exact structural inverse. -/
def coverUncoverOk (s : H) (c : Nat) : Bool :=
  decide (c < s.length) &&
  (getN s c).meta.isSome &&
  decide ((getN s c).right < s.length) &&
  decide ((getN s c).left < s.length) &&
  decide ((getN s (getN s c).right).left = c) &&
  decide ((getN s (getN s c).left).right = c) &&
  (let s0 := updRight (updLeft s (getN s c).right (getN s c).left) (getN s c).left
      (getN s c).right
   decide ((getN s0 ((getN s0 c).down)).up = c) &&
   rowsOk (s0.length + 1) s0 c ((getN s0 c).down))

/-- The current vertical circular list of a column: the data nodes reached
walking down from the header until the header recurs. -/
def colChain (s : H) (d : Nat) : Option (List Nat) :=
  walkF (fun nd => nd.down) (s.length + 1) s d ((getN s d).down)

/-- The element standing right before j in a list, if any. -/
def prevIn : List Nat → Nat → Option Nat
  | [], _ => none
  | [_], _ => none
  | x :: y :: rest, j => if y = j then some x else prevIn (y :: rest) j

/-- Executable form of the size invariant at one column: the Size field of
the header equals the number of nodes currently linked in its vertical list. -/
def sizeInvB (s : H) (d : Nat) : Bool :=
  match colChain s d with
  | none => false
  | some L => decide (hdrSize s d = L.length)

/-- Conditions under which one vertical unlink keeps the size invariant of
every tracked column: the local linkage facts, and for the owning column the
cell sits in the chain right after its Up neighbour, while the chains of the
other tracked columns do not touch the written nodes. -/
def unlinkKeepsOk (hs : List Nat) (s : H) (j : Nat) : Bool :=
  localOk s j &&
  (match (getN s j).col with
   | none => false
   | some d =>
     hs.all (fun e =>
       match colChain s e with
       | none => false
       | some L =>
         decide ((e :: L).Nodup) &&
         (if e = d then
            decide (prevIn (e :: L) j = some ((getN s j).up)) && decide (j ≠ e)
          else decide ((getN s j).up ≠ e) && decide ((getN s j).up ∉ L))))

/-- The per-cell conditions threaded along an unlink sequence. -/
def unlinkListKeepsOk (hs : List Nat) : H → List Nat → Bool
  | _, [] => true
  | s, j :: t =>
    unlinkKeepsOk hs s j &&
    (match vUnlink s j with
     | none => false
     | some s1 => unlinkListKeepsOk hs s1 t)

/-- The per-row conditions threaded along the rows loop of one Cover call,
for the size invariant of the tracked columns. -/
def rowsSizeOk (hs : List Nat) : Nat → H → Nat → Nat → Bool
  | 0, _, _, _ => false
  | fuel + 1, s, c, i =>
    if i = c then true
    else
      match walkF (fun nd => nd.right) (s.length + 1) s i ((getN s i).right) with
      | none => false
      | some l =>
        unlinkListKeepsOk hs s l &&
        (match coverInnerGo (s.length + 1) s i ((getN s i).right) with
         | none => false
         | some s1 => rowsSizeOk hs fuel s1 c ((getN s1 i).down))

/-- Top-level conditions for size-invariant preservation by one Cover call. -/
def coverSizeOk (hs : List Nat) (s : H) (c : Nat) : Bool :=
  (getN s c).meta.isSome &&
  (let s0 := updRight (updLeft s (getN s c).right (getN s c).left) (getN s c).left
      (getN s c).right
   rowsSizeOk hs (s0.length + 1) s0 c ((getN s0 c).down))

/-- The six-row example matrix of the Knuth paper, as in the test suite. -/
def knuthMatrix : List (List Int) :=
  [[0, 0, 1, 0, 1, 1, 0],
   [1, 0, 0, 1, 0, 0, 1],
   [0, 1, 1, 0, 0, 1, 0],
   [1, 0, 0, 1, 0, 0, 0],
   [0, 1, 0, 0, 0, 0, 1],
   [0, 0, 0, 1, 1, 0, 1]]

/-- The seven column names of the example matrix. -/
def knuthHeaders : List String := ["A", "B", "C", "D", "E", "F", "G"]

/-- Full Search run on the example matrix from depth 0 with the default
Guesser, observed through the emitted solution renderings. -/
def knuthRun : Option (List String) :=
  match NewSparseMatrix knuthMatrix knuthHeaders with
  | none => none
  | some (s, m) => emissions (SearchGo 32 s ⟨[]⟩ 0 (solverChooseCol m) m)

/-- Heap of the freshly built example matrix (24 nodes: root, 7 headers,
16 data nodes). -/
def knuthHeap : H := ((NewSparseMatrix knuthMatrix knuthHeaders).map Prod.fst).getD []

/-- Heap of the matrix with no columns and no rows: the root alone. -/
def emptyHeap : H := ((NewSparseMatrix [] []).map Prod.fst).getD []

/-- Heap of the one-column matrix with two single-cell rows. -/
def oneColHeap : H := ((NewSparseMatrix [[1], [1]] ["A"]).map Prod.fst).getD []

/-- Column indices in the half-open range [j, j + count) whose cell in the
given input row holds a positive value, in column order: exactly the cells
for which the remaining construction loop iterations allocate a data node. -/
def rowPosFrom (j count : Nat) (row : List Int) : List Nat :=
  (List.range' j count).filter (fun q => decide (0 < row.getD q 0))

/-- Columns of one input row holding a positive value, in column order. -/
def rowPos (C : Nat) (row : List Int) : List Nat := rowPosFrom 0 C row

/-- Columns of one input row holding a nonzero value, in column order: the
spec phrasing, which coincides with rowPos on non-negative inputs. -/
def rowNonzero (C : Nat) (row : List Int) : List Nat :=
  (List.range' 0 C).filter (fun q => decide (row.getD q 0 ≠ 0))

/-- Number of data nodes a matrix allocates: one per positive cell. -/
def cellCount (C : Nat) (mm : List (List Int)) : Nat :=
  (mm.map (fun r => (rowPos C r).length)).sum

/-- First position of k in a list of column indices. -/
def idxIn (k : Nat) : List Nat → Option Nat
  | [] => none
  | a :: t => if a = k then some 0 else (idxIn k t).map (· + 1)

/-- Heap indices of the data nodes of column k, in row order, for rows whose
nodes are laid out consecutively from heap index base onwards. -/
def colNodesGo (C : Nat) : Nat → List (List Int) → Nat → List Nat
  | _, [], _ => []
  | base, row :: rest, k =>
    let ps := rowPos C row
    match idxIn k ps with
    | some q => (base + q) :: colNodesGo C (base + ps.length) rest k
    | none => colNodesGo C (base + ps.length) rest k

/-- Heap indices of the data nodes of column k of the whole matrix, in row
order; data nodes start right after the root and the C headers. -/
def colNodes (C : Nat) (mm : List (List Int)) (k : Nat) : List Nat :=
  colNodesGo C (1 + C) mm k

/-- Last element of a list of heap indices, with a default. -/
def lastD (l : List Nat) (d : Nat) : Nat := (l.getLast?).getD d

/-- The pointer field selected by f0 traces the list l starting from j and
terminates at stop: the field-level contents of one linked-list walk. -/
def chainSteps (f0 : Node → Nat) (s : H) : List Nat → Nat → Nat → Prop
  | [], stop, j => j = stop
  | a :: t, stop, j => j = a ∧ a ≠ stop ∧ chainSteps f0 s t stop (f0 (getN s a))

/-- Effect of the remaining iterations of one row-construction loop, from
state s to state s', where pt cells of the row were already built at indices
f .. f + pt - 1 (f + pt = s.length) and the loop still scans columns
j .. j + count - 1.  Records which fields change where, what the freshly
built cells look like, and how the touched column headers and their old
bottom cells are rewired. -/
structure RowBuilt (s s' : H) (row : List Int) (j count pt f : Nat) : Prop where
  empt : rowPosFrom j count row = [] → s' = s
  len : s'.length = s.length + (rowPosFrom j count row).length
  right : ∀ x, x < s.length → (pt = 0 ∨ x ≠ f + pt - 1) →
    (getN s' x).right = (getN s x).right
  left : ∀ x, x < s.length → (pt = 0 ∨ x ≠ f) →
    (getN s' x).left = (getN s x).left
  col : ∀ x, x < s.length → (getN s' x).col = (getN s x).col
  down : ∀ x, x < s.length →
    (∀ k ∈ rowPosFrom j count row, x ≠ (getN s (k + 1)).up) →
    (getN s' x).down = (getN s x).down
  upmeta : ∀ x, x < s.length → (∀ k ∈ rowPosFrom j count row, x ≠ k + 1) →
    (getN s' x).up = (getN s x).up ∧ (getN s' x).meta = (getN s x).meta
  hdr : ∀ qr, qr < (rowPosFrom j count row).length →
    (getN s' ((rowPosFrom j count row).getD qr 0 + 1)).up = s.length + qr ∧
    (getN s' ((rowPosFrom j count row).getD qr 0 + 1)).meta =
      Option.map (fun mt => { size := (mt.size + 1) % U64, name := mt.name })
        ((getN s ((rowPosFrom j count row).getD qr 0 + 1)).meta) ∧
    (getN s' ((getN s ((rowPosFrom j count row).getD qr 0 + 1)).up)).down =
      s.length + qr
  cell : ∀ qr, qr < (rowPosFrom j count row).length →
    getN s' (s.length + qr) =
      { right := if qr + 1 < (rowPosFrom j count row).length
                 then s.length + qr + 1 else f,
        up := (getN s ((rowPosFrom j count row).getD qr 0 + 1)).up,
        left := if qr = 0
                then (if pt = 0
                      then s.length + (rowPosFrom j count row).length - 1
                      else f + pt - 1)
                else s.length + qr - 1,
        down := (rowPosFrom j count row).getD qr 0 + 1,
        col := some ((rowPosFrom j count row).getD qr 0 + 1), meta := none }
  lastright : 0 < (rowPosFrom j count row).length → 0 < pt →
    (getN s' (f + pt - 1)).right = s.length
  firstleft : 0 < pt →
    (getN s' f).left =
      (if (rowPosFrom j count row).length = 0 then f + pt - 1
       else s.length + (rowPosFrom j count row).length - 1)

/-- Hypothesis package of the row-construction loop at a general iteration:
the scan is at column j with count columns left, pt cells of the row already
sit at f .. f + pt - 1, the remaining live headers are intact, every touched
column has a Meta, the old column bottoms are distinct and lie below the data
region of the current row. -/
structure LoopHyps (s : H) (row : List Int) (j count pt f C : Nat) : Prop where
  count_eq : j + count = C
  rowlen : C ≤ row.length
  flen : f + pt = s.length
  fC : C < f
  hdrright : ∀ k, j ≤ k → k + 1 < C → (getN s (k + 1)).right = k + 2
  metas : ∀ k ∈ rowPosFrom j count row, ((getN s (k + 1)).meta).isSome = true
  ups : ∀ k ∈ rowPosFrom j count row, (getN s (k + 1)).up < f
  upsne : ∀ k ∈ rowPosFrom j count row, ∀ k' ∈ rowPosFrom j count row, k ≠ k' →
    (getN s (k + 1)).up ≠ (getN s (k' + 1)).up
  fleft : 0 < pt → (getN s f).left = f + pt - 1

/-- Effect of one positive-cell iteration at column j: the state sn extends s
by the single fresh node s.length, wired below column j + 1 and at the end of
the partial row ring f .. f + pt - 1; all other fields survive. -/
structure CellStep (s sn : H) (j pt f : Nat) : Prop where
  len : sn.length = s.length + 1
  right : ∀ x, x < s.length → (pt = 0 ∨ x ≠ f + pt - 1) →
    (getN sn x).right = (getN s x).right
  left : ∀ x, x < s.length → (pt = 0 ∨ x ≠ f) →
    (getN sn x).left = (getN s x).left
  col : ∀ x, x < s.length → (getN sn x).col = (getN s x).col
  down : ∀ x, x < s.length → x ≠ (getN s (j + 1)).up →
    (getN sn x).down = (getN s x).down
  upmeta : ∀ x, x < s.length → x ≠ j + 1 →
    (getN sn x).up = (getN s x).up ∧ (getN sn x).meta = (getN s x).meta
  hdrup : (getN sn (j + 1)).up = s.length
  hdrmeta : (getN sn (j + 1)).meta =
    Option.map (fun mt => { size := (mt.size + 1) % U64, name := mt.name })
      ((getN s (j + 1)).meta)
  olddown : (getN sn ((getN s (j + 1)).up)).down = s.length
  cell : getN sn s.length =
    { right := f, up := (getN s (j + 1)).up,
      left := (if pt = 0 then f else f + pt - 1),
      down := j + 1, col := some (j + 1), meta := none }
  lastr : 0 < pt → (getN sn (f + pt - 1)).right = s.length
  fleft : (getN sn f).left = s.length



/-- Heap index of the first data node of input row i: right after the root,
the C headers and the cells of the earlier rows. -/
def rowBase (C : Nat) (mm : List (List Int)) (i : Nat) : Nat :=
  1 + C + cellCount C (mm.take i)

/-- State of the heap after the root and the first n header nodes are built:
length, the partial header ring closing through the root, and the full
contents of every header so far. -/
structure HdrInv (hdrs : List String) (n : Nat) (s : H) : Prop where
  len : s.length = n + 1
  rootright : (getN s 0).right = if n = 0 then 0 else 1
  rootleft : (getN s 0).left = n
  node : ∀ k, k < n →
    getN s (k + 1) =
      { right := if k + 1 = n then 0 else k + 2, up := k + 1, left := k,
        down := k + 1, col := none,
        meta := some { size := 0, name := hdrs.getD k "" } }

/-- Invariant of the outer row loop after the first t input rows are built:
allocation count, header ring, header sizes and names, column chains, and
the column ownership and right-pointer rings of the finished rows. -/
structure BuildInv (hdrs : List String) (m : List (List Int)) (t : Nat) (s : H) : Prop where
  len : s.length = 1 + hdrs.length + cellCount hdrs.length (m.take t)
  rootright : (getN s 0).right = if hdrs.length = 0 then 0 else 1
  hdrright : ∀ k, k < hdrs.length →
    (getN s (k + 1)).right = if k + 1 = hdrs.length then 0 else k + 2
  hdrmeta : ∀ k, k < hdrs.length →
    (getN s (k + 1)).meta =
      some { size := (colNodes hdrs.length (m.take t) k).length % U64,
             name := hdrs.getD k "" }
  hdrup : ∀ k, k < hdrs.length →
    (getN s (k + 1)).up = lastD (colNodes hdrs.length (m.take t) k) (k + 1)
  chains : ∀ k, k < hdrs.length →
    chainSteps (fun nd => nd.down) s (colNodes hdrs.length (m.take t) k) (k + 1)
      ((getN s (k + 1)).down)
  cols : ∀ i, i < t → ∀ q, q < (rowPos hdrs.length (m.getD i [])).length →
    (getN s (rowBase hdrs.length m i + q)).col =
      some ((rowPos hdrs.length (m.getD i [])).getD q 0 + 1)
  rings : ∀ i, i < t → 0 < (rowPos hdrs.length (m.getD i [])).length →
    chainSteps (fun nd => nd.right) s
      (List.range' (rowBase hdrs.length m i + 1)
        ((rowPos hdrs.length (m.getD i [])).length - 1))
      (rowBase hdrs.length m i)
      ((getN s (rowBase hdrs.length m i)).right)



/-- Cells of one row other than its representative: the right-walk from
i.Right back to i, exactly the cells the inner Cover loop unlinks. -/
def rowWalk (s : H) (i : Nat) : Option (List Nat) :=
  walkF (fun nd => nd.right) (s.length + 1) s i ((getN s i).right)

/-- All cells unlinked for a list of row representatives, in unlink order. -/
def cellsOfRows (s : H) : List Nat → Option (List Nat)
  | [] => some []
  | i :: t =>
    match rowWalk s i with
    | none => none
    | some li =>
      match cellsOfRows s t with
      | none => none
      | some r => some (li ++ r)

/-- Representatives of the rows intersecting column c: its column chain. -/
def coverRows (s : H) (c : Nat) : Option (List Nat) :=
  walkF (fun nd => nd.down) (s.length + 1) s c ((getN s c).down)

/-- Every cell Cover c unlinks: the cells, other than the column-c cell
itself, of every row intersecting c. -/
def coverCells (s : H) (c : Nat) : Option (List Nat) :=
  match coverRows s c with
  | none => none
  | some is => cellsOfRows s is

/-- Non-interference check for one intersecting row: its representative is
not the spliced header neighbour and is nobody's vertical neighbour, and its
cells exclude both spliced header neighbours. -/
def rowOkB (s : H) (c : Nat) (cells : List Nat) (i : Nat) : Bool :=
  decide (i ≠ (getN s c).left) &&
  (cells.all (fun j => decide ((getN s j).up ≠ i)) &&
   (match rowWalk s i with
    | none => false
    | some li =>
      decide ((getN s c).left ∉ li) &&
      (decide ((getN s c).right ∉ li) && li.all (fun x => decide (x ∈ cells)))))

/-- Executable well-formedness check under which the walks Cover performs
coincide with the walks computed in the starting heap. -/
def coverFrameOk (s : H) (c : Nat) : Bool :=
  match coverRows s c with
  | none => false
  | some is =>
    match cellsOfRows s is with
    | none => false
    | some cells => is.all (rowOkB s c cells)

/-- Frame invariant of the Cover loops against the starting heap s: lengths
and Col fields never change, Left/Right only at the spliced header
neighbours, Up only at down-neighbours and Down only at up-neighbours of
unlinked cells, Meta only at their columns; and the vertical fields of the
unlinked cells themselves always hold some cell's original neighbour. -/
structure CoverInv (s : H) (c : Nat) (cells : List Nat) (st : H) : Prop where
  len : st.length = s.length
  col : ∀ n, (getN st n).col = (getN s n).col
  left : ∀ n, n ≠ (getN s c).right → (getN st n).left = (getN s n).left
  right : ∀ n, n ≠ (getN s c).left → (getN st n).right = (getN s n).right
  up : ∀ n, (∀ j ∈ cells, (getN s j).down ≠ n) → (getN st n).up = (getN s n).up
  down : ∀ n, (∀ j ∈ cells, (getN s j).up ≠ n) → (getN st n).down = (getN s n).down
  meta : ∀ n, (∀ j ∈ cells, (getN s j).col ≠ some n) → (getN st n).meta = (getN s n).meta
  upIn : ∀ j ∈ cells, ∃ j2 ∈ cells, (getN st j).up = (getN s j2).up
  downIn : ∀ j ∈ cells, ∃ j2 ∈ cells, (getN st j).down = (getN s j2).down


/-- Claim C1: exhaustive Search on the Knuth example matrix reaches terminal
success exactly once, and the Solution there renders as the three lines
"A D", "E F C", "B G" in depth order, each newline terminated. -/
theorem knuth_search_unique_solution :
    knuthRun = some ["A D\nE F C\nB G\n"] := by decide

theorem length_setN (s : H) (i : Nat) (n : Node) : (setN s i n).length = s.length :=
  List.length_set s i n

theorem getN_eq (s : H) (i : Nat) : getN s i = (s[i]?).getD default := by
  simp [getN, List.getD_eq_getElem?_getD]

theorem getN_setN_eq {s : H} {i : Nat} (n : Node) (h : i < s.length) :
    getN (setN s i n) i = n := by
  simp [getN, setN, List.getD_eq_getElem?_getD, List.getElem?_set_self h]

theorem getN_setN_ne {s : H} {i k : Nat} (n : Node) (h : k ≠ i) :
    getN (setN s i n) k = getN s k := by
  simp [getN, setN, List.getD_eq_getElem?_getD, List.getElem?_set_ne (Ne.symm h)]

theorem setN_oob {s : H} {i : Nat} (n : Node) (h : s.length ≤ i) : setN s i n = s :=
  List.set_eq_of_length_le h

theorem heap_ext {s t : H} (h1 : s.length = t.length) (h2 : ∀ i, getN s i = getN t i) :
    s = t := by
  apply List.ext_getElem?
  intro n
  by_cases hn : n < s.length
  · have hn2 : n < t.length := h1 ▸ hn
    have := h2 n
    rw [getN_eq, getN_eq, List.getElem?_eq_getElem hn, List.getElem?_eq_getElem hn2] at this
    simp only [Option.getD_some] at this
    rw [List.getElem?_eq_getElem hn, List.getElem?_eq_getElem hn2, this]
  · rw [List.getElem?_eq_none (Nat.le_of_not_lt hn),
      List.getElem?_eq_none (h1 ▸ Nat.le_of_not_lt hn)]

theorem length_updRight (s : H) (i : Nat) (v : Nat) : (updRight s i v).length = s.length :=
  length_setN s i _

theorem getN_updRight_ne (s : H) (i : Nat) (v : Nat) {n : Nat} (h : n ≠ i) :
    getN (updRight s i v) n = getN s n :=
  getN_setN_ne _ h

theorem updRight_oob (s : H) {i : Nat} (v : Nat) (h : s.length ≤ i) : updRight s i v = s :=
  setN_oob _ h

theorem getN_updRight_self (s : H) {i : Nat} (v : Nat) (h : i < s.length) :
    getN (updRight s i v) i = { getN s i with right := v } :=
  getN_setN_eq _ h

theorem updRight_right_self (s : H) {i : Nat} (v : Nat) (h : i < s.length) :
    (getN (updRight s i v) i).right = v := by
  rw [getN_updRight_self s v h]

theorem updRight_up (s : H) (i : Nat) (v : Nat) (n : Nat) :
    (getN (updRight s i v) n).up = (getN s n).up := by
  by_cases hn : n = i
  · subst hn
    by_cases hl : n < s.length
    · rw [getN_updRight_self s v hl]
    · rw [updRight_oob s v (Nat.le_of_not_lt hl)]
  · rw [getN_updRight_ne s i v hn]

theorem updRight_left (s : H) (i : Nat) (v : Nat) (n : Nat) :
    (getN (updRight s i v) n).left = (getN s n).left := by
  by_cases hn : n = i
  · subst hn
    by_cases hl : n < s.length
    · rw [getN_updRight_self s v hl]
    · rw [updRight_oob s v (Nat.le_of_not_lt hl)]
  · rw [getN_updRight_ne s i v hn]

theorem updRight_down (s : H) (i : Nat) (v : Nat) (n : Nat) :
    (getN (updRight s i v) n).down = (getN s n).down := by
  by_cases hn : n = i
  · subst hn
    by_cases hl : n < s.length
    · rw [getN_updRight_self s v hl]
    · rw [updRight_oob s v (Nat.le_of_not_lt hl)]
  · rw [getN_updRight_ne s i v hn]

theorem updRight_col (s : H) (i : Nat) (v : Nat) (n : Nat) :
    (getN (updRight s i v) n).col = (getN s n).col := by
  by_cases hn : n = i
  · subst hn
    by_cases hl : n < s.length
    · rw [getN_updRight_self s v hl]
    · rw [updRight_oob s v (Nat.le_of_not_lt hl)]
  · rw [getN_updRight_ne s i v hn]

theorem updRight_meta (s : H) (i : Nat) (v : Nat) (n : Nat) :
    (getN (updRight s i v) n).meta = (getN s n).meta := by
  by_cases hn : n = i
  · subst hn
    by_cases hl : n < s.length
    · rw [getN_updRight_self s v hl]
    · rw [updRight_oob s v (Nat.le_of_not_lt hl)]
  · rw [getN_updRight_ne s i v hn]

theorem length_updUp (s : H) (i : Nat) (v : Nat) : (updUp s i v).length = s.length :=
  length_setN s i _

theorem getN_updUp_ne (s : H) (i : Nat) (v : Nat) {n : Nat} (h : n ≠ i) :
    getN (updUp s i v) n = getN s n :=
  getN_setN_ne _ h

theorem updUp_oob (s : H) {i : Nat} (v : Nat) (h : s.length ≤ i) : updUp s i v = s :=
  setN_oob _ h

theorem getN_updUp_self (s : H) {i : Nat} (v : Nat) (h : i < s.length) :
    getN (updUp s i v) i = { getN s i with up := v } :=
  getN_setN_eq _ h

theorem updUp_up_self (s : H) {i : Nat} (v : Nat) (h : i < s.length) :
    (getN (updUp s i v) i).up = v := by
  rw [getN_updUp_self s v h]

theorem updUp_right (s : H) (i : Nat) (v : Nat) (n : Nat) :
    (getN (updUp s i v) n).right = (getN s n).right := by
  by_cases hn : n = i
  · subst hn
    by_cases hl : n < s.length
    · rw [getN_updUp_self s v hl]
    · rw [updUp_oob s v (Nat.le_of_not_lt hl)]
  · rw [getN_updUp_ne s i v hn]

theorem updUp_left (s : H) (i : Nat) (v : Nat) (n : Nat) :
    (getN (updUp s i v) n).left = (getN s n).left := by
  by_cases hn : n = i
  · subst hn
    by_cases hl : n < s.length
    · rw [getN_updUp_self s v hl]
    · rw [updUp_oob s v (Nat.le_of_not_lt hl)]
  · rw [getN_updUp_ne s i v hn]

theorem updUp_down (s : H) (i : Nat) (v : Nat) (n : Nat) :
    (getN (updUp s i v) n).down = (getN s n).down := by
  by_cases hn : n = i
  · subst hn
    by_cases hl : n < s.length
    · rw [getN_updUp_self s v hl]
    · rw [updUp_oob s v (Nat.le_of_not_lt hl)]
  · rw [getN_updUp_ne s i v hn]

theorem updUp_col (s : H) (i : Nat) (v : Nat) (n : Nat) :
    (getN (updUp s i v) n).col = (getN s n).col := by
  by_cases hn : n = i
  · subst hn
    by_cases hl : n < s.length
    · rw [getN_updUp_self s v hl]
    · rw [updUp_oob s v (Nat.le_of_not_lt hl)]
  · rw [getN_updUp_ne s i v hn]

theorem updUp_meta (s : H) (i : Nat) (v : Nat) (n : Nat) :
    (getN (updUp s i v) n).meta = (getN s n).meta := by
  by_cases hn : n = i
  · subst hn
    by_cases hl : n < s.length
    · rw [getN_updUp_self s v hl]
    · rw [updUp_oob s v (Nat.le_of_not_lt hl)]
  · rw [getN_updUp_ne s i v hn]

theorem length_updLeft (s : H) (i : Nat) (v : Nat) : (updLeft s i v).length = s.length :=
  length_setN s i _

theorem getN_updLeft_ne (s : H) (i : Nat) (v : Nat) {n : Nat} (h : n ≠ i) :
    getN (updLeft s i v) n = getN s n :=
  getN_setN_ne _ h

theorem updLeft_oob (s : H) {i : Nat} (v : Nat) (h : s.length ≤ i) : updLeft s i v = s :=
  setN_oob _ h

theorem getN_updLeft_self (s : H) {i : Nat} (v : Nat) (h : i < s.length) :
    getN (updLeft s i v) i = { getN s i with left := v } :=
  getN_setN_eq _ h

theorem updLeft_left_self (s : H) {i : Nat} (v : Nat) (h : i < s.length) :
    (getN (updLeft s i v) i).left = v := by
  rw [getN_updLeft_self s v h]

theorem updLeft_right (s : H) (i : Nat) (v : Nat) (n : Nat) :
    (getN (updLeft s i v) n).right = (getN s n).right := by
  by_cases hn : n = i
  · subst hn
    by_cases hl : n < s.length
    · rw [getN_updLeft_self s v hl]
    · rw [updLeft_oob s v (Nat.le_of_not_lt hl)]
  · rw [getN_updLeft_ne s i v hn]

theorem updLeft_up (s : H) (i : Nat) (v : Nat) (n : Nat) :
    (getN (updLeft s i v) n).up = (getN s n).up := by
  by_cases hn : n = i
  · subst hn
    by_cases hl : n < s.length
    · rw [getN_updLeft_self s v hl]
    · rw [updLeft_oob s v (Nat.le_of_not_lt hl)]
  · rw [getN_updLeft_ne s i v hn]

theorem updLeft_down (s : H) (i : Nat) (v : Nat) (n : Nat) :
    (getN (updLeft s i v) n).down = (getN s n).down := by
  by_cases hn : n = i
  · subst hn
    by_cases hl : n < s.length
    · rw [getN_updLeft_self s v hl]
    · rw [updLeft_oob s v (Nat.le_of_not_lt hl)]
  · rw [getN_updLeft_ne s i v hn]

theorem updLeft_col (s : H) (i : Nat) (v : Nat) (n : Nat) :
    (getN (updLeft s i v) n).col = (getN s n).col := by
  by_cases hn : n = i
  · subst hn
    by_cases hl : n < s.length
    · rw [getN_updLeft_self s v hl]
    · rw [updLeft_oob s v (Nat.le_of_not_lt hl)]
  · rw [getN_updLeft_ne s i v hn]

theorem updLeft_meta (s : H) (i : Nat) (v : Nat) (n : Nat) :
    (getN (updLeft s i v) n).meta = (getN s n).meta := by
  by_cases hn : n = i
  · subst hn
    by_cases hl : n < s.length
    · rw [getN_updLeft_self s v hl]
    · rw [updLeft_oob s v (Nat.le_of_not_lt hl)]
  · rw [getN_updLeft_ne s i v hn]

theorem length_updDown (s : H) (i : Nat) (v : Nat) : (updDown s i v).length = s.length :=
  length_setN s i _

theorem getN_updDown_ne (s : H) (i : Nat) (v : Nat) {n : Nat} (h : n ≠ i) :
    getN (updDown s i v) n = getN s n :=
  getN_setN_ne _ h

theorem updDown_oob (s : H) {i : Nat} (v : Nat) (h : s.length ≤ i) : updDown s i v = s :=
  setN_oob _ h

theorem getN_updDown_self (s : H) {i : Nat} (v : Nat) (h : i < s.length) :
    getN (updDown s i v) i = { getN s i with down := v } :=
  getN_setN_eq _ h

theorem updDown_down_self (s : H) {i : Nat} (v : Nat) (h : i < s.length) :
    (getN (updDown s i v) i).down = v := by
  rw [getN_updDown_self s v h]

theorem updDown_right (s : H) (i : Nat) (v : Nat) (n : Nat) :
    (getN (updDown s i v) n).right = (getN s n).right := by
  by_cases hn : n = i
  · subst hn
    by_cases hl : n < s.length
    · rw [getN_updDown_self s v hl]
    · rw [updDown_oob s v (Nat.le_of_not_lt hl)]
  · rw [getN_updDown_ne s i v hn]

theorem updDown_up (s : H) (i : Nat) (v : Nat) (n : Nat) :
    (getN (updDown s i v) n).up = (getN s n).up := by
  by_cases hn : n = i
  · subst hn
    by_cases hl : n < s.length
    · rw [getN_updDown_self s v hl]
    · rw [updDown_oob s v (Nat.le_of_not_lt hl)]
  · rw [getN_updDown_ne s i v hn]

theorem updDown_left (s : H) (i : Nat) (v : Nat) (n : Nat) :
    (getN (updDown s i v) n).left = (getN s n).left := by
  by_cases hn : n = i
  · subst hn
    by_cases hl : n < s.length
    · rw [getN_updDown_self s v hl]
    · rw [updDown_oob s v (Nat.le_of_not_lt hl)]
  · rw [getN_updDown_ne s i v hn]

theorem updDown_col (s : H) (i : Nat) (v : Nat) (n : Nat) :
    (getN (updDown s i v) n).col = (getN s n).col := by
  by_cases hn : n = i
  · subst hn
    by_cases hl : n < s.length
    · rw [getN_updDown_self s v hl]
    · rw [updDown_oob s v (Nat.le_of_not_lt hl)]
  · rw [getN_updDown_ne s i v hn]

theorem updDown_meta (s : H) (i : Nat) (v : Nat) (n : Nat) :
    (getN (updDown s i v) n).meta = (getN s n).meta := by
  by_cases hn : n = i
  · subst hn
    by_cases hl : n < s.length
    · rw [getN_updDown_self s v hl]
    · rw [updDown_oob s v (Nat.le_of_not_lt hl)]
  · rw [getN_updDown_ne s i v hn]

theorem length_updCol (s : H) (i : Nat) (v : Option Nat) : (updCol s i v).length = s.length :=
  length_setN s i _

theorem getN_updCol_ne (s : H) (i : Nat) (v : Option Nat) {n : Nat} (h : n ≠ i) :
    getN (updCol s i v) n = getN s n :=
  getN_setN_ne _ h

theorem updCol_oob (s : H) {i : Nat} (v : Option Nat) (h : s.length ≤ i) : updCol s i v = s :=
  setN_oob _ h

theorem getN_updCol_self (s : H) {i : Nat} (v : Option Nat) (h : i < s.length) :
    getN (updCol s i v) i = { getN s i with col := v } :=
  getN_setN_eq _ h

theorem updCol_col_self (s : H) {i : Nat} (v : Option Nat) (h : i < s.length) :
    (getN (updCol s i v) i).col = v := by
  rw [getN_updCol_self s v h]

theorem updCol_right (s : H) (i : Nat) (v : Option Nat) (n : Nat) :
    (getN (updCol s i v) n).right = (getN s n).right := by
  by_cases hn : n = i
  · subst hn
    by_cases hl : n < s.length
    · rw [getN_updCol_self s v hl]
    · rw [updCol_oob s v (Nat.le_of_not_lt hl)]
  · rw [getN_updCol_ne s i v hn]

theorem updCol_up (s : H) (i : Nat) (v : Option Nat) (n : Nat) :
    (getN (updCol s i v) n).up = (getN s n).up := by
  by_cases hn : n = i
  · subst hn
    by_cases hl : n < s.length
    · rw [getN_updCol_self s v hl]
    · rw [updCol_oob s v (Nat.le_of_not_lt hl)]
  · rw [getN_updCol_ne s i v hn]

theorem updCol_left (s : H) (i : Nat) (v : Option Nat) (n : Nat) :
    (getN (updCol s i v) n).left = (getN s n).left := by
  by_cases hn : n = i
  · subst hn
    by_cases hl : n < s.length
    · rw [getN_updCol_self s v hl]
    · rw [updCol_oob s v (Nat.le_of_not_lt hl)]
  · rw [getN_updCol_ne s i v hn]

theorem updCol_down (s : H) (i : Nat) (v : Option Nat) (n : Nat) :
    (getN (updCol s i v) n).down = (getN s n).down := by
  by_cases hn : n = i
  · subst hn
    by_cases hl : n < s.length
    · rw [getN_updCol_self s v hl]
    · rw [updCol_oob s v (Nat.le_of_not_lt hl)]
  · rw [getN_updCol_ne s i v hn]

theorem updCol_meta (s : H) (i : Nat) (v : Option Nat) (n : Nat) :
    (getN (updCol s i v) n).meta = (getN s n).meta := by
  by_cases hn : n = i
  · subst hn
    by_cases hl : n < s.length
    · rw [getN_updCol_self s v hl]
    · rw [updCol_oob s v (Nat.le_of_not_lt hl)]
  · rw [getN_updCol_ne s i v hn]

theorem length_updMeta (s : H) (i : Nat) (v : Option Meta) : (updMeta s i v).length = s.length :=
  length_setN s i _

theorem getN_updMeta_ne (s : H) (i : Nat) (v : Option Meta) {n : Nat} (h : n ≠ i) :
    getN (updMeta s i v) n = getN s n :=
  getN_setN_ne _ h

theorem updMeta_oob (s : H) {i : Nat} (v : Option Meta) (h : s.length ≤ i) : updMeta s i v = s :=
  setN_oob _ h

theorem getN_updMeta_self (s : H) {i : Nat} (v : Option Meta) (h : i < s.length) :
    getN (updMeta s i v) i = { getN s i with meta := v } :=
  getN_setN_eq _ h

theorem updMeta_meta_self (s : H) {i : Nat} (v : Option Meta) (h : i < s.length) :
    (getN (updMeta s i v) i).meta = v := by
  rw [getN_updMeta_self s v h]

theorem updMeta_right (s : H) (i : Nat) (v : Option Meta) (n : Nat) :
    (getN (updMeta s i v) n).right = (getN s n).right := by
  by_cases hn : n = i
  · subst hn
    by_cases hl : n < s.length
    · rw [getN_updMeta_self s v hl]
    · rw [updMeta_oob s v (Nat.le_of_not_lt hl)]
  · rw [getN_updMeta_ne s i v hn]

theorem updMeta_up (s : H) (i : Nat) (v : Option Meta) (n : Nat) :
    (getN (updMeta s i v) n).up = (getN s n).up := by
  by_cases hn : n = i
  · subst hn
    by_cases hl : n < s.length
    · rw [getN_updMeta_self s v hl]
    · rw [updMeta_oob s v (Nat.le_of_not_lt hl)]
  · rw [getN_updMeta_ne s i v hn]

theorem updMeta_left (s : H) (i : Nat) (v : Option Meta) (n : Nat) :
    (getN (updMeta s i v) n).left = (getN s n).left := by
  by_cases hn : n = i
  · subst hn
    by_cases hl : n < s.length
    · rw [getN_updMeta_self s v hl]
    · rw [updMeta_oob s v (Nat.le_of_not_lt hl)]
  · rw [getN_updMeta_ne s i v hn]

theorem updMeta_down (s : H) (i : Nat) (v : Option Meta) (n : Nat) :
    (getN (updMeta s i v) n).down = (getN s n).down := by
  by_cases hn : n = i
  · subst hn
    by_cases hl : n < s.length
    · rw [getN_updMeta_self s v hl]
    · rw [updMeta_oob s v (Nat.le_of_not_lt hl)]
  · rw [getN_updMeta_ne s i v hn]

theorem updMeta_col (s : H) (i : Nat) (v : Option Meta) (n : Nat) :
    (getN (updMeta s i v) n).col = (getN s n).col := by
  by_cases hn : n = i
  · subst hn
    by_cases hl : n < s.length
    · rw [getN_updMeta_self s v hl]
    · rw [updMeta_oob s v (Nat.le_of_not_lt hl)]
  · rw [getN_updMeta_ne s i v hn]

theorem vUnlink_frame_lr {s s' : H} {j : Nat} (h : vUnlink s j = some s') (n : Nat) :
    (getN s' n).left = (getN s n).left ∧ (getN s' n).right = (getN s n).right := by
  simp only [vUnlink] at h
  split at h
  · exact absurd h (by simp)
  · split at h
    · exact absurd h (by simp)
    · rw [Option.some_inj] at h
      subst h
      exact ⟨by rw [updMeta_left, updDown_left, updUp_left],
             by rw [updMeta_right, updDown_right, updUp_right]⟩

theorem vUnlink_frame_col {s s' : H} {j : Nat} (h : vUnlink s j = some s') (n : Nat) :
    (getN s' n).col = (getN s n).col := by
  simp only [vUnlink] at h
  split at h
  · exact absurd h (by simp)
  · split at h
    · exact absurd h (by simp)
    · rw [Option.some_inj] at h
      subst h
      rw [updMeta_col, updDown_col, updUp_col]

theorem vUnlink_length {s s' : H} {j : Nat} (h : vUnlink s j = some s') :
    s'.length = s.length := by
  simp only [vUnlink] at h
  split at h
  · exact absurd h (by simp)
  · split at h
    · exact absurd h (by simp)
    · rw [Option.some_inj] at h
      subst h
      rw [length_updMeta, length_updDown, length_updUp]

theorem vRelink_frame_lr {s s' : H} {j : Nat} (h : vRelink s j = some s') (n : Nat) :
    (getN s' n).left = (getN s n).left ∧ (getN s' n).right = (getN s n).right := by
  simp only [vRelink] at h
  split at h
  · exact absurd h (by simp)
  · split at h
    · exact absurd h (by simp)
    · rw [Option.some_inj] at h
      subst h
      exact ⟨by rw [updDown_left, updUp_left, updMeta_left],
             by rw [updDown_right, updUp_right, updMeta_right]⟩

theorem vRelink_frame_col {s s' : H} {j : Nat} (h : vRelink s j = some s') (n : Nat) :
    (getN s' n).col = (getN s n).col := by
  simp only [vRelink] at h
  split at h
  · exact absurd h (by simp)
  · split at h
    · exact absurd h (by simp)
    · rw [Option.some_inj] at h
      subst h
      rw [updDown_col, updUp_col, updMeta_col]

theorem vRelink_length {s s' : H} {j : Nat} (h : vRelink s j = some s') :
    s'.length = s.length := by
  simp only [vRelink] at h
  split at h
  · exact absurd h (by simp)
  · split at h
    · exact absurd h (by simp)
    · rw [Option.some_inj] at h
      subst h
      rw [length_updDown, length_updUp, length_updMeta]

theorem coverInnerGo_frame_lr :
    ∀ {fuel : Nat} {s s' : H} {i j : Nat}, coverInnerGo fuel s i j = some s' →
    ∀ n, (getN s' n).left = (getN s n).left ∧ (getN s' n).right = (getN s n).right := by
  intro fuel
  induction fuel with
  | zero => intro s s' i j h; exact absurd h (by simp [coverInnerGo])
  | succ f ih =>
    intro s s' i j h n
    rw [coverInnerGo] at h
    by_cases hj : j = i
    · rw [if_pos hj, Option.some_inj] at h; subst h; exact ⟨rfl, rfl⟩
    · rw [if_neg hj] at h
      rcases hu : vUnlink s j with _ | s1
      · rw [hu] at h; exact absurd h (by simp)
      · rw [hu] at h
        obtain ⟨hl, hr⟩ := ih h n
        obtain ⟨hl2, hr2⟩ := vUnlink_frame_lr hu n
        exact ⟨hl.trans hl2, hr.trans hr2⟩

theorem coverRowsGo_frame_lr :
    ∀ {fuel : Nat} {s s' : H} {c i : Nat}, coverRowsGo fuel s c i = some s' →
    ∀ n, (getN s' n).left = (getN s n).left ∧ (getN s' n).right = (getN s n).right := by
  intro fuel
  induction fuel with
  | zero => intro s s' c i h; exact absurd h (by simp [coverRowsGo])
  | succ f ih =>
    intro s s' c i h n
    rw [coverRowsGo] at h
    by_cases hi : i = c
    · rw [if_pos hi, Option.some_inj] at h; subst h; exact ⟨rfl, rfl⟩
    · rw [if_neg hi] at h
      rcases hu : coverInnerGo (s.length + 1) s i ((getN s i).right) with _ | s1
      · rw [hu] at h; exact absurd h (by simp)
      · rw [hu] at h
        obtain ⟨hl, hr⟩ := ih h n
        obtain ⟨hl2, hr2⟩ := coverInnerGo_frame_lr hu n
        exact ⟨hl.trans hl2, hr.trans hr2⟩

theorem walkF_congr {f : Node → Nat} {s s' : H} :
    ∀ {fuel : Nat} {stop j : Nat} {l : List Nat}, walkF f fuel s stop j = some l →
    (∀ x ∈ l, f (getN s' x) = f (getN s x)) → walkF f fuel s' stop j = some l := by
  intro fuel
  induction fuel with
  | zero => intro stop j l h _; exact absurd h (by simp [walkF])
  | succ n ih =>
    intro stop j l h hx
    rw [walkF] at h ⊢
    by_cases hj : j = stop
    · simpa [hj] using h
    · rw [if_neg hj] at h ⊢
      rcases hw : walkF f n s stop (f (getN s j)) with _ | l'
      · rw [hw] at h; exact absurd h (by simp)
      · rw [hw] at h
        simp only [Option.some.injEq] at h
        subst h
        have hj' : f (getN s' j) = f (getN s j) := hx j (by simp)
        rw [hj', ih hw (fun x hxl => hx x (by simp [hxl]))]

/-- Node-level effect of one vertical unlink: Col, Left, Right and the
length survive; Up changes only at the cell's down-neighbour, Down only at
its up-neighbour, Meta only at its column; the values written there are the
cell's other vertical neighbour (or nothing, out of bounds). -/
theorem vUnlink_effect {st st1 : H} {j : Nat} (h : vUnlink st j = some st1) :
    st1.length = st.length ∧
    (∀ n, (getN st1 n).col = (getN st n).col) ∧
    (∀ n, (getN st1 n).right = (getN st n).right) ∧
    (∀ n, (getN st1 n).left = (getN st n).left) ∧
    (∀ n, n ≠ (getN st j).down → (getN st1 n).up = (getN st n).up) ∧
    (∀ n, n ≠ (getN st j).up → (getN st1 n).down = (getN st n).down) ∧
    (∀ n, (getN st j).col ≠ some n → (getN st1 n).meta = (getN st n).meta) ∧
    ((getN st1 ((getN st j).down)).up = (getN st j).up ∨
      (getN st1 ((getN st j).down)).up = (getN st ((getN st j).down)).up) ∧
    ((getN st1 ((getN st j).up)).down = (getN st j).down ∨
      (getN st1 ((getN st j).up)).down = (getN st ((getN st j).up)).down) := by
  rcases hcol : (getN st j).col with _ | d
  · simp only [vUnlink, hcol] at h
    exact absurd h (by simp)
  · simp only [vUnlink, hcol] at h
    rcases hmt : (getN (updDown (updUp st (getN st j).down (getN st j).up)
        (getN st j).up (getN st j).down) d).meta with _ | mt
    · rw [hmt] at h
      exact absurd h (by simp)
    · rw [hmt] at h
      rw [Option.some_inj] at h
      subst h
      refine ⟨?_, ?_, ?_, ?_, ?_, ?_, ?_, ?_, ?_⟩
      · rw [length_updMeta, length_updDown, length_updUp]
      · intro n
        rw [updMeta_col, updDown_col, updUp_col]
      · intro n
        rw [updMeta_right, updDown_right, updUp_right]
      · intro n
        rw [updMeta_left, updDown_left, updUp_left]
      · intro n hn
        rw [updMeta_up, updDown_up, getN_updUp_ne _ _ _ hn]
      · intro n hn
        rw [updMeta_down, getN_updDown_ne _ _ _ hn, updUp_down]
      · intro n hg
        have hdn : n ≠ d := by
          intro hh
          exact hg (by rw [hh])
        rw [getN_updMeta_ne _ _ _ hdn, updDown_meta, updUp_meta]
      · by_cases hA : (getN st j).down < st.length
        · refine Or.inl ?_
          rw [updMeta_up, updDown_up, getN_updUp_self st _ hA]
        · refine Or.inr ?_
          rw [updMeta_up, updDown_up, updUp_oob st _ (Nat.le_of_not_lt hA)]
      · by_cases hB : (getN st j).up <
            (updUp st (getN st j).down (getN st j).up).length
        · refine Or.inl ?_
          rw [updMeta_down, getN_updDown_self _ _ hB]
        · refine Or.inr ?_
          rw [updMeta_down, updDown_oob _ _ (Nat.le_of_not_lt hB), updUp_down]

/-- Unlinking a recorded cell preserves the Cover frame invariant. -/
theorem coverInv_vUnlink {s : H} {c : Nat} {cells : List Nat} {st st1 : H} {j : Nat}
    (hj : j ∈ cells) (hI : CoverInv s c cells st) (h : vUnlink st j = some st1) :
    CoverInv s c cells st1 := by
  obtain ⟨hlen, hcol, hright, hleft, hup, hdown, hmeta, hA, hB⟩ := vUnlink_effect h
  obtain ⟨j2, hj2, hj2e⟩ := hI.upIn j hj
  obtain ⟨j3, hj3, hj3e⟩ := hI.downIn j hj
  refine ⟨?_, ?_, ?_, ?_, ?_, ?_, ?_, ?_, ?_⟩
  · rw [hlen, hI.len]
  · intro n
    rw [hcol n, hI.col n]
  · intro n hn
    rw [hleft n, hI.left n hn]
  · intro n hn
    rw [hright n, hI.right n hn]
  · intro n hg
    have hnA : n ≠ (getN st j).down := by
      rw [hj3e]
      exact fun hh => hg j3 hj3 hh.symm
    rw [hup n hnA, hI.up n hg]
  · intro n hg
    have hnB : n ≠ (getN st j).up := by
      rw [hj2e]
      exact fun hh => hg j2 hj2 hh.symm
    rw [hdown n hnB, hI.down n hg]
  · intro n hg
    have hnc : (getN st j).col ≠ some n := by
      rw [hI.col j]
      exact hg j hj
    rw [hmeta n hnc, hI.meta n hg]
  · intro j0 hj0
    by_cases hj0A : j0 = (getN st j).down
    · rcases hA with hA1 | hA2
      · refine ⟨j2, hj2, ?_⟩
        rw [hj0A, hA1, hj2e]
      · obtain ⟨j4, hj4, hj4e⟩ := hI.upIn j0 hj0
        refine ⟨j4, hj4, ?_⟩
        rw [hj0A, hA2, ← hj0A, hj4e]
    · obtain ⟨j4, hj4, hj4e⟩ := hI.upIn j0 hj0
      refine ⟨j4, hj4, ?_⟩
      rw [hup j0 hj0A, hj4e]
  · intro j0 hj0
    by_cases hj0B : j0 = (getN st j).up
    · rcases hB with hB1 | hB2
      · refine ⟨j3, hj3, ?_⟩
        rw [hj0B, hB1, hj3e]
      · obtain ⟨j4, hj4, hj4e⟩ := hI.downIn j0 hj0
        refine ⟨j4, hj4, ?_⟩
        rw [hj0B, hB2, ← hj0B, hj4e]
    · obtain ⟨j4, hj4, hj4e⟩ := hI.downIn j0 hj0
      refine ⟨j4, hj4, ?_⟩
      rw [hdown j0 hj0B, hj4e]

/-- Every recorded cell comes from the row walk of some representative. -/
theorem cellsOfRows_mem {s : H} :
    ∀ {is cells : List Nat}, cellsOfRows s is = some cells →
      ∀ j ∈ cells, ∃ i ∈ is, ∃ li, rowWalk s i = some li ∧ j ∈ li := by
  intro is
  induction is with
  | nil =>
    intro cells h j hj
    rw [cellsOfRows, Option.some_inj] at h
    rw [← h] at hj
    simp at hj
  | cons i t ih =>
    intro cells h j hj
    rw [cellsOfRows] at h
    rcases hrw : rowWalk s i with _ | li
    · rw [hrw] at h
      exact absurd h (by simp)
    · rw [hrw] at h
      rcases hrec : cellsOfRows s t with _ | r
      · rw [hrec] at h
        exact absurd h (by simp)
      · rw [hrec, Option.some_inj] at h
        rw [← h] at hj
        rcases List.mem_append.mp hj with hjl | hjr
        · exact ⟨i, by simp, li, hrw, hjl⟩
        · obtain ⟨i2, hi2, li2, hli2, hjli2⟩ := ih hrec j hjr
          exact ⟨i2, by simp [hi2], li2, hli2, hjli2⟩

/-- The inner Cover loop over one recorded row preserves the frame
invariant. -/
theorem coverInnerGo_inv (s : H) (c : Nat) (cells : List Nat) :
    ∀ (fuel : Nat) (st : H) (i j : Nat) (s2 : H) (l : List Nat),
      coverInnerGo fuel st i j = some s2 →
      walkF (fun nd => nd.right) fuel s i j = some l →
      (∀ x ∈ l, x ∈ cells) → (getN s c).left ∉ l →
      CoverInv s c cells st → CoverInv s c cells s2 := by
  intro fuel
  induction fuel with
  | zero =>
    intro st i j s2 l hrun
    exact absurd hrun (by simp [coverInnerGo])
  | succ f ih =>
    intro st i j s2 l hrun hwalk hsub hnotin hI
    rw [coverInnerGo] at hrun
    rw [walkF] at hwalk
    by_cases hj : j = i
    · rw [if_pos hj, Option.some_inj] at hrun
      rw [← hrun]
      exact hI
    · rw [if_neg hj] at hrun
      rw [if_neg hj] at hwalk
      rcases hu : vUnlink st j with _ | st1
      · rw [hu] at hrun
        exact absurd hrun (by simp)
      · rw [hu] at hrun
        have hrun2 : coverInnerGo f st1 i ((getN st1 j).right) = some s2 := hrun
        rcases hw : walkF (fun nd => nd.right) f s i
            ((fun nd => nd.right) (getN s j)) with _ | l2
        · rw [hw] at hwalk
          exact absurd hwalk (by simp)
        · rw [hw] at hwalk
          simp only [Option.some.injEq] at hwalk
          have hjc : j ∈ cells := hsub j (by rw [← hwalk]; simp)
          have hjcl : j ≠ (getN s c).left := by
            intro hh
            exact hnotin (by rw [← hwalk, ← hh]; simp)
          have hI1 := coverInv_vUnlink hjc hI hu
          have hsucc : (getN st1 j).right = (getN s j).right := by
            rw [(vUnlink_effect hu).2.2.1 j]
            exact hI.right j hjcl
          rw [hsucc] at hrun2
          refine ih st1 i ((getN s j).right) s2 l2 hrun2 hw ?_ ?_ hI1
          · intro x hx
            exact hsub x (by rw [← hwalk]; simp [hx])
          · intro hx
            exact hnotin (by rw [← hwalk]; simp [hx])

/-- The outer Cover loop over the recorded rows preserves the frame
invariant. -/
theorem coverRowsGo_inv (s : H) (c : Nat) (cells : List Nat) :
    ∀ (fuel : Nat) (st : H) (i : Nat) (s2 : H) (is : List Nat),
      coverRowsGo fuel st c i = some s2 →
      walkF (fun nd => nd.down) fuel s c i = some is →
      (∀ i2 ∈ is, i2 ≠ (getN s c).left ∧ (∀ j ∈ cells, (getN s j).up ≠ i2) ∧
        ∃ li, rowWalk s i2 = some li ∧ (∀ x ∈ li, x ∈ cells) ∧
          (getN s c).left ∉ li) →
      CoverInv s c cells st → CoverInv s c cells s2 := by
  intro fuel
  induction fuel with
  | zero =>
    intro st i s2 is hrun
    exact absurd hrun (by simp [coverRowsGo])
  | succ f ih =>
    intro st i s2 is hrun hwalk hconds hI
    rw [coverRowsGo] at hrun
    rw [walkF] at hwalk
    by_cases hi : i = c
    · rw [if_pos hi, Option.some_inj] at hrun
      rw [← hrun]
      exact hI
    · rw [if_neg hi] at hrun
      rw [if_neg hi] at hwalk
      rcases hinner : coverInnerGo (st.length + 1) st i ((getN st i).right)
          with _ | st1
      · rw [hinner] at hrun
        exact absurd hrun (by simp)
      · rw [hinner] at hrun
        have hrun2 : coverRowsGo f st1 c ((getN st1 i).down) = some s2 := hrun
        rcases hw : walkF (fun nd => nd.down) f s c
            ((fun nd => nd.down) (getN s i)) with _ | is2
        · rw [hw] at hwalk
          exact absurd hwalk (by simp)
        · rw [hw] at hwalk
          simp only [Option.some.injEq] at hwalk
          have hiis : i ∈ is := by
            rw [← hwalk]
            simp
          obtain ⟨hicl, hiU, li, hli, hlisub, hlicl⟩ := hconds i hiis
          have hstart : (getN st i).right = (getN s i).right := hI.right i hicl
          have hflen : st.length + 1 = s.length + 1 := by rw [hI.len]
          rw [hstart, hflen] at hinner
          have hI1 := coverInnerGo_inv s c cells (s.length + 1) st i
            ((getN s i).right) st1 li hinner hli hlisub hlicl hI
          have hnext : (getN st1 i).down = (getN s i).down := hI1.down i hiU
          rw [hnext] at hrun2
          refine ih st1 ((getN s i).down) s2 is2 hrun2 hw ?_ hI1
          intro i2 hi2
          exact hconds i2 (by rw [← hwalk]; simp [hi2])

/-- Claim C6: Cover modifies only the header-row Left/Right links around c,
the Up/Down links of the vertical neighbours of the cells of the rows
intersecting c, and the Metas (hence Size counters) of those cells' columns;
lengths and Col fields never change, the Left and Right links of every cell
of an intersected row are unchanged, and any horizontal walk avoiding the
spliced header neighbour still yields the same visit list afterwards. -/
theorem cover_preserves_row_links {s s2 : H} {c : Nat} {cells : List Nat}
    (h : Cover s c = some s2) (hcells : coverCells s c = some cells)
    (hok : coverFrameOk s c = true) :
    s2.length = s.length ∧
    (∀ n, (getN s2 n).col = (getN s n).col) ∧
    (∀ n, n ≠ (getN s c).right → (getN s2 n).left = (getN s n).left) ∧
    (∀ n, n ≠ (getN s c).left → (getN s2 n).right = (getN s n).right) ∧
    (∀ n, (∀ j ∈ cells, (getN s j).down ≠ n) → (getN s2 n).up = (getN s n).up) ∧
    (∀ n, (∀ j ∈ cells, (getN s j).up ≠ n) → (getN s2 n).down = (getN s n).down) ∧
    (∀ n, (∀ j ∈ cells, (getN s j).col ≠ some n) →
      (getN s2 n).meta = (getN s n).meta) ∧
    (∀ j ∈ cells, (getN s2 j).left = (getN s j).left ∧
      (getN s2 j).right = (getN s j).right) ∧
    (∀ fuel i j l, walkF (fun nd => nd.right) fuel s i j = some l →
      (getN s c).left ∉ l → walkF (fun nd => nd.right) fuel s2 i j = some l) := by
  rcases hrows : coverRows s c with _ | is
  · simp only [coverCells, hrows] at hcells
    exact absurd hcells (by simp)
  · simp only [coverCells, hrows] at hcells
    simp only [coverFrameOk, hrows, hcells] at hok
    have hconds : ∀ i2 ∈ is, i2 ≠ (getN s c).left ∧
        (∀ j ∈ cells, (getN s j).up ≠ i2) ∧
        ∃ li, rowWalk s i2 = some li ∧ (∀ x ∈ li, x ∈ cells) ∧
          (getN s c).left ∉ li ∧ (getN s c).right ∉ li := by
      intro i2 hi2
      have h2 := List.all_eq_true.mp hok i2 hi2
      rcases hrw : rowWalk s i2 with _ | li
      · simp only [rowOkB, hrw, Bool.and_false] at h2
        exact absurd h2 (by simp)
      · simp only [rowOkB, hrw, Bool.and_eq_true, decide_eq_true_eq,
          List.all_eq_true] at h2
        obtain ⟨hne, hU, hcl, hcr, hsub⟩ := h2
        exact ⟨hne, hU, li, rfl, hsub, hcl, hcr⟩
    simp only [Cover] at h
    split at h
    · exact absurd h (by simp)
    · have hIs2 : CoverInv s c cells
          (updRight (updLeft s (getN s c).right (getN s c).left)
            (getN s c).left (getN s c).right) := by
        refine ⟨?_, ?_, ?_, ?_, ?_, ?_, ?_, ?_, ?_⟩
        · rw [length_updRight, length_updLeft]
        · intro n
          rw [updRight_col, updLeft_col]
        · intro n hn
          rw [updRight_left, getN_updLeft_ne _ _ _ hn]
        · intro n hn
          rw [getN_updRight_ne _ _ _ hn, updLeft_right]
        · intro n _
          rw [updRight_up, updLeft_up]
        · intro n _
          rw [updRight_down, updLeft_down]
        · intro n _
          rw [updRight_meta, updLeft_meta]
        · intro j0 hj0
          exact ⟨j0, hj0, by rw [updRight_up, updLeft_up]⟩
        · intro j0 hj0
          exact ⟨j0, hj0, by rw [updRight_down, updLeft_down]⟩
      have hlen2 : (updRight (updLeft s (getN s c).right (getN s c).left)
          (getN s c).left (getN s c).right).length = s.length := by
        rw [length_updRight, length_updLeft]
      have hd2 : (getN (updRight (updLeft s (getN s c).right (getN s c).left)
          (getN s c).left (getN s c).right) c).down = (getN s c).down := by
        rw [updRight_down, updLeft_down]
      rw [hlen2, hd2] at h
      have hIfin := coverRowsGo_inv s c cells (s.length + 1) _ ((getN s c).down)
        s2 is h hrows
        (fun i2 hi2 => by
          obtain ⟨ha, hb, li, hc2, hd3, he2, _⟩ := hconds i2 hi2
          exact ⟨ha, hb, li, hc2, hd3, he2⟩)
        hIs2
      refine ⟨hIfin.len, hIfin.col, hIfin.left, hIfin.right, hIfin.up,
        hIfin.down, hIfin.meta, ?_, ?_⟩
      · intro j0 hj0
        obtain ⟨i2, hi2, li, hli, hjli⟩ := cellsOfRows_mem hcells j0 hj0
        obtain ⟨_, _, li2, hli2, _, hcl2, hcr2⟩ := hconds i2 hi2
        have hee : li = li2 := by
          rw [hli] at hli2
          exact Option.some_inj.mp hli2
        rw [← hee] at hcl2 hcr2
        exact ⟨hIfin.left j0 (fun hh => hcr2 (hh ▸ hjli)),
          hIfin.right j0 (fun hh => hcl2 (hh ▸ hjli))⟩
      · intro fuel i j l hw hnotin
        refine walkF_congr hw ?_
        intro x hx
        show (getN s2 x).right = (getN s x).right
        exact hIfin.right x (fun hh => hnotin (hh ▸ hx))

/-- Witness for claim C6 on the example matrix: covering column A leaves the
Left link of data node 10 and the Up link of the root untouched. -/
theorem cover_preserves_row_links_witness :
    (getN ((Cover knuthHeap 1).getD []) 10).left = (getN knuthHeap 10).left ∧
    (getN ((Cover knuthHeap 1).getD []) 0).up = (getN knuthHeap 0).up :=
  ⟨(@cover_preserves_row_links knuthHeap ((Cover knuthHeap 1).getD []) 1
      ((coverCells knuthHeap 1).getD []) (by decide) (by decide)
      (by decide)).2.2.1 10 (by decide),
   (@cover_preserves_row_links knuthHeap ((Cover knuthHeap 1).getD []) 1
      ((coverCells knuthHeap 1).getD []) (by decide) (by decide)
      (by decide)).2.2.2.2.1 0 (by decide)⟩

/-- Claim C8: Solution.Set overwrites in place below the length, appends at
the old length otherwise, leaves other entries unchanged, and Get after Set
at any index up to the length returns the new value. -/
theorem solution_set_get (sol : Solution) (i : Nat) (n : Nat) :
    (i < sol.items.length → (Solution.set sol i n).items = sol.items.set i (some n)) ∧
    (sol.items.length ≤ i → (Solution.set sol i n).items = sol.items ++ [some n]) ∧
    (∀ k, k ≠ i → k < sol.items.length → (Solution.set sol i n).get k = sol.get k) ∧
    (i ≤ sol.items.length → (Solution.set sol i n).get i = some (some n)) := by
  refine ⟨?_, ?_, ?_, ?_⟩
  · intro hlt
    simp only [Solution.set, if_pos hlt]
  · intro hge
    simp only [Solution.set, if_neg (Nat.not_lt.mpr hge)]
  · intro k hk hklt
    by_cases hlt : i < sol.items.length
    · simp only [Solution.set, if_pos hlt, Solution.get]
      exact List.getElem?_set_ne (Ne.symm hk)
    · simp only [Solution.set, if_neg hlt, Solution.get]
      rw [List.getElem?_append]
      rw [if_pos hklt]
  · intro hle
    by_cases hlt : i < sol.items.length
    · simp only [Solution.set, if_pos hlt, Solution.get]
      exact List.getElem?_set_self hlt
    · have hi : i = sol.items.length := Nat.le_antisymm hle (Nat.le_of_not_lt hlt)
      simp only [Solution.set, if_neg hlt, Solution.get]
      rw [List.getElem?_append_right (by rw [hi]), hi]
      simp

/-- Witness for claim C8: in-place overwrite at index 1 and append-then-read
at the length. -/
theorem solution_set_get_witness :
    (Solution.set ⟨[some 3, some 4]⟩ 1 7).items = [some 3, some 7] ∧
    (Solution.set ⟨[some 3, some 4]⟩ 2 7).get 2 = some (some 7) :=
  ⟨((solution_set_get ⟨[some 3, some 4]⟩ 1 7).1 (by decide)).trans (by decide),
   (solution_set_get ⟨[some 3, some 4]⟩ 2 7).2.2.2 (by decide)⟩

/-- Claim C10: with an empty header row (the right neighbour of the root is
the root itself) SmallestCol returns the nil pointer, and the default
ChooseCol of the Solver, which dereferences that result, crashes. -/
theorem smallestCol_empty_nil (s : H) (m k : Nat)
    (h : (getN s (Root s m)).right = Root s m) :
    SmallestCol s m = some none ∧ solverChooseCol m s k = none := by
  have h1 : SmallestCol s m = some none := by
    simp only [SmallestCol]
    rw [h, smallestColGo, if_pos rfl]
  refine ⟨h1, ?_⟩
  simp only [solverChooseCol]
  rw [h1]

/-- Witness for claim C10 on the empty matrix. -/
theorem smallestCol_empty_nil_witness :
    SmallestCol emptyHeap 0 = some none ∧ solverChooseCol 0 emptyHeap 0 = none :=
  smallestCol_empty_nil emptyHeap 0 0 (by decide)

theorem walkF_succ_some {f0 : Node → Nat} {f : Nat} {s : H} {stop j : Nat} {l : List Nat}
    (hw : walkF f0 (f + 1) s stop j = some l) :
    (j = stop ∧ l = []) ∨
    (j ≠ stop ∧ ∃ l', l = j :: l' ∧ walkF f0 f s stop (f0 (getN s j)) = some l') := by
  rw [walkF] at hw
  by_cases hj : j = stop
  · rw [if_pos hj, Option.some_inj] at hw
    exact Or.inl ⟨hj, hw.symm⟩
  · rw [if_neg hj] at hw
    split at hw
    next => exact absurd hw (by simp)
    next l' heq =>
      rw [Option.some_inj] at hw
      exact Or.inr ⟨hj, l', hw.symm, heq⟩

theorem colGo_spec (s : H) (root : Nat) (name : String) :
    ∀ (l : List Nat) (f f2 j : Nat),
    walkF (fun nd => nd.right) f s root j = some l →
    (∀ x ∈ l, (getN s x).meta.isSome) →
    l.length < f2 →
    colGo f2 s root j name =
      some (match l.find? (fun x => hdrName s x == name) with
            | some x => Except.ok x
            | none => Except.error ("Column \"" ++ name ++ "\" not found")) := by
  intro l
  induction l with
  | nil =>
    intro f f2 j hw hm hlen
    match f with
    | 0 => exact absurd hw (by simp [walkF])
    | f + 1 =>
      rcases walkF_succ_some hw with ⟨hj, _⟩ | ⟨_, l', hl', _⟩
      · subst hj
        match f2, hlen with
        | f2 + 1, _ => rw [colGo, if_pos rfl]; rfl
      · exact absurd hl' (by simp)
  | cons x t ih =>
    intro f f2 j hw hm hlen
    match f with
    | 0 => exact absurd hw (by simp [walkF])
    | f + 1 =>
      rcases walkF_succ_some hw with ⟨_, hnil⟩ | ⟨hj, l', hl', hww⟩
      · exact absurd hnil (by simp)
      · have hx : x = j := (List.cons.injEq x t j l').mp hl' |>.1
        have ht : t = l' := (List.cons.injEq x t j l').mp hl' |>.2
        subst hx
        subst ht
        match f2, hlen with
        | f2 + 1, hlen =>
          rw [colGo, if_neg hj]
          rcases hmt : (getN s x).meta with _ | mt
          · exact absurd (hm x (by simp)) (by simp [hmt])
          · show (if mt.name = name then some (Except.ok x)
                else colGo f2 s root ((getN s x).right) name) = _
            by_cases hname : mt.name = name
            · rw [if_pos hname]
              have hb : (fun y => hdrName s y == name) x = true := by
                simp only [hdrName, hmt]
                exact beq_iff_eq.mpr hname
              rw [List.find?_cons_of_pos t hb]
            · rw [if_neg hname]
              have hb : ¬ (fun y => hdrName s y == name) x = true := by
                simp only [hdrName, hmt]
                simp [hname]
              rw [ih f f2 ((getN s x).right) hww
                (fun y hy => hm y (by simp [hy])) (Nat.lt_of_succ_lt_succ hlen)]
              rw [List.find?_cons_of_neg t hb]

/-- Claim C7: Col performs an exact first-match scan of the live header row:
it returns the leftmost live column whose name matches, and when no live
column carries the name it panics with a message containing that name. -/
theorem col_lookup_exact (s : H) (m : Nat) (name : String) (l : List Nat) (f : Nat)
    (hw : walkF (fun nd => nd.right) f s (Root s m) ((getN s (Root s m)).right) = some l)
    (hm : ∀ x ∈ l, (getN s x).meta.isSome)
    (hlen : l.length < s.length + 1) :
    Col s m name =
      some (match l.find? (fun x => hdrName s x == name) with
            | some x => Except.ok x
            | none => Except.error ("Column \"" ++ name ++ "\" not found")) ∧
    (∀ x, l.find? (fun y => hdrName s y == name) = some x →
       x ∈ l ∧ hdrName s x = name) ∧
    ((∀ x ∈ l, hdrName s x ≠ name) →
       ∃ pre suf, Col s m name = some (Except.error (pre ++ name ++ suf))) := by
  have hmain := colGo_spec s (Root s m) name l f (s.length + 1) ((getN s (Root s m)).right) hw hm hlen
  refine ⟨hmain, ?_, ?_⟩
  · intro x hfind
    have hp : (hdrName s x == name) = true :=
      @List.find?_some _ (fun y => hdrName s y == name) x l hfind
    exact ⟨List.mem_of_find?_eq_some hfind, beq_iff_eq.mp hp⟩
  · intro hnone
    refine ⟨"Column \"", "\" not found", ?_⟩
    have : l.find? (fun y => hdrName s y == name) = none :=
      List.find?_eq_none.mpr (fun x hx => by simp [hnone x hx])
    rw [Col, hmain, this]

/-- Witness for claim C7 on the example matrix: looking up the name C yields
the header at index 3, and an absent name panics with the formatted message. -/
theorem col_lookup_exact_witness :
    Col knuthHeap 0 "C" = some (Except.ok 3) ∧
    Col knuthHeap 0 "Z" = some (Except.error "Column \"Z\" not found") :=
  ⟨((col_lookup_exact knuthHeap 0 "C" [1, 2, 3, 4, 5, 6, 7] 25
      (by decide) (by decide) (by decide)).1).trans (by decide),
   ((col_lookup_exact knuthHeap 0 "Z" [1, 2, 3, 4, 5, 6, 7] 25
      (by decide) (by decide) (by decide)).1).trans (by decide)⟩

theorem smallestColGo_spec (s : H) (root : Nat) :
    ∀ (l : List Nat) (f f2 j : Nat) (r : Option Nat) (mn : Nat),
    walkF (fun nd => nd.right) f s root j = some l →
    (∀ x ∈ l, (getN s x).meta.isSome) →
    l.length < f2 →
    smallestColGo f2 s root j r mn = some (scanMin s l (r, mn)).1 := by
  intro l
  induction l with
  | nil =>
    intro f f2 j r mn hw hm hlen
    match f with
    | 0 => exact absurd hw (by simp [walkF])
    | f + 1 =>
      rcases walkF_succ_some hw with ⟨hj, _⟩ | ⟨_, l', hl', _⟩
      · subst hj
        match f2, hlen with
        | f2 + 1, _ => rw [smallestColGo, if_pos rfl]; rfl
      · exact absurd hl' (by simp)
  | cons x t ih =>
    intro f f2 j r mn hw hm hlen
    match f with
    | 0 => exact absurd hw (by simp [walkF])
    | f + 1 =>
      rcases walkF_succ_some hw with ⟨_, hnil⟩ | ⟨hj, l', hl', hww⟩
      · exact absurd hnil (by simp)
      · have hx : x = j := (List.cons.injEq x t j l').mp hl' |>.1
        have ht : t = l' := (List.cons.injEq x t j l').mp hl' |>.2
        subst hx
        subst ht
        match f2, hlen with
        | f2 + 1, hlen =>
          rw [smallestColGo, if_neg hj]
          rcases hmt : (getN s x).meta with _ | mt
          · exact absurd (hm x (by simp)) (by simp [hmt])
          · show (if mt.size < mn then
                smallestColGo f2 s root ((getN s x).right) (some x) mt.size
              else smallestColGo f2 s root ((getN s x).right) r mn) = _
            have hsz : hdrSize s x = mt.size := by simp [hdrSize, hmt]
            have hrec := fun racc mnacc => ih f f2 ((getN s x).right) racc mnacc hww
              (fun y hy => hm y (by simp [hy])) (Nat.lt_of_succ_lt_succ hlen)
            by_cases hlt : mt.size < mn
            · rw [if_pos hlt, hrec (some x) mt.size]
              have : scanMin s (x :: t) (r, mn) = scanMin s t (some x, mt.size) := by
                rw [scanMin, if_pos (by rw [hsz]; exact hlt), hsz]
              rw [this]
            · rw [if_neg hlt, hrec r mn]
              have : scanMin s (x :: t) (r, mn) = scanMin s t (r, mn) := by
                rw [scanMin, if_neg (by rw [hsz]; exact hlt)]
              rw [this]

theorem scanMin_correct (s : H) :
    ∀ (l : List Nat) (r : Option Nat) (mn : Nat),
    (scanMin s l (r, mn) = (r, mn) ∧ ∀ x ∈ l, mn ≤ hdrSize s x) ∨
    (∃ c, scanMin s l (r, mn) = (some c, hdrSize s c) ∧ c ∈ l ∧ hdrSize s c < mn ∧
      (∀ x ∈ l, hdrSize s c ≤ hdrSize s x) ∧
      ∃ l1 l2, l = l1 ++ c :: l2 ∧ ∀ x ∈ l1, hdrSize s c < hdrSize s x) := by
  intro l
  induction l with
  | nil => intro r mn; exact Or.inl ⟨rfl, by simp⟩
  | cons x t ih =>
    intro r mn
    by_cases hlt : hdrSize s x < mn
    · rcases ih (some x) (hdrSize s x) with ⟨heq, hall⟩ | ⟨c, heq, hc, hcm, hmin, l1, l2, hsplit, hpre⟩
      · refine Or.inr ⟨x, ?_, by simp, hlt, ?_, [], t, by simp, by simp⟩
        · rw [scanMin, if_pos hlt]
          exact heq
        · intro y hy
          rcases List.mem_cons.mp hy with h | h
          · subst h; exact Nat.le_refl _
          · exact hall y h
      · refine Or.inr ⟨c, ?_, List.mem_cons_of_mem x hc, Nat.lt_trans hcm hlt, ?_,
          x :: l1, l2, by simp [hsplit], ?_⟩
        · rw [scanMin, if_pos hlt]
          exact heq
        · intro y hy
          rcases List.mem_cons.mp hy with h | h
          · subst h; exact Nat.le_of_lt hcm
          · exact hmin y h
        · intro y hy
          rcases List.mem_cons.mp hy with h | h
          · subst h; exact hcm
          · exact hpre y h
    · rcases ih r mn with ⟨heq, hall⟩ | ⟨c, heq, hc, hcm, hmin, l1, l2, hsplit, hpre⟩
      · refine Or.inl ⟨?_, ?_⟩
        · rw [scanMin, if_neg hlt]
          exact heq
        · intro y hy
          rcases List.mem_cons.mp hy with h | h
          · subst h; exact Nat.le_of_not_lt hlt
          · exact hall y h
      · refine Or.inr ⟨c, ?_, List.mem_cons_of_mem x hc, hcm, ?_,
          x :: l1, l2, by simp [hsplit], ?_⟩
        · rw [scanMin, if_neg hlt]
          exact heq
        · intro y hy
          rcases List.mem_cons.mp hy with h | h
          · subst h; exact Nat.le_trans (Nat.le_of_lt hcm) (Nat.le_of_not_lt hlt)
          · exact hmin y h
        · intro y hy
          rcases List.mem_cons.mp hy with h | h
          · subst h; exact Nat.lt_of_lt_of_le hcm (Nat.le_of_not_lt hlt)
          · exact hpre y h

/-- Claim C4: SmallestCol returns a live column of minimum live size with
ties broken by the leftmost occurrence in the header row, and over live sizes
3, 1, 2 in header order it returns the middle (size one) column. -/
theorem smallestCol_min_leftmost (s : H) (m : Nat) (l : List Nat) (f : Nat)
    (hw : walkF (fun nd => nd.right) f s (Root s m) ((getN s (Root s m)).right) = some l)
    (hm : ∀ x ∈ l, (getN s x).meta.isSome)
    (hlen : l.length < s.length + 1)
    (hsz : ∀ x ∈ l, hdrSize s x < U64 - 1)
    (hne : l ≠ []) :
    SmallestCol s m = some (scanMin s l (none, U64 - 1)).1 ∧
    (∃ c, SmallestCol s m = some (some c) ∧ c ∈ l ∧
      (∀ x ∈ l, hdrSize s c ≤ hdrSize s x) ∧
      ∃ l1 l2, l = l1 ++ c :: l2 ∧ ∀ x ∈ l1, hdrSize s c < hdrSize s x) ∧
    (∀ a b c2, l = [a, b, c2] → hdrSize s a = 3 → hdrSize s b = 1 → hdrSize s c2 = 2 →
      SmallestCol s m = some (some b)) := by
  have hmain : SmallestCol s m = some (scanMin s l (none, U64 - 1)).1 :=
    smallestColGo_spec s (Root s m) l f (s.length + 1) ((getN s (Root s m)).right) none (U64 - 1) hw hm hlen
  have hex : ∃ c, SmallestCol s m = some (some c) ∧ c ∈ l ∧
      (∀ x ∈ l, hdrSize s c ≤ hdrSize s x) ∧
      ∃ l1 l2, l = l1 ++ c :: l2 ∧ ∀ x ∈ l1, hdrSize s c < hdrSize s x := by
    rcases scanMin_correct s l none (U64 - 1) with ⟨_, hall⟩ | ⟨c, heq, hc, _, hmin, hsp⟩
    · rcases l with _ | ⟨x, t⟩
      · exact absurd rfl hne
      · exact absurd (hall x (by simp)) (Nat.not_le_of_lt (hsz x (by simp)))
    · exact ⟨c, by rw [hmain, heq], hc, hmin, hsp⟩
  refine ⟨hmain, hex, ?_⟩
  intro a b c2 hl ha hb hc2
  rcases hex with ⟨c, heq, hc, hmin, _⟩
  have hcb : c = b := by
    subst hl
    have h1 := hmin b (by simp)
    rcases List.mem_cons.mp hc with h | h
    · exfalso; rw [h, ha, hb] at h1; omega
    rcases List.mem_cons.mp h with h | h
    · exact h
    rcases List.mem_cons.mp h with h | h
    · exfalso; rw [h, hc2, hb] at h1; omega
    · simp at h
  rw [← hcb]
  exact heq

/-- Witness for claim C4 on the example matrix: the minimum live size is 2
and the leftmost column attaining it is the first header. -/
theorem smallestCol_min_leftmost_witness :
    SmallestCol knuthHeap 0 = some (some 1) :=
  ((smallestCol_min_leftmost knuthHeap 0 [1, 2, 3, 4, 5, 6, 7] 25
      (by decide) (by decide) (by decide) (by decide) (by decide)).1).trans (by decide)

theorem searchRowCover_covers :
    ∀ {fuel : Nat} {s s' : H} {r j : Nat} {evs : List Ev},
    searchRowCover fuel s r j = some (s', evs) → ∀ e ∈ evs, ∃ d, e = Ev.cover d := by
  intro fuel
  induction fuel with
  | zero => intro s s' r j evs h; exact absurd h (by simp [searchRowCover])
  | succ f ih =>
    intro s s' r j evs h
    rw [searchRowCover] at h
    by_cases hj : j = r
    · rw [if_pos hj, Option.some_inj] at h
      injection h with h1 h2
      intro e he
      rw [← h2] at he
      exact absurd he (by simp)
    · rw [if_neg hj] at h
      split at h
      next => exact absurd h (by simp)
      next d hd =>
        split at h
        next => exact absurd h (by simp)
        next s1 hc =>
          split at h
          next => exact absurd h (by simp)
          next s2 evs0 hrec =>
            rw [Option.some_inj] at h
            injection h with h1 h2
            intro e he
            rw [← h2] at he
            rcases List.mem_cons.mp he with hh | hh
            · exact ⟨d, hh⟩
            · exact ih hrec e hh

/-- Claim C5: when the Guesser reports backtrack false for the chosen
(nonempty) column, Search returns the result of the first recursive call
unchanged: the state and solution of the sub-search are passed through, and
the only events this depth adds are the Cover of the chosen column and the
Covers of the row cells, never an Uncover. -/
theorem search_no_backtrack_collapse
    (g : Guesser) (s s1 s2 sres : H) (O Ores : Solution) (k m fuel c : Nat)
    (ev1 evres : List Ev)
    (hroot : (getN s (Root s m)).right ≠ Root s m)
    (hg : g s k = some (c, false))
    (hc : Cover s c = some s1)
    (hrc : (getN s1 c).down ≠ c)
    (hrow : searchRowCover (s1.length + 1) s1 ((getN s1 c).down)
        ((getN s1 ((getN s1 c).down)).right) = some (s2, ev1))
    (hsub : SearchGo fuel s2 (O.set k ((getN s1 c).down)) (k + 1) g m
        = some (sres, Ores, evres)) :
    SearchGo (fuel + 1) s O k g m = some (sres, Ores, Ev.cover c :: (ev1 ++ evres)) ∧
    (∀ e ∈ Ev.cover c :: ev1, ∃ d, e = Ev.cover d) := by
  constructor
  · simp only [SearchGo, searchLoopGo, hg, hc, hrow, hsub, if_neg hroot, if_neg hrc]
    simp
  · intro e he
    rcases List.mem_cons.mp he with hh | hh
    · exact ⟨c, hh⟩
    · exact searchRowCover_covers hrow e hh

/-- Witness for claim C5 on the one-column matrix with a guesser that never
backtracks: the collapse run covers column A, recurses, emits, and returns
with no Uncover event. -/
theorem search_no_backtrack_collapse_witness :
    SearchGo 6 oneColHeap ⟨[]⟩ 0 (fun _ _ => some (1, false)) 0 =
      some ((Cover oneColHeap 1).getD [], ⟨[some 2]⟩,
        Ev.cover 1 :: ([] ++ [Ev.emit "A\n"])) :=
  (search_no_backtrack_collapse (fun _ _ => some (1, false)) oneColHeap
    ((Cover oneColHeap 1).getD []) ((Cover oneColHeap 1).getD [])
    ((Cover oneColHeap 1).getD []) ⟨[]⟩ ⟨[some 2]⟩ 0 0 5 1 [] [Ev.emit "A\n"]
    (by decide) rfl (by decide) (by decide) (by decide) (by decide)).1

theorem walkF_length {f0 : Node → Nat} :
    ∀ {fuel : Nat} {s : H} {stop j : Nat} {l : List Nat},
    walkF f0 fuel s stop j = some l → l.length < fuel := by
  intro fuel
  induction fuel with
  | zero => intro s stop j l h; exact absurd h (by simp [walkF])
  | succ f ih =>
    intro s stop j l h
    rcases walkF_succ_some h with ⟨_, hnil⟩ | ⟨_, l', hl', hww⟩
    · subst hnil; exact Nat.succ_pos f
    · subst hl'
      exact Nat.succ_lt_succ (ih hww)

theorem setN_self (s : H) (i : Nat) : setN s i (getN s i) = s := by
  apply heap_ext (length_setN s i _)
  intro n
  by_cases hn : n = i
  · subst hn
    by_cases hl : n < s.length
    · rw [getN_setN_eq _ hl]
    · rw [setN_oob _ (Nat.le_of_not_lt hl)]
  · rw [getN_setN_ne _ hn]

theorem updUp_noop {s : H} {i v : Nat} (h : (getN s i).up = v) : updUp s i v = s := by
  unfold updUp
  rw [← h]
  exact setN_self s i

theorem updDown_noop {s : H} {i v : Nat} (h : (getN s i).down = v) : updDown s i v = s := by
  unfold updDown
  rw [← h]
  exact setN_self s i

theorem updLeft_noop {s : H} {i v : Nat} (h : (getN s i).left = v) : updLeft s i v = s := by
  unfold updLeft
  rw [← h]
  exact setN_self s i

theorem updRight_noop {s : H} {i v : Nat} (h : (getN s i).right = v) : updRight s i v = s := by
  unfold updRight
  rw [← h]
  exact setN_self s i

theorem updMeta_noop {s : H} {i : Nat} {v : Option Meta} (h : (getN s i).meta = v) :
    updMeta s i v = s := by
  unfold updMeta
  rw [← h]
  exact setN_self s i

theorem updMeta_updMeta (s : H) (i : Nat) (a b : Option Meta) :
    updMeta (updMeta s i a) i b = updMeta s i b := by
  by_cases hl : i < s.length
  · unfold updMeta
    rw [getN_setN_eq _ hl]
    exact List.set_set _ _ s i
  · rw [updMeta_oob s a (Nat.le_of_not_lt hl)]

theorem unlinkList_frame_lr :
    ∀ {l : List Nat} {s s' : H}, unlinkList s l = some s' →
    ∀ n, (getN s' n).left = (getN s n).left ∧ (getN s' n).right = (getN s n).right := by
  intro l
  induction l with
  | nil =>
    intro s s' h n
    rw [unlinkList, Option.some_inj] at h
    subst h
    exact ⟨rfl, rfl⟩
  | cons j t ih =>
    intro s s' h n
    rw [unlinkList] at h
    split at h
    next => exact absurd h (by simp)
    next s1 hu =>
      obtain ⟨hl, hr⟩ := ih h n
      obtain ⟨hl2, hr2⟩ := vUnlink_frame_lr hu n
      exact ⟨hl.trans hl2, hr.trans hr2⟩

theorem unlinkList_length :
    ∀ {l : List Nat} {s s' : H}, unlinkList s l = some s' → s'.length = s.length := by
  intro l
  induction l with
  | nil =>
    intro s s' h
    rw [unlinkList, Option.some_inj] at h
    subst h
    rfl
  | cons j t ih =>
    intro s s' h
    rw [unlinkList] at h
    split at h
    next => exact absurd h (by simp)
    next s1 hu => exact (ih h).trans (vUnlink_length hu)

theorem coverInnerGo_eq_unlinkList :
    ∀ {l : List Nat} {f f2 : Nat} {s : H} {i j : Nat},
    walkF (fun nd => nd.right) f s i j = some l → l.length < f2 →
    coverInnerGo f2 s i j = unlinkList s l := by
  intro l
  induction l with
  | nil =>
    intro f f2 s i j hw hlen
    match f with
    | 0 => exact absurd hw (by simp [walkF])
    | f + 1 =>
      rcases walkF_succ_some hw with ⟨hj, _⟩ | ⟨_, l', hl', _⟩
      · subst hj
        match f2, hlen with
        | f2 + 1, _ => rw [coverInnerGo, if_pos rfl, unlinkList]
      · exact absurd hl' (by simp)
  | cons x t ih =>
    intro f f2 s i j hw hlen
    match f with
    | 0 => exact absurd hw (by simp [walkF])
    | f + 1 =>
      rcases walkF_succ_some hw with ⟨_, hnil⟩ | ⟨hj, l', hl', hww⟩
      · exact absurd hnil (by simp)
      · have hx : x = j := (List.cons.injEq x t j l').mp hl' |>.1
        have ht : t = l' := (List.cons.injEq x t j l').mp hl' |>.2
        subst hx
        subst ht
        match f2, hlen with
        | f2 + 1, hlen =>
          rw [coverInnerGo, if_neg hj, unlinkList]
          rcases hu : vUnlink s x with _ | s1
          · rfl
          · have hrx : (getN s1 x).right = (getN s x).right := (vUnlink_frame_lr hu x).2
            have hww1 : walkF (fun nd => nd.right) f s1 i ((getN s1 x).right) = some t := by
              rw [hrx]
              exact walkF_congr hww (fun y _ => (vUnlink_frame_lr hu y).2)
            exact ih hww1 (Nat.lt_of_succ_lt_succ hlen)

theorem uncoverInnerGo_eq_relinkList :
    ∀ {l : List Nat} {f f2 : Nat} {s : H} {i j : Nat},
    walkF (fun nd => nd.left) f s i j = some l → l.length < f2 →
    uncoverInnerGo f2 s i j = relinkList s l := by
  intro l
  induction l with
  | nil =>
    intro f f2 s i j hw hlen
    match f with
    | 0 => exact absurd hw (by simp [walkF])
    | f + 1 =>
      rcases walkF_succ_some hw with ⟨hj, _⟩ | ⟨_, l', hl', _⟩
      · subst hj
        match f2, hlen with
        | f2 + 1, _ => rw [uncoverInnerGo, if_pos rfl, relinkList]
      · exact absurd hl' (by simp)
  | cons x t ih =>
    intro f f2 s i j hw hlen
    match f with
    | 0 => exact absurd hw (by simp [walkF])
    | f + 1 =>
      rcases walkF_succ_some hw with ⟨_, hnil⟩ | ⟨hj, l', hl', hww⟩
      · exact absurd hnil (by simp)
      · have hx : x = j := (List.cons.injEq x t j l').mp hl' |>.1
        have ht : t = l' := (List.cons.injEq x t j l').mp hl' |>.2
        subst hx
        subst ht
        match f2, hlen with
        | f2 + 1, hlen =>
          rw [uncoverInnerGo, if_neg hj, relinkList]
          rcases hu : vRelink s x with _ | s1
          · rfl
          · have hrx : (getN s1 x).left = (getN s x).left := (vRelink_frame_lr hu x).1
            have hww1 : walkF (fun nd => nd.left) f s1 i ((getN s1 x).left) = some t := by
              rw [hrx]
              exact walkF_congr hww (fun y _ => (vRelink_frame_lr hu y).1)
            exact ih hww1 (Nat.lt_of_succ_lt_succ hlen)

theorem relinkList_append (s : H) (a b : List Nat) :
    relinkList s (a ++ b) =
      match relinkList s a with
      | none => none
      | some s1 => relinkList s1 b := by
  induction a generalizing s with
  | nil => rw [List.nil_append, relinkList]
  | cons j t ih =>
    rw [List.cons_append, relinkList, relinkList]
    rcases hu : vRelink s j with _ | s1
    · rfl
    · exact ih s1

theorem nodeEq {a b : Node} (h1 : a.right = b.right) (h2 : a.up = b.up)
    (h3 : a.left = b.left) (h4 : a.down = b.down) (h5 : a.col = b.col)
    (h6 : a.meta = b.meta) : a = b := by
  cases a
  cases b
  simp only at h1 h2 h3 h4 h5 h6
  subst h1
  subst h2
  subst h3
  subst h4
  subst h5
  subst h6
  rfl

theorem vRelink_vUnlink {s s1 : H} {j : Nat} (hok : localOk s j = true)
    (hu : vUnlink s j = some s1) : vRelink s1 j = some s := by
  simp only [localOk, Bool.and_eq_true, decide_eq_true_eq] at hok
  obtain ⟨⟨⟨⟨⟨hj, hD⟩, hU⟩, hDu⟩, hUd⟩, hcolm⟩ := hok
  rcases hcol : (getN s j).col with _ | d
  · rw [hcol] at hcolm; exact absurd hcolm (by simp)
  · rw [hcol] at hcolm
    simp only [Bool.and_eq_true, decide_eq_true_eq] at hcolm
    obtain ⟨hd, hmeta⟩ := hcolm
    rcases hmt : (getN s d).meta with _ | mt
    · rw [hmt] at hmeta; exact absurd hmeta (by simp)
    · rw [hmt] at hmeta
      simp only [decide_eq_true_eq] at hmeta
      obtain ⟨D, hDg⟩ : ∃ D, (getN s j).down = D := ⟨_, rfl⟩
      obtain ⟨U, hUg⟩ : ∃ U, (getN s j).up = U := ⟨_, rfl⟩
      rw [hDg] at hD hDu
      rw [hUg] at hU hUd
      have hmtB : (getN (updDown (updUp s D U) U D) d).meta = some mt := by
        rw [updDown_meta, updUp_meta]; exact hmt
      have hB : vUnlink s j =
          some (updMeta (updDown (updUp s D U) U D) d
            (some { mt with size := (mt.size + (U64 - 1)) % U64 })) := by
        simp only [vUnlink, hcol, hDg, hUg, hmtB]
      rw [hu] at hB
      rw [Option.some_inj] at hB
      subst hB
      have hcol1 : (getN (updMeta (updDown (updUp s D U) U D) d
          (some { mt with size := (mt.size + (U64 - 1)) % U64 })) j).col = some d := by
        rw [updMeta_col, updDown_col, updUp_col, hcol]
      have hlen1 : (updDown (updUp s D U) U D).length = s.length := by
        rw [length_updDown, length_updUp]
      have hmt1 : (getN (updMeta (updDown (updUp s D U) U D) d
          (some { mt with size := (mt.size + (U64 - 1)) % U64 })) d).meta =
          some { mt with size := (mt.size + (U64 - 1)) % U64 } :=
        updMeta_meta_self _ _ (by rw [hlen1]; exact hd)
      have hU64 : U64 = 18446744073709551616 := by norm_num [U64]
      have harith : ((mt.size + (U64 - 1)) % U64 + 1) % U64 = mt.size := by
        rw [hU64]
        rw [hU64] at hmeta
        omega
      have hmetaBack : updMeta (updMeta (updDown (updUp s D U) U D) d
          (some { mt with size := (mt.size + (U64 - 1)) % U64 })) d
          (some { size := ((mt.size + (U64 - 1)) % U64 + 1) % U64, name := mt.name }) =
          updDown (updUp s D U) U D := by
        rw [updMeta_updMeta, harith]
        exact updMeta_noop hmtB
      simp only [vRelink, hcol1, hmt1, hmetaBack]
      by_cases hDj : D = j
      · have hUj : U = j := hUg.symm.trans (hDj ▸ hDu)
        have e1 : updUp s D U = s := updUp_noop (hDu.trans hUj.symm)
        have e2 : updDown s U D = s := updDown_noop (hUd.trans hDj.symm)
        have e3 : updUp s D j = s := updUp_noop hDu
        have e4 : updDown s U j = s := updDown_noop hUd
        rw [e1, e2, hDg, e3, hUg, e4]
      · have hUj : U ≠ j := fun hh => hDj (hDg.symm.trans (hh ▸ hUd))
        have hgBj : getN (updDown (updUp s D U) U D) j = getN s j := by
          rw [getN_updDown_ne _ _ _ (Ne.symm hUj), getN_updUp_ne _ _ _ (Ne.symm hDj)]
        rw [hgBj, hDg]
        have hgS2j : getN (updUp (updDown (updUp s D U) U D) D j) j = getN s j := by
          rw [getN_updUp_ne _ _ _ (Ne.symm hDj), hgBj]
        rw [hgS2j, hUg]
        rw [Option.some_inj]
        apply heap_ext
        · rw [length_updDown, length_updUp, length_updDown, length_updUp]
        · intro n
          apply nodeEq
          · rw [updDown_right, updUp_right, updDown_right, updUp_right]
          · by_cases hn : n = D
            · subst hn
              rw [updDown_up]
              rw [updUp_up_self _ _ (by rw [length_updDown, length_updUp]; exact hD)]
              exact hDu.symm
            · rw [updDown_up, getN_updUp_ne _ _ _ hn, updDown_up, getN_updUp_ne _ _ _ hn]
          · rw [updDown_left, updUp_left, updDown_left, updUp_left]
          · by_cases hn : n = U
            · subst hn
              rw [updDown_down_self _ _
                (by rw [length_updUp, length_updDown, length_updUp]; exact hU)]
              exact hUd.symm
            · rw [getN_updDown_ne _ _ _ hn, updUp_down, getN_updDown_ne _ _ _ hn, updUp_down]
          · rw [updDown_col, updUp_col, updDown_col, updUp_col]
          · rw [updDown_meta, updUp_meta, updDown_meta, updUp_meta]

theorem relinkList_unlinkList :
    ∀ {l : List Nat} {s s' : H}, unlinksOk s l = true → unlinkList s l = some s' →
    relinkList s' l.reverse = some s := by
  intro l
  induction l with
  | nil =>
    intro s s' _ hu
    rw [unlinkList, Option.some_inj] at hu
    subst hu
    simp [relinkList]
  | cons j t ih =>
    intro s s' hok hu
    rw [unlinkList] at hu
    split at hu
    next => exact absurd hu (by simp)
    next s1 hstep =>
      simp only [unlinksOk, hstep, Bool.and_eq_true] at hok
      obtain ⟨hloc, hrest⟩ := hok
      have hrev := ih hrest hu
      rw [List.reverse_cons, relinkList_append, hrev]
      simp only [relinkList, vRelink_vUnlink hloc hstep]

theorem vUnlink_meta_isSome {s s' : H} {j : Nat} (h : vUnlink s j = some s') (n : Nat)
    (hn : (getN s n).meta.isSome = true) : (getN s' n).meta.isSome = true := by
  simp only [vUnlink] at h
  split at h
  · exact absurd h (by simp)
  · next d heqcol =>
    split at h
    · exact absurd h (by simp)
    · next mt hmt =>
      rw [Option.some_inj] at h
      subst h
      by_cases hnd : n = d
      · subst hnd
        by_cases hl : n < (updDown (updUp s (getN s j).down (getN s j).up)
            (getN s j).up (getN s j).down).length
        · rw [updMeta_meta_self _ _ hl]
          rfl
        · rw [updMeta_oob _ _ (Nat.le_of_not_lt hl), updDown_meta, updUp_meta]
          exact hn
      · rw [getN_updMeta_ne _ _ _ hnd, updDown_meta, updUp_meta]
        exact hn

theorem coverInnerGo_meta_isSome :
    ∀ {fuel : Nat} {s s' : H} {i j : Nat}, coverInnerGo fuel s i j = some s' →
    ∀ n, (getN s n).meta.isSome = true → (getN s' n).meta.isSome = true := by
  intro fuel
  induction fuel with
  | zero => intro s s' i j h; exact absurd h (by simp [coverInnerGo])
  | succ f ih =>
    intro s s' i j h n hn
    rw [coverInnerGo] at h
    by_cases hj : j = i
    · rw [if_pos hj, Option.some_inj] at h; subst h; exact hn
    · rw [if_neg hj] at h
      split at h
      next => exact absurd h (by simp)
      next s1 hu => exact ih h n (vUnlink_meta_isSome hu n hn)

theorem coverRowsGo_meta_isSome :
    ∀ {fuel : Nat} {s s' : H} {c i : Nat}, coverRowsGo fuel s c i = some s' →
    ∀ n, (getN s n).meta.isSome = true → (getN s' n).meta.isSome = true := by
  intro fuel
  induction fuel with
  | zero => intro s s' c i h; exact absurd h (by simp [coverRowsGo])
  | succ f ih =>
    intro s s' c i h n hn
    rw [coverRowsGo] at h
    by_cases hi : i = c
    · rw [if_pos hi, Option.some_inj] at h; subst h; exact hn
    · rw [if_neg hi] at h
      split at h
      next => exact absurd h (by simp)
      next s1 hu => exact ih h n (coverInnerGo_meta_isSome hu n hn)

theorem rowsRev {c : Nat} :
    ∀ (f : Nat) (s : H) (i : Nat), rowsOk f s c i = true →
    ∃ s2 m, coverRowsGo f s c i = some s2 ∧ m < f ∧ s2.length = s.length ∧
      ∀ f2, m < f2 → uncoverRowsGo f2 s2 c ((getN s2 c).up) =
        uncoverRowsGo (f2 - m) s c ((getN s i).up) := by
  intro f
  induction f with
  | zero => intro s i hok; exact absurd hok (by simp [rowsOk])
  | succ f ih =>
    intro s i hok
    rw [rowsOk] at hok
    by_cases hi : i = c
    · subst hi
      refine ⟨s, 0, ?_, Nat.succ_pos f, rfl, ?_⟩
      · rw [coverRowsGo, if_pos rfl]
      · intro f2 _
        rw [Nat.sub_zero]
    · rw [if_neg hi] at hok
      split at hok
      next => exact absurd hok (by simp)
      next l hwalk =>
        simp only [Bool.and_eq_true, decide_eq_true_eq] at hok
        obtain ⟨⟨hlwalk, hunl⟩, hrest⟩ := hok
        split at hrest
        next => exact absurd hrest (by simp)
        next s1 hinner =>
          simp only [Bool.and_eq_true, decide_eq_true_eq] at hrest
          obtain ⟨hupfact, hok1⟩ := hrest
          have hinnerEq : coverInnerGo (s.length + 1) s i ((getN s i).right) =
              unlinkList s l :=
            coverInnerGo_eq_unlinkList hwalk (walkF_length hwalk)
          have hul : unlinkList s l = some s1 := hinnerEq ▸ hinner
          obtain ⟨s2, m, hcov, hm, hlen2, hrec⟩ := ih s1 ((getN s1 i).down) hok1
          refine ⟨s2, m + 1, ?_, Nat.succ_lt_succ hm, ?_, ?_⟩
          · simp only [coverRowsGo, if_neg hi, hinner]
            exact hcov
          · rw [hlen2, unlinkList_length hul]
          · intro f2 hf2
            rw [hrec f2 (Nat.lt_of_succ_lt hf2), hupfact]
            obtain ⟨k, hk⟩ : ∃ k, f2 - m = k + 1 := ⟨f2 - m - 1, by omega⟩
            rw [hk, uncoverRowsGo, if_neg hi]
            have hlen1 : s1.length = s.length := unlinkList_length hul
            have hlw1 : walkF (fun nd => nd.left) (s.length + 1) s1 i
                ((getN s1 i).left) = some l.reverse := by
              have hfr : ∀ y, (getN s1 y).left = (getN s y).left :=
                fun y => (unlinkList_frame_lr hul y).1
              rw [hfr i]
              exact walkF_congr hlwalk (fun y _ => hfr y)
            have huneq : uncoverInnerGo (s1.length + 1) s1 i ((getN s1 i).left) =
                relinkList s1 l.reverse := by
              apply uncoverInnerGo_eq_relinkList hlw1
              rw [hlen1, List.length_reverse]
              exact walkF_length hwalk
            have hrelink : relinkList s1 l.reverse = some s :=
              relinkList_unlinkList hunl hul
            simp only [huneq, hrelink]
            have hfm : f2 - (m + 1) = k := by omega
            rw [hfm]

theorem splice_cancel (s : H) (c : Nat) (hc : c < s.length)
    (hcr : (getN s c).right < s.length) (hcl : (getN s c).left < s.length)
    (hcrl : (getN s (getN s c).right).left = c)
    (hclr : (getN s (getN s c).left).right = c) :
    updRight
      (updLeft
        (updRight (updLeft s (getN s c).right (getN s c).left) (getN s c).left
          (getN s c).right)
        (getN (updRight (updLeft s (getN s c).right (getN s c).left) (getN s c).left
          (getN s c).right) c).right c)
      ((getN (updLeft
        (updRight (updLeft s (getN s c).right (getN s c).left) (getN s c).left
          (getN s c).right)
        (getN (updRight (updLeft s (getN s c).right (getN s c).left) (getN s c).left
          (getN s c).right) c).right c) c).left) c = s := by
  have hs0r : (getN (updRight (updLeft s (getN s c).right (getN s c).left)
      (getN s c).left (getN s c).right) c).right = (getN s c).right := by
    by_cases hcc : c = (getN s c).left
    · rw [← hcc]
      exact updRight_right_self _ _ (by rw [length_updLeft]; exact hc)
    · rw [getN_updRight_ne _ _ _ hcc, updLeft_right]
  rw [hs0r]
  have hAl : (getN (updLeft
      (updRight (updLeft s (getN s c).right (getN s c).left) (getN s c).left
        (getN s c).right) (getN s c).right c) c).left = (getN s c).left := by
    by_cases hcc : c = (getN s c).right
    · have hclc : (getN s c).left = c := by rw [← hcc] at hcrl; exact hcrl
      rw [← hcc]
      rw [updLeft_left_self _ _ (by rw [length_updRight, length_updLeft]; exact hc)]
      exact hclc.symm
    · rw [getN_updLeft_ne _ _ _ hcc, updRight_left, getN_updLeft_ne _ _ _ hcc]
  rw [hAl]
  apply heap_ext
  · rw [length_updRight, length_updLeft, length_updRight, length_updLeft]
  · intro n
    apply nodeEq
    · by_cases hn : n = (getN s c).left
      · subst hn
        rw [updRight_right_self _ _
          (by rw [length_updLeft, length_updRight, length_updLeft]; exact hcl)]
        exact hclr.symm
      · rw [getN_updRight_ne _ _ _ hn, updLeft_right, getN_updRight_ne _ _ _ hn,
          updLeft_right]
    · rw [updRight_up, updLeft_up, updRight_up, updLeft_up]
    · rw [updRight_left]
      by_cases hn : n = (getN s c).right
      · subst hn
        rw [updLeft_left_self _ _
          (by rw [length_updRight, length_updLeft]; exact hcr)]
        exact hcrl.symm
      · rw [getN_updLeft_ne _ _ _ hn, updRight_left, getN_updLeft_ne _ _ _ hn]
    · rw [updRight_down, updLeft_down, updRight_down, updLeft_down]
    · rw [updRight_col, updLeft_col, updRight_col, updLeft_col]
    · rw [updRight_meta, updLeft_meta, updRight_meta, updLeft_meta]

/-- Claim C2: on a well-formed matrix (the executable checker covers the
doubly-linked consistency, ring and spine conditions the structure satisfies
by construction), Cover of any column succeeds and the immediately following
Uncover restores the heap exactly: every Left, Right, Up and Down link and
every live-size counter returns to its pre-Cover value. -/
theorem cover_uncover_restores (s : H) (c : Nat) (h : coverUncoverOk s c = true) :
    ∃ s2, Cover s c = some s2 ∧ Uncover s2 c = some s := by
  simp only [coverUncoverOk, Bool.and_eq_true, decide_eq_true_eq] at h
  obtain ⟨⟨⟨⟨⟨⟨hc, hmeta⟩, hcr⟩, hcl⟩, hcrl⟩, hclr⟩, hupc, hrows⟩ := h
  obtain ⟨s0, hs0⟩ : ∃ x, updRight (updLeft s (getN s c).right (getN s c).left)
      (getN s c).left (getN s c).right = x := ⟨_, rfl⟩
  rw [hs0] at hupc hrows
  rcases hm0 : (getN s c).meta with _ | mo
  · rw [hm0] at hmeta; exact absurd hmeta (by simp)
  · have hcovEq : Cover s c = coverRowsGo (s0.length + 1) s0 c ((getN s0 c).down) := by
      simp only [Cover, hm0, hs0]
    obtain ⟨s2, m, hcov, hm2, hlen2, hrec⟩ :=
      rowsRev (s0.length + 1) s0 ((getN s0 c).down) hrows
    refine ⟨s2, ?_, ?_⟩
    · rw [hcovEq]; exact hcov
    · have hms2 : (getN s2 c).meta.isSome = true := by
        apply coverRowsGo_meta_isSome hcov
        rw [← hs0, updRight_meta, updLeft_meta, hm0]
        rfl
      rcases hm2' : (getN s2 c).meta with _ | mo2
      · rw [hm2'] at hms2; exact absurd hms2 (by simp)
      · have hunc : uncoverRowsGo (s2.length + 1) s2 c ((getN s2 c).up) = some s0 := by
          rw [hrec (s2.length + 1) (by rw [hlen2]; exact hm2), hupc]
          obtain ⟨k, hk⟩ : ∃ k, s2.length + 1 - m = k + 1 := ⟨s2.length - m, by omega⟩
          rw [hk, uncoverRowsGo, if_pos rfl]
        simp only [Uncover, hm2', hunc]
        rw [Option.some_inj, ← hs0]
        exact splice_cancel s c hc hcr hcl hcrl hclr

/-- Witness for claim C2 on the example matrix: covering and uncovering
column A is a structural no-op. -/
theorem cover_uncover_restores_witness :
    ∃ s2, Cover knuthHeap 1 = some s2 ∧ Uncover s2 1 = some knuthHeap :=
  cover_uncover_restores knuthHeap 1 (by decide)

theorem walkF_mono {f0 : Node → Nat} :
    ∀ {f f' : Nat} {s : H} {stop j : Nat} {l : List Nat},
    walkF f0 f s stop j = some l → f ≤ f' → walkF f0 f' s stop j = some l := by
  intro f
  induction f with
  | zero => intro f' s stop j l h _; exact absurd h (by simp [walkF])
  | succ k ih =>
    intro f' s stop j l h hle
    match f', hle with
    | f' + 1, hle =>
      rcases walkF_succ_some h with ⟨hj, hnil⟩ | ⟨hj, l', hl', hww⟩
      · subst hj; subst hnil; rw [walkF, if_pos rfl]
      · subst hl'
        rw [walkF, if_neg hj, ih hww (Nat.le_of_succ_le_succ hle)]

theorem walkF_ext {f0 : Node → Nat} {s s' : H}
    (hsame : ∀ y, f0 (getN s' y) = f0 (getN s y)) :
    ∀ (F : Nat) (stop j : Nat), walkF f0 F s' stop j = walkF f0 F s stop j := by
  intro F
  induction F with
  | zero => intro stop j; rfl
  | succ k ih =>
    intro stop j
    rw [walkF, walkF]
    by_cases hj : j = stop
    · rw [if_pos hj, if_pos hj]
    · rw [if_neg hj, if_neg hj, hsame j, ih]

theorem prevIn_mem_tail :
    ∀ (L : List Nat) (x j u : Nat), prevIn (x :: L) j = some u → j ∈ L := by
  intro L
  induction L with
  | nil => intro x j u h; exact absurd h (by simp [prevIn])
  | cons y rest ih =>
    intro x j u h
    rw [prevIn] at h
    by_cases hy : y = j
    · exact List.mem_cons.mpr (Or.inl hy.symm)
    · rw [if_neg hy] at h
      exact List.mem_cons.mpr (Or.inr (ih y j u h))

theorem prevIn_mem_self :
    ∀ (L : List Nat) (x j u : Nat), prevIn (x :: L) j = some u → u ∈ x :: L := by
  intro L
  induction L with
  | nil => intro x j u h; exact absurd h (by simp [prevIn])
  | cons y rest ih =>
    intro x j u h
    rw [prevIn] at h
    by_cases hy : y = j
    · rw [if_pos hy, Option.some_inj] at h
      exact List.mem_cons.mpr (Or.inl h.symm)
    · rw [if_neg hy] at h
      exact List.mem_cons.mpr (Or.inr (ih y j u h))

theorem walk_erase {s s' : H} {stop j U : Nat}
    (hsame : ∀ y, y ≠ U → (getN s' y).down = (getN s y).down)
    (hU : (getN s' U).down = (getN s j).down) :
    ∀ (L : List Nat) (x : Nat) (F : Nat),
    walkF (fun nd => nd.down) F s stop ((getN s x).down) = some L →
    prevIn (x :: L) j = some U →
    (x :: L).Nodup →
    walkF (fun nd => nd.down) F s' stop ((getN s' x).down) = some (L.erase j) := by
  intro L
  induction L with
  | nil => intro x F _ hprev _; exact absurd hprev (by simp [prevIn])
  | cons h T ih =>
    intro x F hw hprev hnd
    rw [prevIn] at hprev
    by_cases hhj : h = j
    · rw [if_pos hhj, Option.some_inj] at hprev
      subst hhj
      subst hprev
      match F with
      | 0 => exact absurd hw (by simp [walkF])
      | F + 1 =>
        rcases walkF_succ_some hw with ⟨hj2, hnil⟩ | ⟨hj2, l', hl', hww⟩
        · exact absurd hnil (by simp)
        · have hh : h = (getN s x).down := ((List.cons.injEq h T _ l').mp hl').1
          have ht : T = l' := ((List.cons.injEq h T _ l').mp hl').2
          rw [← ht] at hww
          rw [← hh] at hww
          rw [hU, List.erase_cons_head]
          have hxT : x ∉ h :: T := (List.nodup_cons.mp hnd).1
          apply walkF_mono _ (Nat.le_succ F)
          refine walkF_congr hww ?_
          intro y hy
          exact hsame y (fun hyx => hxT (by rw [← hyx]; exact List.mem_cons_of_mem h hy))
    · rw [if_neg hhj] at hprev
      match F with
      | 0 => exact absurd hw (by simp [walkF])
      | F + 1 =>
        rcases walkF_succ_some hw with ⟨hj2, hnil⟩ | ⟨hj2, l', hl', hww⟩
        · exact absurd hnil (by simp)
        · have hh : h = (getN s x).down := ((List.cons.injEq h T _ l').mp hl').1
          have ht : T = l' := ((List.cons.injEq h T _ l').mp hl').2
          rw [← ht] at hww
          rw [← hh] at hww
          have hj2' : h ≠ stop := by rw [hh]; exact hj2
          have hU2 : U ∈ h :: T := prevIn_mem_self T h j U hprev
          have hxT : x ∉ h :: T := (List.nodup_cons.mp hnd).1
          have hxU : x ≠ U := fun hh2 => hxT (hh2 ▸ hU2)
          rw [hsame x hxU, ← hh]
          rw [List.erase_cons_tail (by simp [hhj])]
          simp only [walkF]
          rw [if_neg hj2']
          rw [ih h F hww hprev (List.nodup_cons.mp hnd).2]

theorem walk_append {s s' : H} {stop n cU : Nat}
    (hsame : ∀ y, y ≠ cU → y ≠ n → (getN s' y).down = (getN s y).down)
    (hcU : (getN s' cU).down = n)
    (hn : (getN s' n).down = stop)
    (hnstop : n ≠ stop) :
    ∀ (L : List Nat) (x : Nat) (F G : Nat),
    walkF (fun nd => nd.down) F s stop ((getN s x).down) = some L →
    (x :: L).getLast? = some cU →
    (x :: L).Nodup →
    n ∉ x :: L →
    L.length + 1 < G →
    walkF (fun nd => nd.down) G s' stop ((getN s' x).down) = some (L ++ [n]) := by
  intro L
  induction L with
  | nil =>
    intro x F G _ hlast _ hnx hG
    have hxc : x = cU := by
      simp only [List.getLast?_singleton, Option.some_inj] at hlast
      exact hlast
    subst hxc
    rw [hcU]
    match G, hG with
    | G + 2, _ =>
      rw [walkF, if_neg hnstop, walkF, hn, if_pos rfl]
      rfl
  | cons h T ih =>
    intro x F G hw hlast hnd hnx hG
    match F with
    | 0 => exact absurd hw (by simp [walkF])
    | F + 1 =>
      rcases walkF_succ_some hw with ⟨hj2, hnil⟩ | ⟨hj2, l', hl', hww⟩
      · exact absurd hnil (by simp)
      · have hh : h = (getN s x).down := ((List.cons.injEq h T _ l').mp hl').1
        have ht : T = l' := ((List.cons.injEq h T _ l').mp hl').2
        rw [← ht] at hww
        have hlast2 : (h :: T).getLast? = some cU := by
          rw [List.getLast?_cons_cons] at hlast
          exact hlast
        have hcUm : cU ∈ h :: T := List.mem_of_mem_getLast? hlast2
        have hxT : x ∉ h :: T := (List.nodup_cons.mp hnd).1
        have hxcU : x ≠ cU := fun hh2 => hxT (hh2 ▸ hcUm)
        have hxn : x ≠ n := fun hh2 => (by simp [← hh2] at hnx)
        rw [← hh] at hww
        have hj2' : h ≠ stop := by rw [hh]; exact hj2
        rw [hsame x hxcU hxn, ← hh]
        match G, hG with
        | G + 1, hG =>
          simp only [walkF]
          rw [if_neg hj2']
          rw [ih h F G hww hlast2 (List.nodup_cons.mp hnd).2
            (fun hmem => hnx (List.mem_cons_of_mem x hmem))
            (Nat.lt_of_succ_lt_succ hG)]
          rfl

theorem vUnlink_sizeInv {hs : List Nat} {s s1 : H} {j : Nat}
    (hok : unlinkKeepsOk hs s j = true) (hu : vUnlink s j = some s1) :
    ∀ e ∈ hs, sizeInvB s e = true → sizeInvB s1 e = true := by
  simp only [unlinkKeepsOk, Bool.and_eq_true] at hok
  obtain ⟨hloc, hcols⟩ := hok
  have hloc' := hloc
  simp only [localOk, Bool.and_eq_true, decide_eq_true_eq] at hloc'
  obtain ⟨⟨⟨⟨⟨hj, hD⟩, hU⟩, hDu⟩, hUd⟩, hcolm⟩ := hloc'
  rcases hcol : (getN s j).col with _ | d
  · rw [hcol] at hcolm; exact absurd hcolm (by simp)
  · rw [hcol] at hcolm
    simp only [Bool.and_eq_true, decide_eq_true_eq] at hcolm
    obtain ⟨hd, hmeta⟩ := hcolm
    rcases hmt : (getN s d).meta with _ | mt
    · rw [hmt] at hmeta; exact absurd hmeta (by simp)
    · rw [hmt] at hmeta
      simp only [decide_eq_true_eq] at hmeta
      obtain ⟨D, hDg⟩ : ∃ D, (getN s j).down = D := ⟨_, rfl⟩
      obtain ⟨U, hUg⟩ : ∃ U, (getN s j).up = U := ⟨_, rfl⟩
      rw [hDg] at hD hDu
      rw [hUg] at hU hUd
      rw [hcol] at hcols
      simp only [hUg] at hcols
      have hmtB : (getN (updDown (updUp s D U) U D) d).meta = some mt := by
        rw [updDown_meta, updUp_meta]; exact hmt
      have hB : vUnlink s j =
          some (updMeta (updDown (updUp s D U) U D) d
            (some { mt with size := (mt.size + (U64 - 1)) % U64 })) := by
        simp only [vUnlink, hcol, hDg, hUg, hmtB]
      rw [hu] at hB
      rw [Option.some_inj] at hB
      subst hB
      have hlen1 : (updMeta (updDown (updUp s D U) U D) d
          (some { mt with size := (mt.size + (U64 - 1)) % U64 })).length = s.length := by
        rw [length_updMeta, length_updDown, length_updUp]
      have hdown_same : ∀ y, y ≠ U →
          (getN (updMeta (updDown (updUp s D U) U D) d
            (some { mt with size := (mt.size + (U64 - 1)) % U64 })) y).down =
          (getN s y).down := by
        intro y hy
        rw [updMeta_down, getN_updDown_ne _ _ _ hy, updUp_down]
      have hdownU : (getN (updMeta (updDown (updUp s D U) U D) d
          (some { mt with size := (mt.size + (U64 - 1)) % U64 })) U).down =
          (getN s j).down := by
        rw [updMeta_down, updDown_down_self _ _ (by rw [length_updUp]; exact hU), hDg]
      have hmeta_same : ∀ y, y ≠ d →
          (getN (updMeta (updDown (updUp s D U) U D) d
            (some { mt with size := (mt.size + (U64 - 1)) % U64 })) y).meta =
          (getN s y).meta := by
        intro y hy
        rw [getN_updMeta_ne _ _ _ hy, updDown_meta, updUp_meta]
      have hmeta_d : (getN (updMeta (updDown (updUp s D U) U D) d
          (some { mt with size := (mt.size + (U64 - 1)) % U64 })) d).meta =
          some { mt with size := (mt.size + (U64 - 1)) % U64 } :=
        updMeta_meta_self _ _ (by rw [length_updDown, length_updUp]; exact hd)
      intro e he hinv
      have hcole := List.all_eq_true.mp hcols e he
      simp only [sizeInvB] at hinv ⊢
      split at hinv
      next => exact absurd hinv (by simp)
      next L hchain =>
        rw [decide_eq_true_eq] at hinv
        simp only [hchain, Bool.and_eq_true, decide_eq_true_eq] at hcole
        obtain ⟨hnd, hcond⟩ := hcole
        have hchainW : walkF (fun nd => nd.down) (s.length + 1) s e
            ((getN s e).down) = some L := hchain
        by_cases hed : e = d
        · rw [if_pos hed] at hcond
          simp only [Bool.and_eq_true, decide_eq_true_eq] at hcond
          obtain ⟨hprev, hje⟩ := hcond
          have herase := walk_erase hdown_same hdownU L e (s.length + 1) hchainW hprev hnd
          have hchain1 : colChain (updMeta (updDown (updUp s D U) U D) d
              (some { mt with size := (mt.size + (U64 - 1)) % U64 })) e =
              some (L.erase j) := by
            simp only [colChain, hlen1]
            exact herase
          rw [hchain1]
          rw [decide_eq_true_eq]
          have hjL : j ∈ L := prevIn_mem_tail L e j U hprev
          have hsz1 : hdrSize (updMeta (updDown (updUp s D U) U D) d
              (some { mt with size := (mt.size + (U64 - 1)) % U64 })) e =
              (mt.size + (U64 - 1)) % U64 := by
            rw [hed]
            simp only [hdrSize, hmeta_d]
          have hszs : hdrSize s e = mt.size := by
            rw [hed]
            simp only [hdrSize, hmt]
          rw [hsz1, List.length_erase_of_mem hjL]
          rw [hszs] at hinv
          have hL1 : 1 ≤ L.length := List.length_pos.mpr (List.ne_nil_of_mem hjL)
          have hU64 : U64 = 18446744073709551616 := by norm_num [U64]
          rw [hU64]
          rw [hU64] at hmeta
          omega
        · rw [if_neg hed] at hcond
          simp only [Bool.and_eq_true, decide_eq_true_eq] at hcond
          obtain ⟨hUe, hUL⟩ := hcond
          have hchain1 : colChain (updMeta (updDown (updUp s D U) U D) d
              (some { mt with size := (mt.size + (U64 - 1)) % U64 })) e = some L := by
            simp only [colChain, hlen1]
            rw [hdown_same e (fun hh => hUe hh.symm)]
            exact walkF_congr hchainW (fun y hy => hdown_same y (fun hh => hUL (hh ▸ hy)))
          rw [hchain1]
          rw [decide_eq_true_eq]
          have hsz1 : hdrSize (updMeta (updDown (updUp s D U) U D) d
              (some { mt with size := (mt.size + (U64 - 1)) % U64 })) e =
              hdrSize s e := by
            simp only [hdrSize, hmeta_same e hed]
          rw [hsz1]
          exact hinv

theorem unlinkList_sizeInv {hs : List Nat} :
    ∀ {l : List Nat} {s s' : H}, unlinkListKeepsOk hs s l = true →
    unlinkList s l = some s' →
    (∀ e ∈ hs, sizeInvB s e = true) → ∀ e ∈ hs, sizeInvB s' e = true := by
  intro l
  induction l with
  | nil =>
    intro s s' _ hu hinv
    rw [unlinkList, Option.some_inj] at hu
    subst hu
    exact hinv
  | cons j t ih =>
    intro s s' hok hu hinv
    rw [unlinkList] at hu
    split at hu
    next => exact absurd hu (by simp)
    next s1 hstep =>
      simp only [unlinkListKeepsOk, hstep, Bool.and_eq_true] at hok
      obtain ⟨hok1, hokRest⟩ := hok
      exact ih hokRest hu (fun e he => vUnlink_sizeInv hok1 hstep e he (hinv e he))

theorem rowsGo_sizeInv {hs : List Nat} {c : Nat} :
    ∀ (f : Nat) (s : H) (i : Nat) {s' : H}, rowsSizeOk hs f s c i = true →
    coverRowsGo f s c i = some s' →
    (∀ e ∈ hs, sizeInvB s e = true) → ∀ e ∈ hs, sizeInvB s' e = true := by
  intro f
  induction f with
  | zero => intro s i s' hok; exact absurd hok (by simp [rowsSizeOk])
  | succ f ih =>
    intro s i s' hok hcov hinv
    rw [rowsSizeOk] at hok
    rw [coverRowsGo] at hcov
    by_cases hi : i = c
    · rw [if_pos hi, Option.some_inj] at hcov
      subst hcov
      exact hinv
    · rw [if_neg hi] at hok
      rw [if_neg hi] at hcov
      split at hok
      next => exact absurd hok (by simp)
      next l hwalk =>
        simp only [Bool.and_eq_true] at hok
        obtain ⟨hunl, hrest⟩ := hok
        split at hrest
        next hnone =>
          exact absurd hrest (by simp)
        next s1 hinner =>
          rw [hinner] at hcov
          have hul : unlinkList s l = some s1 :=
            (coverInnerGo_eq_unlinkList hwalk (walkF_length hwalk)) ▸ hinner
          exact ih s1 ((getN s1 i).down) hrest hcov
            (fun e he => unlinkList_sizeInv hunl hul hinv e he)

theorem sizeInvB_congr {s s' : H} (hlen : s'.length = s.length)
    (hdown : ∀ y, (getN s' y).down = (getN s y).down)
    (hmeta : ∀ y, (getN s' y).meta = (getN s y).meta) (e : Nat) :
    sizeInvB s' e = sizeInvB s e := by
  have hchain : colChain s' e = colChain s e := by
    simp only [colChain, hlen, hdown e]
    exact walkF_ext hdown _ _ _
  have hsz : hdrSize s' e = hdrSize s e := by simp only [hdrSize, hmeta e]
  simp only [sizeInvB, hchain, hsz]

theorem nodup_bounded_length {l : List Nat} {n : Nat} (hnd : l.Nodup)
    (hb : ∀ x ∈ l, x < n) : l.length ≤ n := by
  classical
  have h1 : l.toFinset ⊆ Finset.range n :=
    fun x hx => Finset.mem_range.mpr (hb x (List.mem_toFinset.mp hx))
  have h2 := Finset.card_le_card h1
  rw [List.toFinset_card_of_nodup hnd] at h2
  simpa using h2

theorem colAppend_size_chain {s s' : H} {c n : Nat} {mt : Meta} {L : List Nat}
    (hc : c < s.length) (hn : n < s.length) (hnc : n ≠ c)
    (hmt : (getN s c).meta = some mt)
    (hchain : colChain s c = some L)
    (hnd : (c :: L).Nodup)
    (hnL : n ∉ c :: L)
    (hlast : (c :: L).getLast? = some ((getN s c).up))
    (hLb : ∀ y ∈ c :: L, y < s.length)
    (happ : ColAppend s c n = some s') :
    colChain s' c = some (L ++ [n]) ∧
    hdrSize s' c = (hdrSize s c + 1) % U64 ∧
    (hdrSize s c + 1 < U64 → hdrSize s' c = hdrSize s c + 1) := by
  obtain ⟨cU, hcUg⟩ : ∃ x, (getN s c).up = x := ⟨_, rfl⟩
  rw [hcUg] at hlast
  have hcUm : cU ∈ c :: L := List.mem_of_mem_getLast? hlast
  have hcUb : cU < s.length := hLb cU hcUm
  have hncU : n ≠ cU := fun h => hnL (h ▸ hcUm)
  have hmt3 : (getN (updUp (updDown (updUp (updDown (updCol s n (some c)) n c) n cU)
      cU n) c n) c).meta = some mt := by
    rw [updUp_meta, updDown_meta, updUp_meta, updDown_meta, updCol_meta]
    exact hmt
  have hform : ColAppend s c n =
      some (updMeta (updUp (updDown (updUp (updDown (updCol s n (some c)) n c) n cU)
        cU n) c n) c (some { mt with size := (mt.size + 1) % U64 })) := by
    simp only [ColAppend, hcUg, hmt3]
  rw [happ, Option.some_inj] at hform
  subst hform
  have hlenS : (updMeta (updUp (updDown (updUp (updDown (updCol s n (some c)) n c) n cU)
      cU n) c n) c (some { mt with size := (mt.size + 1) % U64 })).length = s.length := by
    rw [length_updMeta, length_updUp, length_updDown, length_updUp, length_updDown,
      length_updCol]
  have hsame : ∀ y, y ≠ cU → y ≠ n →
      (getN (updMeta (updUp (updDown (updUp (updDown (updCol s n (some c)) n c) n cU)
        cU n) c n) c (some { mt with size := (mt.size + 1) % U64 })) y).down =
      (getN s y).down := by
    intro y hycU hyn
    rw [updMeta_down, updUp_down, getN_updDown_ne _ _ _ hycU, updUp_down,
      getN_updDown_ne _ _ _ hyn, updCol_down]
  have hdcU : (getN (updMeta (updUp (updDown (updUp (updDown (updCol s n (some c)) n c)
      n cU) cU n) c n) c (some { mt with size := (mt.size + 1) % U64 })) cU).down = n := by
    rw [updMeta_down, updUp_down,
      updDown_down_self _ _ (by rw [length_updUp, length_updDown, length_updCol]; exact hcUb)]
  have hdn : (getN (updMeta (updUp (updDown (updUp (updDown (updCol s n (some c)) n c)
      n cU) cU n) c n) c (some { mt with size := (mt.size + 1) % U64 })) n).down = c := by
    rw [updMeta_down, updUp_down, getN_updDown_ne _ _ _ hncU, updUp_down,
      updDown_down_self _ _ (by rw [length_updCol]; exact hn)]
  have hlenL : L.length + 1 < s.length + 1 := by
    have := nodup_bounded_length hnd hLb
    simp only [List.length_cons] at this
    omega
  have hbc : c < (updUp (updDown (updUp (updDown (updCol s n (some c)) n c) n cU)
      cU n) c n).length := by
    rw [length_updUp, length_updDown, length_updUp, length_updDown, length_updCol]
    exact hc
  refine ⟨?_, ?_, ?_⟩
  · have happw := walk_append hsame hdcU hdn hnc L c (s.length + 1) (s.length + 1)
      hchain hlast hnd hnL hlenL
    simp only [colChain, hlenS]
    exact happw
  · simp only [hdrSize, updMeta_meta_self _ _ hbc, hmt]
  · intro hlt
    simp only [hdrSize, hmt] at hlt
    simp only [hdrSize, updMeta_meta_self _ _ hbc, hmt]
    exact Nat.mod_eq_of_lt hlt

/-- Claim C3: the live-size counter of every column header tracks the number
of data nodes currently linked in its vertical list: ColAppend extends the
chain by one node and bumps the size by one, each vertical unlink of Cover
removes exactly its cell from its column chain and decrements that size,
preserving the invariant of all tracked columns, each relink of Uncover adds
the size back and exactly inverts the unlink, and a whole Cover call
preserves the invariant. -/
theorem size_counter_invariant :
    (∀ (s s' : H) (c n : Nat) (mt : Meta) (L : List Nat),
      c < s.length → n < s.length → n ≠ c →
      (getN s c).meta = some mt → colChain s c = some L →
      (c :: L).Nodup → n ∉ c :: L →
      (c :: L).getLast? = some ((getN s c).up) →
      (∀ y ∈ c :: L, y < s.length) →
      ColAppend s c n = some s' →
      colChain s' c = some (L ++ [n]) ∧
      hdrSize s' c = (hdrSize s c + 1) % U64 ∧
      (hdrSize s c + 1 < U64 → hdrSize s' c = hdrSize s c + 1)) ∧
    (∀ (hs : List Nat) (s s1 : H) (j : Nat),
      unlinkKeepsOk hs s j = true → vUnlink s j = some s1 →
      ∀ e ∈ hs, sizeInvB s e = true → sizeInvB s1 e = true) ∧
    (∀ (s s1 : H) (j d : Nat), localOk s j = true → vUnlink s j = some s1 →
      (getN s j).col = some d →
      hdrSize s1 d = (hdrSize s d + (U64 - 1)) % U64 ∧
      hdrSize s d = (hdrSize s1 d + 1) % U64 ∧
      vRelink s1 j = some s) ∧
    (∀ (hs : List Nat) (s s2 : H) (c : Nat),
      coverSizeOk hs s c = true → Cover s c = some s2 →
      (∀ e ∈ hs, sizeInvB s e = true) → ∀ e ∈ hs, sizeInvB s2 e = true) := by
  refine ⟨?_, ?_, ?_, ?_⟩
  · intro s s' c n mt L hc hn hnc hmt hchain hnd hnL hlast hLb happ
    exact colAppend_size_chain hc hn hnc hmt hchain hnd hnL hlast hLb happ
  · intro hs s s1 j hok hu
    exact vUnlink_sizeInv hok hu
  · intro s s1 j d hloc hu hcold
    have hloc' := hloc
    simp only [localOk, Bool.and_eq_true, decide_eq_true_eq] at hloc'
    obtain ⟨⟨⟨⟨⟨hj, hD⟩, hU⟩, hDu⟩, hUd⟩, hcolm⟩ := hloc'
    rw [hcold] at hcolm
    simp only [Bool.and_eq_true, decide_eq_true_eq] at hcolm
    obtain ⟨hd, hmeta⟩ := hcolm
    rcases hmt : (getN s d).meta with _ | mt
    · rw [hmt] at hmeta; exact absurd hmeta (by simp)
    · rw [hmt] at hmeta
      simp only [decide_eq_true_eq] at hmeta
      have hmtB : (getN (updDown (updUp s (getN s j).down (getN s j).up)
          (getN s j).up (getN s j).down) d).meta = some mt := by
        rw [updDown_meta, updUp_meta]; exact hmt
      have hB : vUnlink s j =
          some (updMeta (updDown (updUp s (getN s j).down (getN s j).up)
            (getN s j).up (getN s j).down) d
            (some { mt with size := (mt.size + (U64 - 1)) % U64 })) := by
        simp only [vUnlink, hcold, hmtB]
      rw [hu, Option.some_inj] at hB
      subst hB
      have hbd : d < (updDown (updUp s (getN s j).down (getN s j).up)
          (getN s j).up (getN s j).down).length := by
        rw [length_updDown, length_updUp]
        exact hd
      have hs1 : hdrSize (updMeta (updDown (updUp s (getN s j).down (getN s j).up)
          (getN s j).up (getN s j).down) d
          (some { mt with size := (mt.size + (U64 - 1)) % U64 })) d =
          (mt.size + (U64 - 1)) % U64 := by
        simp only [hdrSize, updMeta_meta_self _ _ hbd]
      have hss : hdrSize s d = mt.size := by simp only [hdrSize, hmt]
      have hU64 : U64 = 18446744073709551616 := by norm_num [U64]
      refine ⟨?_, ?_, vRelink_vUnlink hloc hu⟩
      · rw [hs1, hss]
      · rw [hs1, hss, hU64]
        rw [hU64] at hmeta
        omega
  · intro hs s s2 c hok hcov hinv
    simp only [coverSizeOk, Bool.and_eq_true] at hok
    obtain ⟨hmeta, hrows⟩ := hok
    rcases hm0 : (getN s c).meta with _ | mo
    · rw [hm0] at hmeta; exact absurd hmeta (by simp)
    · have hcovEq : Cover s c = coverRowsGo
          ((updRight (updLeft s (getN s c).right (getN s c).left) (getN s c).left
            (getN s c).right).length + 1)
          (updRight (updLeft s (getN s c).right (getN s c).left) (getN s c).left
            (getN s c).right) c
          ((getN (updRight (updLeft s (getN s c).right (getN s c).left) (getN s c).left
            (getN s c).right) c).down) := by
        simp only [Cover, hm0]
      rw [hcovEq] at hcov
      have hsplice : ∀ e, sizeInvB (updRight (updLeft s (getN s c).right (getN s c).left)
          (getN s c).left (getN s c).right) e = sizeInvB s e := by
        intro e
        apply sizeInvB_congr
        · rw [length_updRight, length_updLeft]
        · intro y; rw [updRight_down, updLeft_down]
        · intro y; rw [updRight_meta, updLeft_meta]
      exact rowsGo_sizeInv _ _ _ hrows hcov
        (fun e he => by rw [hsplice e]; exact hinv e he)

/-- Witness for claim C3: appending a fresh node to the chain of the single
column extends its chain and size by one; unlinking the first cell of column
C in the example matrix preserves the size invariant of that column;
relinking it restores the heap; covering column A preserves the invariant of
every column. -/
theorem size_counter_invariant_witness :
    colChain ((ColAppend (newNode oneColHeap).1 1 4).getD []) 1 = some ([2, 3] ++ [4]) ∧
    sizeInvB ((vUnlink knuthHeap 8).getD []) 3 = true ∧
    vRelink ((vUnlink knuthHeap 8).getD []) 8 = some knuthHeap ∧
    sizeInvB ((Cover knuthHeap 1).getD []) 2 = true :=
  ⟨(size_counter_invariant.1 (newNode oneColHeap).1 ((ColAppend (newNode oneColHeap).1 1 4).getD [])
      1 4 ⟨2, "A"⟩ [2, 3] (by decide) (by decide) (by decide) (by decide) (by decide)
      (by decide) (by decide) (by decide) (by decide) (by decide)).1,
   size_counter_invariant.2.1 [3] knuthHeap ((vUnlink knuthHeap 8).getD []) 8
      (by decide) (by decide) 3 (by decide) (by decide),
   (size_counter_invariant.2.2.1 knuthHeap ((vUnlink knuthHeap 8).getD []) 8 3
      (by decide) (by decide) (by decide)).2.2,
   size_counter_invariant.2.2.2 [1, 2, 3, 4, 5, 6, 7] knuthHeap
      ((Cover knuthHeap 1).getD []) 1 (by decide) (by decide)
      (by decide) 2 (by decide)⟩

/-- Peeling one iteration of the construction loop from the positive-cell
column list of a row. -/
theorem rowPosFrom_succ (j count : Nat) (row : List Int) :
    rowPosFrom j (count + 1) row =
      if 0 < row.getD j 0 then j :: rowPosFrom (j + 1) count row
      else rowPosFrom (j + 1) count row := by
  simp only [rowPosFrom, List.range'_succ, List.filter_cons]
  by_cases h : (0 : Int) < row.getD j 0 <;> simp [h]

/-- A row with no remaining iterations allocates nothing. -/
theorem rowPosFrom_zero (j : Nat) (row : List Int) : rowPosFrom j 0 row = [] := rfl

/-- Positive-cell columns of a row sit in the scanned range. -/
theorem rowPosFrom_mem {j count : Nat} {row : List Int} :
    ∀ k ∈ rowPosFrom j count row, j ≤ k ∧ k < j + count := by
  intro k hk
  have hm := List.mem_range'_1.mp (List.mem_of_mem_filter hk)
  exact ⟨hm.1, hm.2⟩

/-- The scanned column range is duplicate free, hence so is its filter. -/
theorem rowPosFrom_nodup (j count : Nat) (row : List Int) :
    (rowPosFrom j count row).Nodup :=
  (List.nodup_range' j count 1 Nat.one_pos).filter _

/-- cellCount distributes over concatenation of row blocks. -/
theorem cellCount_append (C : Nat) (mm1 mm2 : List (List Int)) :
    cellCount C (mm1 ++ mm2) = cellCount C mm1 + cellCount C mm2 := by
  simp [cellCount]

/-- cellCount of a single extra row. -/
theorem cellCount_cons (C : Nat) (r : List Int) (mm : List (List Int)) :
    cellCount C (r :: mm) = (rowPos C r).length + cellCount C mm := by
  simp [cellCount]

/-- A found index is in range and points at the sought column. -/
theorem idxIn_lt {k : Nat} : ∀ {l : List Nat} {q : Nat}, idxIn k l = some q →
    q < l.length ∧ l.getD q 0 = k := by
  intro l
  induction l with
  | nil => intro q h; cases h
  | cons a t ih =>
    intro q h
    by_cases ha : a = k
    · rw [idxIn, if_pos ha] at h
      cases h
      exact ⟨Nat.succ_pos _, ha⟩
    · rw [idxIn, if_neg ha] at h
      match hq : idxIn k t with
      | none => rw [hq] at h; cases h
      | some q' =>
        rw [hq] at h
        cases h
        have := ih hq
        exact ⟨Nat.succ_lt_succ this.1, this.2⟩

/-- idxIn fails exactly on absent columns. -/
theorem idxIn_none {k : Nat} : ∀ {l : List Nat}, idxIn k l = none ↔ k ∉ l := by
  intro l
  induction l with
  | nil => simp [idxIn]
  | cons a t ih =>
    by_cases ha : a = k
    · simp [idxIn, ha]
    · simp only [idxIn, if_neg ha, Option.map_eq_none', List.mem_cons]
      rw [ih]
      constructor
      · intro h hc
        rcases hc with hc | hc
        · exact ha hc.symm
        · exact h hc
      · intro h hc
        exact h (Or.inr hc)

/-- In a duplicate-free list the element at position q is found at q. -/
theorem idxIn_getD {l : List Nat} (hnd : l.Nodup) :
    ∀ {q : Nat}, q < l.length → idxIn (l.getD q 0) l = some q := by
  induction l with
  | nil => intro q h; cases h
  | cons a t ih =>
    intro q hq
    match q with
    | 0 => simp [idxIn]
    | q' + 1 =>
      have hqt : q' < t.length := Nat.lt_of_succ_lt_succ hq
      have hk : (a :: t).getD (q' + 1) 0 = t.getD q' 0 := rfl
      have hmem : t.getD q' 0 ∈ t := by
        rw [List.getD_eq_getElem t 0 hqt]
        exact t.getElem_mem hqt
      have hane : a ≠ t.getD q' 0 := by
        intro hc
        exact (List.nodup_cons.mp hnd).1 (hc ▸ hmem)
      rw [hk, idxIn, if_neg hane, ih (List.nodup_cons.mp hnd).2 hqt]
      rfl

/-- Column node lists over concatenated row blocks. -/
theorem colNodesGo_append (C : Nat) (mm1 mm2 : List (List Int)) :
    ∀ (base k : Nat), colNodesGo C base (mm1 ++ mm2) k =
      colNodesGo C base mm1 k ++ colNodesGo C (base + cellCount C mm1) mm2 k := by
  induction mm1 with
  | nil => intro base k; simp [colNodesGo, cellCount]
  | cons r t ih =>
    intro base k
    simp only [List.cons_append, colNodesGo]
    cases h : idxIn k (rowPos C r) with
    | some q => simp [h, ih, cellCount_cons, Nat.add_assoc]
    | none => simp [h, ih, cellCount_cons, Nat.add_assoc]

/-- Every column node index lies in the data region of its row block. -/
theorem colNodesGo_bounds (C : Nat) :
    ∀ (mm : List (List Int)) (base k x : Nat), x ∈ colNodesGo C base mm k →
      base ≤ x ∧ x < base + cellCount C mm := by
  intro mm
  induction mm with
  | nil => intro base k x hx; simp [colNodesGo] at hx
  | cons r t ih =>
    intro base k x hx
    rw [colNodesGo] at hx
    rw [cellCount_cons]
    cases h : idxIn k (rowPos C r) with
    | some q =>
      rw [h] at hx
      rcases List.mem_cons.mp hx with hx | hx
      · have hq := (idxIn_lt h).1
        subst hx
        constructor
        · exact Nat.le_add_right _ _
        · have : q < (rowPos C r).length + cellCount C t :=
            Nat.lt_of_lt_of_le hq (Nat.le_add_right _ _)
          omega
      · have := ih (base + (rowPos C r).length) k x hx
        omega
    | none =>
      rw [h] at hx
      have := ih (base + (rowPos C r).length) k x hx
      omega

/-- Distinct columns own disjoint node lists. -/
theorem colNodesGo_disj (C : Nat) :
    ∀ (mm : List (List Int)) (base k k' x : Nat), x ∈ colNodesGo C base mm k →
      x ∈ colNodesGo C base mm k' → k = k' := by
  intro mm
  induction mm with
  | nil => intro base k k' x hx; simp [colNodesGo] at hx
  | cons r t ih =>
    intro base k k' x hx hx'
    rw [colNodesGo] at hx hx'
    cases h : idxIn k (rowPos C r) with
    | some q =>
      rw [h] at hx
      cases h' : idxIn k' (rowPos C r) with
      | some q' =>
        rw [h'] at hx'
        rcases List.mem_cons.mp hx with hx | hx <;>
          rcases List.mem_cons.mp hx' with hx' | hx'
        · have hq := idxIn_lt h
          have hq' := idxIn_lt h'
          have : q = q' := by omega
          rw [← hq.2, ← hq'.2, this]
        · have hb := colNodesGo_bounds C t (base + (rowPos C r).length) k' x hx'
          have hq := (idxIn_lt h).1
          omega
        · have hb := colNodesGo_bounds C t (base + (rowPos C r).length) k x hx
          have hq' := (idxIn_lt h').1
          omega
        · exact ih _ k k' x hx hx'
      | none =>
        rw [h'] at hx'
        rcases List.mem_cons.mp hx with hx | hx
        · have hb := colNodesGo_bounds C t (base + (rowPos C r).length) k' x hx'
          have hq := (idxIn_lt h).1
          omega
        · exact ih _ k k' x hx hx'
    | none =>
      rw [h] at hx
      cases h' : idxIn k' (rowPos C r) with
      | some q' =>
        rw [h'] at hx'
        rcases List.mem_cons.mp hx' with hx' | hx'
        · have hb := colNodesGo_bounds C t (base + (rowPos C r).length) k x hx
          have hq' := (idxIn_lt h').1
          omega
        · exact ih _ k k' x hx hx'
      | none =>
        rw [h'] at hx'
        exact ih _ k k' x hx hx'

/-- A column never holds more nodes than the whole block allocates. -/
theorem colNodesGo_le (C : Nat) :
    ∀ (mm : List (List Int)) (base k : Nat),
      (colNodesGo C base mm k).length ≤ cellCount C mm := by
  intro mm
  induction mm with
  | nil => intro base k; simp [colNodesGo, cellCount]
  | cons r t ih =>
    intro base k
    rw [colNodesGo, cellCount_cons]
    cases h : idxIn k (rowPos C r) with
    | some q =>
      have hq := (idxIn_lt h).1
      have hrec := ih (base + (rowPos C r).length) k
      show ((base + q) :: colNodesGo C (base + (rowPos C r).length) t k).length ≤ _
      simp only [List.length_cons]
      omega
    | none =>
      have hrec := ih (base + (rowPos C r).length) k
      show (colNodesGo C (base + (rowPos C r).length) t k).length ≤ _
      omega

/-- Chain elements never equal the stop sentinel. -/
theorem chainSteps_ne_stop {f0 : Node → Nat} {s : H} :
    ∀ {l : List Nat} {stop j : Nat}, chainSteps f0 s l stop j →
      ∀ a ∈ l, a ≠ stop := by
  intro l
  induction l with
  | nil => intro stop j _ a ha; cases ha
  | cons b t ih =>
    intro stop j h a ha
    rcases List.mem_cons.mp ha with ha | ha
    · exact ha ▸ h.2.1
    · exact ih h.2.2 a ha

/-- A field-level chain realises the fuelled walk. -/
theorem walkF_of_chainSteps {f0 : Node → Nat} {s : H} {stop : Nat} :
    ∀ {l : List Nat} {j F : Nat}, chainSteps f0 s l stop j →
      l.length < F → walkF f0 F s stop j = some l := by
  intro l
  induction l with
  | nil =>
    intro j F h hF
    match F, hF with
    | F' + 1, _ =>
      rw [h]
      rw [walkF, if_pos rfl]
  | cons a t ih =>
    intro j F h hF
    match F, hF with
    | F' + 1, hF =>
      obtain ⟨hja, hane, hrest⟩ := h
      subst hja
      rw [walkF, if_neg hane, ih hrest (Nat.lt_of_succ_lt_succ hF)]

/-- Chains transfer to a heap agreeing on the traversed field. -/
theorem chainSteps_congr {f0 : Node → Nat} {s s' : H} :
    ∀ {l : List Nat} {stop j : Nat}, chainSteps f0 s l stop j →
      (∀ a ∈ l, f0 (getN s' a) = f0 (getN s a)) → chainSteps f0 s' l stop j := by
  intro l
  induction l with
  | nil => intro stop j h _; exact h
  | cons a t ih =>
    intro stop j h hsame
    refine ⟨h.1, h.2.1, ?_⟩
    rw [hsame a (List.mem_cons_self a t)]
    exact ih h.2.2 fun b hb => hsame b (List.mem_cons_of_mem a hb)

/-- Appending one node at the end of a chain: the old chain holds in the new
heap except that its last element now points at the new node, which in turn
points at the stop sentinel. -/
theorem chainSteps_snoc {f0 : Node → Nat} {s s' : H} {stop b : Nat} :
    ∀ {l : List Nat} {j : Nat}, l ≠ [] → chainSteps f0 s l stop j →
      (∀ a ∈ l.dropLast, f0 (getN s' a) = f0 (getN s a)) →
      f0 (getN s' (lastD l 0)) = b →
      f0 (getN s' b) = stop → b ≠ stop →
      chainSteps f0 s' (l ++ [b]) stop j := by
  intro l
  induction l with
  | nil => intro j hne; exact absurd rfl hne
  | cons a t ih =>
    intro j _ h hkeep hlast hb hbne
    obtain ⟨hja, hane, hrest⟩ := h
    match t with
    | [] =>
      refine ⟨hja, hane, ?_⟩
      have hla : lastD [a] 0 = a := rfl
      rw [hla] at hlast
      rw [hlast]
      exact ⟨rfl, hbne, hb⟩
    | c :: t' =>
      refine ⟨hja, hane, ?_⟩
      have hmem : a ∈ (a :: c :: t').dropLast := by
        simp [List.dropLast]
      rw [hkeep a hmem]
      have hhead : f0 (getN s a) = c := hrest.1
      rw [hhead]
      rw [hhead] at hrest
      have hlast' : lastD (a :: c :: t') 0 = lastD (c :: t') 0 := by
        simp [lastD, List.getLast?]
      refine ih (by simp) hrest ?_ (by rw [← hlast']; exact hlast) hb hbne
      intro x hx
      refine hkeep x ?_
      simp [List.dropLast] at hx ⊢
      exact Or.inr hx

/-- A block of consecutively linked nodes closing at a stop sentinel forms a
chain: the generic shape of a freshly built ring or header row. -/
theorem chainSteps_range' {f0 : Node → Nat} {s : H} :
    ∀ (nr B stop : Nat), 0 < nr →
      (∀ q, q + 1 < nr → f0 (getN s (B + q)) = B + q + 1) →
      f0 (getN s (B + (nr - 1))) = stop →
      (∀ q, q < nr → B + q ≠ stop) →
      chainSteps f0 s (List.range' B nr) stop B := by
  intro nr
  induction nr with
  | zero => intro B stop h; cases h
  | succ n ih =>
    intro B stop _ hstep hlast hne
    rw [List.range'_succ]
    match n with
    | 0 =>
      exact ⟨rfl, hne 0 (Nat.zero_lt_succ 0), hlast⟩
    | m + 1 =>
      refine ⟨rfl, hne 0 (Nat.zero_lt_succ _), ?_⟩
      have h0 : f0 (getN s B) = B + 1 := by
        have := hstep 0 (by omega)
        simpa using this
      rw [h0]
      have := ih (B + 1) stop (Nat.zero_lt_succ m)
        (fun q hq => by
          have := hstep (q + 1) (by omega)
          simpa [Nat.add_assoc, Nat.add_comm, Nat.add_left_comm] using this)
        (by
          have : B + 1 + (m + 1 - 1) = B + (m + 1) := by omega
          rw [this]
          simpa using hlast)
        (fun q hq => by
          have := hne (q + 1) (by omega)
          simpa [Nat.add_assoc, Nat.add_comm, Nat.add_left_comm] using this)
      simpa using this

/-- Allocation leaves every existing node untouched. -/
theorem getN_newNode_old (s : H) {x : Nat} (hx : x < s.length) :
    getN (newNode s).1 x = getN s x := by
  simp only [newNode, getN]
  exact List.getD_append s _ default x hx

/-- The fresh node is self linked with no Col and no Meta. -/
theorem getN_newNode_new (s : H) :
    getN (newNode s).1 s.length =
      { right := s.length, up := s.length, left := s.length, down := s.length,
        col := none, meta := none } := by
  simp only [newNode, getN]
  rw [List.getD_append_right s _ default s.length (Nat.le_refl _)]
  simp

/-- Allocation grows the heap by one slot. -/
theorem newNode_length (s : H) : (newNode s).1.length = s.length + 1 := by
  simp [newNode]

/-- The returned index of an allocation is the old heap size. -/
theorem newNode_idx (s : H) : (newNode s).2 = s.length := rfl

/-- Node-level specification of ColAppend: the new node is wired below the
old bottom cell and above the header, the header's size counter is bumped,
and no other node changes. -/
theorem ColAppend_spec (s : H) (c n : Nat) (mt : Meta)
    (hc : c < s.length) (hn : n < s.length) (hnc : n ≠ c)
    (hncU : n ≠ (getN s c).up) (hcU : (getN s c).up < s.length)
    (hmt : (getN s c).meta = some mt) :
    ∃ s', ColAppend s c n = some s' ∧
      s'.length = s.length ∧
      (∀ x, x ≠ n → x ≠ c → x ≠ (getN s c).up → getN s' x = getN s x) ∧
      getN s' n = { right := (getN s n).right, up := (getN s c).up,
                    left := (getN s n).left, down := c, col := some c,
                    meta := (getN s n).meta } ∧
      getN s' c = { right := (getN s c).right, up := n, left := (getN s c).left,
                    down := (if (getN s c).up = c then n else (getN s c).down),
                    col := (getN s c).col,
                    meta := some { size := (mt.size + 1) % U64, name := mt.name } } ∧
      ((getN s c).up ≠ c →
        getN s' (getN s c).up = { getN s (getN s c).up with down := n }) ∧
      (getN s' (getN s c).up).down = n := by
  have hmeta3 : ∀ x, (getN (updUp (updDown (updUp (updDown (updCol s n (some c)) n c)
      n (getN s c).up) (getN s c).up n) c n) x).meta = (getN s x).meta := by
    intro x
    rw [updUp_meta, updDown_meta, updUp_meta, updDown_meta, updCol_meta]
  have hres : ColAppend s c n =
      some (updMeta (updUp (updDown (updUp (updDown (updCol s n (some c)) n c)
        n (getN s c).up) (getN s c).up n) c n) c
        (some { size := (mt.size + 1) % U64, name := mt.name })) := by
    simp only [ColAppend]
    rw [hmeta3 c, hmt]
  refine ⟨_, hres, ?_, ?_, ?_, ?_, ?_, ?_⟩
  · simp [length_updMeta, length_updUp, length_updDown, length_updCol]
  · intro x hxn hxc hxcU
    rw [getN_updMeta_ne _ _ _ hxc, getN_updUp_ne _ _ _ hxc,
      getN_updDown_ne _ _ _ hxcU, getN_updUp_ne _ _ _ hxn,
      getN_updDown_ne _ _ _ hxn, getN_updCol_ne _ _ _ hxn]
  · apply nodeEq
    · rw [updMeta_right, updUp_right, updDown_right, updUp_right, updDown_right,
        updCol_right]
    · rw [getN_updMeta_ne _ _ _ hnc, getN_updUp_ne _ _ _ hnc,
        getN_updDown_ne _ _ _ hncU]
      rw [updUp_up_self _ _ (by simp only [length_updDown, length_updCol]; omega)]
    · rw [updMeta_left, updUp_left, updDown_left, updUp_left, updDown_left,
        updCol_left]
    · rw [getN_updMeta_ne _ _ _ hnc, getN_updUp_ne _ _ _ hnc,
        getN_updDown_ne _ _ _ hncU, updUp_down,
        updDown_down_self _ _ (by simp only [length_updCol]; omega)]
    · rw [updMeta_col, updUp_col, updDown_col, updUp_col, updDown_col,
        updCol_col_self _ _ (by omega)]
    · rw [getN_updMeta_ne _ _ _ hnc, hmeta3 n]
  · apply nodeEq
    · rw [updMeta_right, updUp_right, updDown_right, updUp_right, updDown_right,
        updCol_right]
    · rw [updMeta_up]
      rw [updUp_up_self _ _ (by
        simp only [length_updDown, length_updUp, length_updCol]; omega)]
    · rw [updMeta_left, updUp_left, updDown_left, updUp_left, updDown_left,
        updCol_left]
    · rw [updMeta_down, updUp_down]
      by_cases hif : (getN s c).up = c
      · rw [if_pos hif, hif]
        rw [updDown_down_self _ _ (by
          simp only [length_updUp, length_updDown, length_updCol]; omega)]
      · rw [if_neg hif]
        have hccU : c ≠ (getN s c).up := fun hh => hif hh.symm
        rw [getN_updDown_ne _ _ _ hccU, updUp_down,
          getN_updDown_ne _ _ _ (Ne.symm hnc), updCol_down]
    · rw [updMeta_col, updUp_col, updDown_col, updUp_col, updDown_col,
        getN_updCol_ne _ _ _ (Ne.symm hnc)]
    · rw [updMeta_meta_self _ _ (by
        simp only [length_updUp, length_updDown, length_updCol]; omega)]
  · intro hcUc
    apply nodeEq
    · rw [updMeta_right, updUp_right, updDown_right, updUp_right, updDown_right,
        updCol_right]
    · rw [getN_updMeta_ne _ _ _ hcUc, getN_updUp_ne _ _ _ hcUc, updDown_up,
        getN_updUp_ne _ _ _ (Ne.symm hncU), updDown_up, updCol_up]
    · rw [updMeta_left, updUp_left, updDown_left, updUp_left, updDown_left,
        updCol_left]
    · rw [getN_updMeta_ne _ _ _ hcUc, getN_updUp_ne _ _ _ hcUc]
      rw [updDown_down_self _ _ (by
        simp only [length_updUp, length_updDown, length_updCol]; omega)]
    · rw [updMeta_col, updUp_col, updDown_col, updUp_col, updDown_col,
        getN_updCol_ne _ _ _ (Ne.symm hncU)]
    · rw [getN_updMeta_ne _ _ _ hcUc, hmeta3 (getN s c).up]
  · by_cases hcUc : (getN s c).up = c
    · rw [hcUc]
      rw [updMeta_down, updUp_down]
      rw [updDown_down_self _ _ (by
        simp only [length_updUp, length_updDown, length_updCol]; omega)]
    · rw [getN_updMeta_ne _ _ _ hcUc, getN_updUp_ne _ _ _ hcUc]
      rw [updDown_down_self _ _ (by
        simp only [length_updUp, length_updDown, length_updCol]; omega)]

/-- RowAppend keeps the heap size. -/
theorem RowAppend_length (s : H) (r n : Nat) :
    (RowAppend s r n).length = s.length := by
  simp [RowAppend, length_updLeft, length_updRight]

/-- Node-level specification of RowAppend: the new node is inserted between
the old last element of the ring and the anchor r, and no other node
changes. -/
theorem RowAppend_spec (s : H) (r n : Nat)
    (hr : r < s.length) (hn : n < s.length) (hnr : n ≠ r)
    (hnrL : n ≠ (getN s r).left) (hrL : (getN s r).left < s.length) :
    (∀ x, x ≠ n → x ≠ r → x ≠ (getN s r).left →
      getN (RowAppend s r n) x = getN s x) ∧
    getN (RowAppend s r n) n =
      { right := r, up := (getN s n).up, left := (getN s r).left,
        down := (getN s n).down, col := (getN s n).col,
        meta := (getN s n).meta } ∧
    getN (RowAppend s r n) r =
      { right := (if (getN s r).left = r then n else (getN s r).right),
        up := (getN s r).up, left := n, down := (getN s r).down,
        col := (getN s r).col, meta := (getN s r).meta } ∧
    ((getN s r).left ≠ r →
      getN (RowAppend s r n) (getN s r).left =
        { getN s (getN s r).left with right := n }) ∧
    (getN (RowAppend s r n) (getN s r).left).right = n := by
  refine ⟨?_, ?_, ?_, ?_, ?_⟩
  · intro x hxn hxr hxrL
    rw [RowAppend]
    rw [getN_updLeft_ne _ _ _ hxr, getN_updRight_ne _ _ _ hxrL,
      getN_updLeft_ne _ _ _ hxn, getN_updRight_ne _ _ _ hxn]
  · rw [RowAppend]
    apply nodeEq
    · rw [getN_updLeft_ne _ _ _ hnr, getN_updRight_ne _ _ _ hnrL, updLeft_right,
        updRight_right_self _ _ (by omega)]
    · rw [updLeft_up, updRight_up, updLeft_up, updRight_up]
    · rw [getN_updLeft_ne _ _ _ hnr, getN_updRight_ne _ _ _ hnrL,
        updLeft_left_self _ _ (by simp only [length_updRight]; omega)]
    · rw [updLeft_down, updRight_down, updLeft_down, updRight_down]
    · rw [updLeft_col, updRight_col, updLeft_col, updRight_col]
    · rw [updLeft_meta, updRight_meta, updLeft_meta, updRight_meta]
  · rw [RowAppend]
    apply nodeEq
    · rw [updLeft_right]
      by_cases hif : (getN s r).left = r
      · rw [if_pos hif, hif]
        rw [updRight_right_self _ _ (by
          simp only [length_updLeft, length_updRight]; omega)]
      · rw [if_neg hif]
        have hrrL : r ≠ (getN s r).left := fun hh => hif hh.symm
        rw [getN_updRight_ne _ _ _ hrrL, getN_updLeft_ne _ _ _ (Ne.symm hnr),
          getN_updRight_ne _ _ _ (Ne.symm hnr)]
    · rw [updLeft_up, updRight_up, updLeft_up, updRight_up]
    · rw [updLeft_left_self _ _ (by
        simp only [length_updRight, length_updLeft]; omega)]
    · rw [updLeft_down, updRight_down, updLeft_down, updRight_down]
    · rw [updLeft_col, updRight_col, updLeft_col, updRight_col]
    · rw [updLeft_meta, updRight_meta, updLeft_meta, updRight_meta]
  · intro hrLr
    rw [RowAppend]
    apply nodeEq
    · rw [getN_updLeft_ne _ _ _ hrLr]
      rw [updRight_right_self _ _ (by
        simp only [length_updLeft, length_updRight]; omega)]
    · rw [updLeft_up, updRight_up, updLeft_up, updRight_up]
    · rw [getN_updLeft_ne _ _ _ hrLr, updRight_left,
        getN_updLeft_ne _ _ _ (Ne.symm hnrL), updRight_left]
    · rw [updLeft_down, updRight_down, updLeft_down, updRight_down]
    · rw [updLeft_col, updRight_col, updLeft_col, updRight_col]
    · rw [updLeft_meta, updRight_meta, updLeft_meta, updRight_meta]
  · rw [RowAppend]
    by_cases hrLr : (getN s r).left = r
    · rw [hrLr, updLeft_right]
      rw [updRight_right_self _ _ (by
        simp only [length_updLeft, length_updRight]; omega)]
    · rw [getN_updLeft_ne _ _ _ hrLr]
      rw [updRight_right_self _ _ (by
        simp only [length_updLeft, length_updRight]; omega)]

/-- One positive-cell iteration of the row loop before any cell of the row
exists: allocate, ColAppend, and make the new node the row anchor. -/
theorem buildRowGo_pos_none {s s2 : H} {row : List Int} {j head : Nat}
    {v : Int} (hv : row[j]? = some v) (hpos : 0 < v)
    (hca : ColAppend (newNode s).1 head (newNode s).2 = some s2)
    (count : Nat) :
    buildRowGo (count + 1) s row j none head =
      buildRowGo count s2 row (j + 1) (some (newNode s).2)
        ((getN s2 head).right) := by
  simp only [buildRowGo]
  rw [hv]
  simp only [hca]
  rw [if_pos hpos]

/-- One positive-cell iteration of the row loop with an existing anchor:
allocate, ColAppend, RowAppend behind the anchor. -/
theorem buildRowGo_pos_some {s s2 : H} {row : List Int} {j head pr : Nat}
    {v : Int} (hv : row[j]? = some v) (hpos : 0 < v)
    (hca : ColAppend (newNode s).1 head (newNode s).2 = some s2)
    (count : Nat) :
    buildRowGo (count + 1) s row j (some pr) head =
      buildRowGo count (RowAppend s2 pr (newNode s).2) row (j + 1) (some pr)
        ((getN (RowAppend s2 pr (newNode s).2) head).right) := by
  simp only [buildRowGo]
  rw [hv]
  simp only [hca]
  rw [if_pos hpos]

/-- A non-positive cell only advances the loop. -/
theorem buildRowGo_skip {s : H} {row : List Int} {j head : Nat}
    {v : Int} (hv : row[j]? = some v) (hneg : ¬ 0 < v)
    (count : Nat) (prev : Option Nat) :
    buildRowGo (count + 1) s row j prev head =
      buildRowGo count s row (j + 1) prev ((getN s head).right) := by
  simp only [buildRowGo]
  simp only [hv]
  rw [if_neg hneg]

/-- The default-read element at an in-range position is a member. -/
theorem getD_mem_nat (l : List Nat) (q : Nat) (h : q < l.length) :
    l.getD q 0 ∈ l := by
  rw [List.getD_eq_getElem l 0 h]
  exact l.getElem_mem h


/-- One allocation plus ColAppend below column j + 1 at the start of a row:
the complete field-level effect as a CellStep with no previous cells. -/
theorem cellStep_none (s : H) (j : Nat)
    (hj1 : j + 1 < s.length)
    (hcU : (getN s (j + 1)).up < s.length)
    (hmt : ((getN s (j + 1)).meta).isSome = true) :
    ∃ s2, ColAppend (newNode s).1 (j + 1) (newNode s).2 = some s2 ∧
      CellStep s s2 j 0 s.length := by
  obtain ⟨mt, hmts⟩ : ∃ mt, (getN s (j + 1)).meta = some mt :=
    Option.isSome_iff_exists.mp hmt
  have hallocj : getN (newNode s).1 (j + 1) = getN s (j + 1) :=
    getN_newNode_old s hj1
  have halloccU : getN (newNode s).1 ((getN s (j + 1)).up) =
      getN s ((getN s (j + 1)).up) := getN_newNode_old s hcU
  have hfresh : getN (newNode s).1 s.length =
      { right := s.length, up := s.length, left := s.length,
        down := s.length, col := none, meta := none } := getN_newNode_new s
  have hlenalloc : (newNode s).1.length = s.length + 1 := newNode_length s
  obtain ⟨s2, hca, hlen2, hframe2, hn2, hc2, hcU2, hcUd2⟩ :=
    ColAppend_spec (newNode s).1 (j + 1) s.length mt
      (by omega) (by omega) (by omega)
      (by rw [hallocj]; omega) (by rw [hallocj]; omega)
      (by rw [hallocj]; exact hmts)
  rw [hallocj] at hframe2 hn2 hc2 hcU2 hcUd2
  rw [halloccU] at hcU2
  have hs2frame : ∀ x, x < s.length → x ≠ j + 1 →
      x ≠ (getN s (j + 1)).up → getN s2 x = getN s x := by
    intro x hx h1 h2
    rw [hframe2 x (by omega) h1 h2]
    exact getN_newNode_old s hx
  refine ⟨s2, hca, ?_, ?_, ?_, ?_, ?_, ?_, ?_, ?_, ?_, ?_, ?_, ?_⟩
  · rw [hlen2, hlenalloc]
  · intro x hx _
    by_cases h1 : x = j + 1
    · rw [h1, hc2]
    · by_cases h2 : x = (getN s (j + 1)).up
      · have hne : (getN s (j + 1)).up ≠ j + 1 := fun hh => h1 (h2.trans hh)
        rw [h2, hcU2 hne]
      · rw [hs2frame x hx h1 h2]
  · intro x hx _
    by_cases h1 : x = j + 1
    · rw [h1, hc2]
    · by_cases h2 : x = (getN s (j + 1)).up
      · have hne : (getN s (j + 1)).up ≠ j + 1 := fun hh => h1 (h2.trans hh)
        rw [h2, hcU2 hne]
      · rw [hs2frame x hx h1 h2]
  · intro x hx
    by_cases h1 : x = j + 1
    · rw [h1, hc2]
    · by_cases h2 : x = (getN s (j + 1)).up
      · have hne : (getN s (j + 1)).up ≠ j + 1 := fun hh => h1 (h2.trans hh)
        rw [h2, hcU2 hne]
      · rw [hs2frame x hx h1 h2]
  · intro x hx h2
    by_cases h1 : x = j + 1
    · have hne : (getN s (j + 1)).up ≠ j + 1 := fun hh => h2 (h1.trans hh.symm)
      rw [h1, hc2]
      rw [if_neg hne]
    · rw [hs2frame x hx h1 h2]
  · intro x hx h1
    by_cases h2 : x = (getN s (j + 1)).up
    · have hne : (getN s (j + 1)).up ≠ j + 1 := fun hh => h1 (h2.trans hh)
      rw [h2, hcU2 hne]
      exact ⟨rfl, rfl⟩
    · rw [hs2frame x hx h1 h2]
      exact ⟨rfl, rfl⟩
  · rw [hc2]
  · rw [hc2, hmts]
    rfl
  · exact hcUd2
  · apply nodeEq
    · rw [hn2, hfresh]
    · rw [hn2]
    · rw [hn2, hfresh, if_pos rfl]
    · rw [hn2]
    · rw [hn2]
    · rw [hn2, hfresh]
  · intro h0
    exact absurd h0 (Nat.lt_irrefl 0)
  · rw [hn2, hfresh]

/-- Appending the freshly wired node behind the row anchor promotes a
pt = 0 CellStep into the general CellStep of a row with pt earlier cells. -/
theorem cellStep_row (s s2 : H) (j pt f : Nat)
    (hpt : 0 < pt) (hf : f + pt = s.length) (hjf : j + 1 < f)
    (hcU : (getN s (j + 1)).up < f)
    (hfl : (getN s f).left = f + pt - 1)
    (h0 : CellStep s s2 j 0 s.length) :
    CellStep s (RowAppend s2 f s.length) j pt f := by
  have hfs : f < s.length := by omega
  have hlen2 := h0.len
  have hfl2 : (getN s2 f).left = f + pt - 1 := by
    rw [h0.left f hfs (Or.inl rfl), hfl]
  obtain ⟨hraframe, hran, hraf, hrarL, hrarLr⟩ :=
    RowAppend_spec s2 f s.length (by omega) (by omega) (by omega)
      (by rw [hfl2]; omega) (by rw [hfl2]; omega)
  rw [hfl2] at hraframe hran hraf hrarL hrarLr
  have hclen : (RowAppend s2 f s.length).length = s2.length :=
    RowAppend_length _ _ _
  have hrest : ∀ x, (getN (RowAppend s2 f s.length) x).up = (getN s2 x).up ∧
      (getN (RowAppend s2 f s.length) x).down = (getN s2 x).down ∧
      (getN (RowAppend s2 f s.length) x).col = (getN s2 x).col ∧
      (getN (RowAppend s2 f s.length) x).meta = (getN s2 x).meta := by
    intro x
    by_cases hx1 : x = s.length
    · rw [hx1, hran]
      exact ⟨rfl, rfl, rfl, rfl⟩
    · by_cases hx2 : x = f
      · rw [hx2, hraf]
        exact ⟨rfl, rfl, rfl, rfl⟩
      · by_cases hx3 : x = f + pt - 1
        · have hne : f + pt - 1 ≠ f := fun hh => hx2 (hx3.trans hh)
          rw [hx3, hrarL hne]
          exact ⟨rfl, rfl, rfl, rfl⟩
        · rw [hraframe x hx1 hx2 hx3]
          exact ⟨rfl, rfl, rfl, rfl⟩
  have hright3 : ∀ x, x < s.length → x ≠ f + pt - 1 →
      (getN (RowAppend s2 f s.length) x).right = (getN s2 x).right := by
    intro x hx hx3
    by_cases hx2 : x = f
    · have hne : ¬ (f + pt - 1 = f) := fun hh => hx3 (hx2.trans hh.symm)
      rw [hx2, hraf, if_neg hne]
    · rw [hraframe x (by omega) hx2 hx3]
  have hleft3 : ∀ x, x < s.length → x ≠ f →
      (getN (RowAppend s2 f s.length) x).left = (getN s2 x).left := by
    intro x hx hx2
    by_cases hx3 : x = f + pt - 1
    · have hne : f + pt - 1 ≠ f := fun hh => hx2 (hx3.trans hh)
      rw [hx3, hrarL hne]
    · rw [hraframe x (by omega) hx2 hx3]
  refine ⟨?_, ?_, ?_, ?_, ?_, ?_, ?_, ?_, ?_, ?_, ?_, ?_⟩
  · rw [hclen, hlen2]
  · intro x hx hcond
    have hx3 : x ≠ f + pt - 1 := by
      rcases hcond with h | h
      · omega
      · exact h
    rw [hright3 x hx hx3]
    exact h0.right x hx (Or.inl rfl)
  · intro x hx hcond
    have hx2 : x ≠ f := by
      rcases hcond with h | h
      · omega
      · exact h
    rw [hleft3 x hx hx2]
    exact h0.left x hx (Or.inl rfl)
  · intro x hx
    rw [(hrest x).2.2.1]
    exact h0.col x hx
  · intro x hx h2
    rw [(hrest x).2.1]
    exact h0.down x hx h2
  · intro x hx h1
    have h := h0.upmeta x hx h1
    exact ⟨((hrest x).1).trans h.1, ((hrest x).2.2.2).trans h.2⟩
  · rw [(hrest (j + 1)).1, h0.hdrup]
  · rw [(hrest (j + 1)).2.2.2, h0.hdrmeta]
  · rw [(hrest ((getN s (j + 1)).up)).2.1, h0.olddown]
  · apply nodeEq
    · rw [hran]
    · rw [hran, h0.cell]
    · rw [hran]
      rw [if_neg (by omega : ¬ pt = 0)]
    · rw [hran, h0.cell]
    · rw [hran, h0.cell]
    · rw [hran, h0.cell]
  · intro _
    exact hrarLr
  · rw [hraf]

/-- A non-positive cell leaves the loop hypotheses untouched. -/
theorem loopHyps_skip (s : H) (row : List Int) (j count pt f C : Nat) (v : Int)
    (hL : LoopHyps s row j (count + 1) pt f C)
    (hv : row[j]? = some v) (hneg : ¬ 0 < v) :
    LoopHyps s row (j + 1) count pt f C := by
  have hgetD : row.getD j 0 = v := by
    rw [List.getD_eq_getElem?_getD, hv]
    rfl
  have psj : rowPosFrom j (count + 1) row = rowPosFrom (j + 1) count row := by
    rw [rowPosFrom_succ, if_neg (by rw [hgetD]; exact hneg)]
  refine ⟨by have := hL.count_eq; omega, hL.rowlen, hL.flen, hL.fC,
    fun k hk hkC => hL.hdrright k (by omega) hkC, ?_, ?_, ?_, hL.fleft⟩
  · rw [← psj]
    exact hL.metas
  · rw [← psj]
    exact hL.ups
  · rw [← psj]
    exact hL.upsne

/-- A loop effect over columns j + 1 .. also describes the loop from column
j when j holds no positive cell. -/
theorem rowBuilt_skip_lift (s s' : H) (row : List Int) (j count pt f : Nat)
    (psj : rowPosFrom j (count + 1) row = rowPosFrom (j + 1) count row)
    (out : RowBuilt s s' row (j + 1) count pt f) :
    RowBuilt s s' row j (count + 1) pt f := by
  refine ⟨?_, ?_, out.right, out.left, out.col, ?_, ?_, ?_, ?_, ?_, ?_⟩
  · rw [psj]
    exact out.empt
  · rw [psj]
    exact out.len
  · rw [psj]
    exact out.down
  · rw [psj]
    exact out.upmeta
  · rw [psj]
    exact out.hdr
  · rw [psj]
    exact out.cell
  · rw [psj]
    exact out.lastright
  · rw [psj]
    exact out.firstleft

/-- After one positive-cell iteration the loop hypotheses hold again for the
next column, with one more cell in the partial row. -/
theorem loopHyps_next (s sn : H) (row : List Int) (j count pt f C : Nat)
    (v : Int) (hL : LoopHyps s row j (count + 1) pt f C)
    (hv : row[j]? = some v) (hpos : 0 < v)
    (hcs : CellStep s sn j pt f) :
    LoopHyps sn row (j + 1) count (pt + 1) f C := by
  have hgetD : row.getD j 0 = v := by
    rw [List.getD_eq_getElem?_getD, hv]
    rfl
  have hps : rowPosFrom j (count + 1) row = j :: rowPosFrom (j + 1) count row := by
    rw [rowPosFrom_succ, if_pos (by rw [hgetD]; exact hpos)]
  have hflen := hL.flen
  have hfC := hL.fC
  have hcnt := hL.count_eq
  have hlen := hcs.len
  have hmem' : ∀ k' ∈ rowPosFrom (j + 1) count row,
      k' ∈ rowPosFrom j (count + 1) row := by
    intro k' h
    rw [hps]
    exact List.mem_cons_of_mem j h
  have hrange : ∀ k' ∈ rowPosFrom (j + 1) count row,
      j + 1 ≤ k' ∧ k' < C := by
    intro k' h
    have := rowPosFrom_mem k' h
    omega
  have hkeep : ∀ k' ∈ rowPosFrom (j + 1) count row,
      (getN sn (k' + 1)).up = (getN s (k' + 1)).up ∧
      (getN sn (k' + 1)).meta = (getN s (k' + 1)).meta := by
    intro k' h
    exact hcs.upmeta (k' + 1) (by have := hrange k' h; omega)
      (by have := hrange k' h; omega)
  refine ⟨by omega, hL.rowlen, by omega, hfC, ?_, ?_, ?_, ?_, ?_⟩
  · intro k hk hkC
    rw [hcs.right (k + 1) (by omega) ?hc]
    · exact hL.hdrright k (by omega) hkC
    · rcases Nat.eq_zero_or_pos pt with h0 | hppos
      · exact Or.inl h0
      · right
        omega
  · intro k' h
    rw [(hkeep k' h).2]
    exact hL.metas k' (hmem' k' h)
  · intro k' h
    rw [(hkeep k' h).1]
    exact hL.ups k' (hmem' k' h)
  · intro k' h k'' h' hne
    rw [(hkeep k' h).1, (hkeep k'' h').1]
    exact hL.upsne k' (hmem' k' h) k'' (hmem' k'' h') hne
  · intro _
    rw [hcs.fleft]
    omega


/-- Composing one positive-cell step with the effect of the rest of the loop
yields the effect of the loop from column j. -/
theorem rowBuilt_compose (s sn s' : H) (row : List Int) (j count pt f C : Nat)
    (v : Int) (hL : LoopHyps s row j (count + 1) pt f C)
    (hv : row[j]? = some v) (hpos : 0 < v)
    (hcs : CellStep s sn j pt f)
    (out : RowBuilt sn s' row (j + 1) count (pt + 1) f) :
    RowBuilt s s' row j (count + 1) pt f := by
  have hgetD : row.getD j 0 = v := by
    rw [List.getD_eq_getElem?_getD, hv]
    rfl
  have hps : rowPosFrom j (count + 1) row = j :: rowPosFrom (j + 1) count row := by
    rw [rowPosFrom_succ, if_pos (by rw [hgetD]; exact hpos)]
  have hflen := hL.flen
  have hfC := hL.fC
  have hcnt := hL.count_eq
  have hlen := hcs.len
  have hmem' : ∀ k' ∈ rowPosFrom (j + 1) count row,
      k' ∈ rowPosFrom j (count + 1) row := by
    intro k' h
    rw [hps]
    exact List.mem_cons_of_mem j h
  have hjmem : j ∈ rowPosFrom j (count + 1) row := by
    rw [hps]
    exact List.mem_cons_self j _
  have hrange : ∀ k' ∈ rowPosFrom (j + 1) count row,
      j + 1 ≤ k' ∧ k' < C := by
    intro k' h
    have := rowPosFrom_mem k' h
    omega
  have hupne_j : ∀ k' ∈ rowPosFrom (j + 1) count row,
      (getN s (j + 1)).up ≠ (getN s (k' + 1)).up := fun k' h =>
    hL.upsne j hjmem k' (hmem' k' h) (by have := hrange k' h; omega)
  have hkeep : ∀ k' ∈ rowPosFrom (j + 1) count row,
      (getN sn (k' + 1)).up = (getN s (k' + 1)).up ∧
      (getN sn (k' + 1)).meta = (getN s (k' + 1)).meta := by
    intro k' h
    exact hcs.upmeta (k' + 1) (by have := hrange k' h; omega)
      (by have := hrange k' h; omega)
  have hups := hL.ups
  have hupj : (getN s (j + 1)).up < f := hups j hjmem
  refine ⟨?_, ?_, ?_, ?_, ?_, ?_, ?_, ?_, ?_, ?_, ?_⟩
  · intro h
    rw [hps] at h
    exact absurd h (List.cons_ne_nil _ _)
  · rw [hps, List.length_cons, out.len, hlen]
    omega
  · intro x hx hcond
    rw [out.right x (by omega) (Or.inr (by omega)), hcs.right x hx hcond]
  · intro x hx hcond
    have hxf : x ≠ f := by
      rcases hcond with h0 | hne
      · omega
      · exact hne
    rw [out.left x (by omega) (Or.inr hxf), hcs.left x hx hcond]
  · intro x hx
    rw [out.col x (by omega), hcs.col x hx]
  · intro x hx hnot
    rw [hps] at hnot
    rw [out.down x (by omega) (by
      intro k' hk'
      rw [(hkeep k' hk').1]
      exact hnot k' (List.mem_cons_of_mem j hk'))]
    exact hcs.down x hx (hnot j (List.mem_cons_self j _))
  · intro x hx hnot
    rw [hps] at hnot
    have h1 := out.upmeta x (by omega) (by
      intro k' hk'
      exact hnot k' (List.mem_cons_of_mem j hk'))
    have h2 := hcs.upmeta x hx (hnot j (List.mem_cons_self j _))
    exact ⟨h1.1.trans h2.1, h1.2.trans h2.2⟩
  · intro qr hqr
    rw [hps] at hqr ⊢
    match qr with
    | 0 =>
      rw [List.getD_cons_zero]
      have hum := out.upmeta (j + 1) (by omega) (by
        intro k' hk'
        have := hrange k' hk'
        omega)
      refine ⟨?_, ?_, ?_⟩
      · rw [hum.1, hcs.hdrup]
        omega
      · rw [hum.2, hcs.hdrmeta]
      · rw [out.down ((getN s (j + 1)).up) (by omega) (by
          intro k' hk'
          rw [(hkeep k' hk').1]
          exact hupne_j k' hk'), hcs.olddown]
        omega
    | qr' + 1 =>
      rw [List.length_cons] at hqr
      rw [List.getD_cons_succ]
      have hqr' : qr' < (rowPosFrom (j + 1) count row).length := by omega
      have hd := out.hdr qr' hqr'
      have hmem2 : (rowPosFrom (j + 1) count row).getD qr' 0 ∈
          rowPosFrom (j + 1) count row := getD_mem_nat _ qr' hqr'
      have hh2 := hkeep _ hmem2
      refine ⟨?_, ?_, ?_⟩
      · rw [hd.1, hlen]
        omega
      · rw [hd.2.1, hh2.2]
      · have hdd := hd.2.2
        rw [hh2.1] at hdd
        rw [hdd, hlen]
        omega
  · intro qr hqr
    rw [hps] at hqr ⊢
    match qr with
    | 0 =>
      rw [List.getD_cons_zero, List.length_cons]
      have hum := out.upmeta s.length (by omega) (by
        intro k' hk'
        have := hrange k' hk'
        omega)
      have hdn := out.down s.length (by omega) (by
        intro k' hk'
        rw [(hkeep k' hk').1]
        have := hups k' (hmem' k' hk')
        omega)
      have hcl := out.col s.length (by omega)
      apply nodeEq
      · by_cases hnr0 : (rowPosFrom (j + 1) count row).length = 0
        · have hemp : rowPosFrom (j + 1) count row = [] :=
            List.length_eq_zero.mp hnr0
          rw [out.empt hemp, Nat.add_zero, hcs.cell, hnr0,
            if_neg (show ¬ (0 + 1 < 0 + 1) by omega)]
        · rw [if_pos (show 0 + 1 < (rowPosFrom (j + 1) count row).length + 1
            by omega)]
          have hlr := out.lastright (by omega) (by omega)
          have hlidx : f + (pt + 1) - 1 = s.length := by omega
          rw [hlidx] at hlr
          rw [Nat.add_zero, hlr, hlen]
      · rw [Nat.add_zero, hum.1, hcs.cell]
      · by_cases hpt0 : pt = 0
        · have hffs : f = s.length := by omega
          have hfl2 := out.firstleft (by omega)
          rw [hffs] at hfl2
          rw [Nat.add_zero, hfl2]
          rw [if_pos rfl, if_pos hpt0]
          by_cases hnr0 : (rowPosFrom (j + 1) count row).length = 0
          · rw [if_pos hnr0]
            show s.length + (pt + 1) - 1 =
              s.length + ((rowPosFrom (j + 1) count row).length + 1) - 1
            omega
          · rw [if_neg hnr0, hlen]
            show s.length + 1 + (rowPosFrom (j + 1) count row).length - 1 =
              s.length + ((rowPosFrom (j + 1) count row).length + 1) - 1
            omega
        · have hle := out.left s.length (by omega) (Or.inr (by omega))
          rw [Nat.add_zero, hle, hcs.cell, if_pos rfl, if_neg hpt0, if_neg hpt0]
      · rw [Nat.add_zero, hdn, hcs.cell]
      · rw [Nat.add_zero, hcl, hcs.cell]
      · rw [Nat.add_zero, hum.2, hcs.cell]
    | qr' + 1 =>
      rw [List.length_cons] at hqr
      rw [List.getD_cons_succ, List.length_cons]
      have hqr' : qr' < (rowPosFrom (j + 1) count row).length := by omega
      have hc := out.cell qr' hqr'
      have hmem2 : (rowPosFrom (j + 1) count row).getD qr' 0 ∈
          rowPosFrom (j + 1) count row := getD_mem_nat _ qr' hqr'
      have hh2 := hkeep _ hmem2
      have hidx : s.length + (qr' + 1) = sn.length + qr' := by omega
      rw [hidx, hc]
      apply nodeEq
      · by_cases hcc : qr' + 1 < (rowPosFrom (j + 1) count row).length
        · rw [if_pos hcc, if_pos (show qr' + 1 + 1 <
            (rowPosFrom (j + 1) count row).length + 1 by omega), hlen]
        · rw [if_neg hcc, if_neg (show ¬ (qr' + 1 + 1 <
            (rowPosFrom (j + 1) count row).length + 1) by omega)]
      · rw [hh2.1]
      · by_cases hq0 : qr' = 0
        · rw [hq0]
          rw [if_pos rfl, if_neg (show ¬ (pt + 1 = 0) by omega),
            if_neg (show ¬ (0 + 1 = 0) by omega), hlen]
          show f + (pt + 1) - 1 = s.length + (0 + 1) - 1
          omega
        · rw [if_neg hq0, if_neg (show ¬ (qr' + 1 = 0) by omega), hlen]
      · rfl
      · rfl
      · rfl
  · intro _ hpt
    rw [out.right (f + pt - 1) (by omega) (Or.inr (by omega)), hcs.lastr hpt]
  · intro hpt
    rw [if_neg (by rw [hps, List.length_cons]; omega)]
    have hfl := out.firstleft (by omega)
    rw [hfl]
    by_cases hnr0 : (rowPosFrom (j + 1) count row).length = 0
    · rw [if_pos hnr0, hps, List.length_cons, hnr0]
      omega
    · rw [if_neg hnr0, hps, List.length_cons, hlen]
      omega


/-- Full effect of the row-construction loop under the loop hypotheses: the
loop always succeeds, allocating exactly one node per remaining positive
cell, appended at the bottom of its column and at the end of the row ring,
with every other field of the heap untouched. -/
theorem buildRowGo_spec (count : Nat) :
    ∀ (s : H) (row : List Int) (j pt f C : Nat), LoopHyps s row j count pt f C →
      ∃ s', buildRowGo count s row j (if pt = 0 then none else some f) (j + 1) =
          some s' ∧ RowBuilt s s' row j count pt f := by
  induction count with
  | zero =>
    intro s row j pt f C hL
    refine ⟨s, rfl, ?_, ?_, ?_, ?_, ?_, ?_, ?_, ?_, ?_, ?_, ?_⟩
    · intro _
      rfl
    · simp [rowPosFrom]
    · intro x _ _
      rfl
    · intro x _ _
      rfl
    · intro x _
      rfl
    · intro x _ _
      rfl
    · intro x _ _
      exact ⟨rfl, rfl⟩
    · intro qr hqr
      simp [rowPosFrom] at hqr
    · intro qr hqr
      simp [rowPosFrom] at hqr
    · intro h0 _
      simp [rowPosFrom] at h0
    · intro hpt
      rw [if_pos (by simp [rowPosFrom])]
      exact hL.fleft hpt
  | succ count ih =>
    intro s row j pt f C hL
    have hcnt := hL.count_eq
    have hflen := hL.flen
    have hfC := hL.fC
    have hjrow : j < row.length := by have := hL.rowlen; omega
    have hv : row[j]? = some row[j] := List.getElem?_eq_getElem hjrow
    have hswitch : ∀ (st : H) (pv : Option Nat) (X : Nat),
        count = 0 ∨ X = j + 1 + 1 →
        buildRowGo count st row (j + 1) pv X =
          buildRowGo count st row (j + 1) pv (j + 1 + 1) := by
      intro st pv X hX
      cases count with
      | zero => rfl
      | succ c =>
        rcases hX with h0 | hX
        · exact absurd h0 (Nat.succ_ne_zero c)
        · rw [hX]
    have hXfact : count = 0 ∨ (getN s (j + 1)).right = j + 1 + 1 := by
      rcases Nat.eq_zero_or_pos count with h0 | hcpos
      · exact Or.inl h0
      · exact Or.inr (hL.hdrright j (Nat.le_refl j) (by omega))
    by_cases hpos : (0 : Int) < row[j]
    · have hgetD : row.getD j 0 = row[j] := by
        rw [List.getD_eq_getElem?_getD, hv]
        rfl
      have hjmem : j ∈ rowPosFrom j (count + 1) row := by
        rw [rowPosFrom_succ, if_pos (by rw [hgetD]; exact hpos)]
        exact List.mem_cons_self j _
      have hupj : (getN s (j + 1)).up < f := hL.ups j hjmem
      have hmt := hL.metas j hjmem
      by_cases hpt0 : pt = 0
      · subst hpt0
        have hffs : f = s.length := by omega
        subst hffs
        obtain ⟨s2, hca, hcs⟩ := cellStep_none s j (by omega) (by omega) hmt
        have hL' := loopHyps_next s s2 row j count 0 s.length C row[j] hL hv
          hpos hcs
        obtain ⟨s', hrun, out⟩ := ih s2 row (j + 1) 1 s.length C hL'
        refine ⟨s', ?_, rowBuilt_compose s s2 s' row j count 0 s.length C
          row[j] hL hv hpos hcs out⟩
        have hX2 : count = 0 ∨ (getN s2 (j + 1)).right = j + 1 + 1 := by
          rcases hXfact with h0 | hX
          · exact Or.inl h0
          · refine Or.inr ?_
            rw [hcs.right (j + 1) (by omega) (Or.inl rfl)]
            exact hX
        rw [if_pos rfl, buildRowGo_pos_none hv hpos hca count,
          hswitch s2 (some (newNode s).2) _ hX2]
        exact hrun
      · have hptpos : 0 < pt := Nat.pos_of_ne_zero hpt0
        obtain ⟨s2, hca, hcs0⟩ := cellStep_none s j (by omega) (by omega) hmt
        have hcs := cellStep_row s s2 j pt f hptpos hflen (by omega) hupj
          (hL.fleft hptpos) hcs0
        have hL' := loopHyps_next s (RowAppend s2 f s.length) row j count pt f
          C row[j] hL hv hpos hcs
        obtain ⟨s', hrun, out⟩ := ih (RowAppend s2 f s.length) row (j + 1)
          (pt + 1) f C hL'
        refine ⟨s', ?_, rowBuilt_compose s (RowAppend s2 f s.length) s' row j
          count pt f C row[j] hL hv hpos hcs out⟩
        have hX2 : count = 0 ∨
            (getN (RowAppend s2 f s.length) (j + 1)).right = j + 1 + 1 := by
          rcases hXfact with h0 | hX
          · exact Or.inl h0
          · refine Or.inr ?_
            rw [hcs.right (j + 1) (by omega) (Or.inr (by omega))]
            exact hX
        have hnn : (newNode s).2 = s.length := rfl
        rw [if_neg hpt0, buildRowGo_pos_some hv hpos hca count, hnn,
          hswitch (RowAppend s2 f s.length) (some f) _ hX2]
        exact hrun
    · have hgetD : row.getD j 0 = row[j] := by
        rw [List.getD_eq_getElem?_getD, hv]
        rfl
      have psj : rowPosFrom j (count + 1) row = rowPosFrom (j + 1) count row := by
        rw [rowPosFrom_succ, if_neg (by rw [hgetD]; exact hpos)]
      have hL' := loopHyps_skip s row j count pt f C row[j] hL hv hpos
      obtain ⟨s', hrun, out⟩ := ih s row (j + 1) pt f C hL'
      refine ⟨s', ?_, rowBuilt_skip_lift s s' row j count pt f psj out⟩
      rw [buildRowGo_skip hv hpos count (if pt = 0 then none else some f),
        hswitch s (if pt = 0 then none else some f) _ hXfact]
      exact hrun


/-- getD of an in-range position is a member. -/
theorem getD_mem {α : Type} (l : List α) (d : α) (q : Nat) (h : q < l.length) :
    l.getD q d ∈ l := by
  rw [List.getD_eq_getElem l d h]
  exact l.getElem_mem h

/-- Appending to a chain moves its last element. -/
theorem lastD_concat (l : List Nat) (b d : Nat) : lastD (l ++ [b]) d = b := by
  simp [lastD]

/-- The last element of a nonempty chain is one of its members. -/
theorem lastD_mem {l : List Nat} (d : Nat) (h : l ≠ []) : lastD l d ∈ l := by
  rw [lastD, List.getLast?_eq_getLast l h, Option.getD_some]
  exact List.getLast_mem h

/-- In a duplicate-free chain nothing before the last element equals it. -/
theorem mem_dropLast_ne_lastD {l : List Nat} (hnd : l.Nodup) {a : Nat} (d : Nat)
    (ha : a ∈ l.dropLast) (hne : l ≠ []) : a ≠ lastD l d := by
  have hlast : lastD l d = l.getLast hne := by
    rw [lastD, List.getLast?_eq_getLast l hne, Option.getD_some]
  rw [hlast]
  intro heq
  have hnd2 : (l.dropLast ++ [l.getLast hne]).Nodup := by
    rw [List.dropLast_append_getLast hne]
    exact hnd
  rw [List.nodup_append] at hnd2
  exact hnd2.2.2 ha (List.mem_singleton.mpr heq)

/-- Column chains are duplicate free. -/
theorem colNodesGo_nodup (C : Nat) :
    ∀ (mm : List (List Int)) (base k : Nat), (colNodesGo C base mm k).Nodup := by
  intro mm
  induction mm with
  | nil => intro base k; simp [colNodesGo]
  | cons r t ih =>
    intro base k
    rw [colNodesGo]
    cases h : idxIn k (rowPos C r) with
    | some q =>
      refine List.nodup_cons.mpr ⟨?_, ih _ k⟩
      intro hmem
      have hb := colNodesGo_bounds C t (base + (rowPos C r).length) k _ hmem
      have hq := (idxIn_lt h).1
      omega
    | none => exact ih _ k

/-- take of one more row appends exactly that row. -/
theorem take_succ_getD (m : List (List Int)) (t : Nat) (h : t < m.length) :
    m.take (t + 1) = m.take t ++ [m.getD t []] := by
  rw [List.take_succ]
  congr 1
  rw [List.getElem?_eq_getElem h, List.getD_eq_getElem m [] h]
  rfl

/-- The cell count of a prefix never exceeds that of a longer prefix. -/
theorem cellCount_take_le (C : Nat) (mm : List (List Int)) {i t : Nat} (h : i ≤ t) :
    cellCount C (mm.take i) ≤ cellCount C (mm.take t) := by
  have h1 : mm.take i = (mm.take t).take i := by
    rw [List.take_take, Nat.min_eq_left h]
  have h2 : cellCount C ((mm.take t).take i) + cellCount C ((mm.take t).drop i)
      = cellCount C (mm.take t) := by
    rw [← cellCount_append, List.take_append_drop]
  rw [h1]
  omega

/-- Decomposing a drop that starts with a row. -/
theorem drop_cons_facts {α : Type} {m : List α} {t : Nat} {r : α} {rest : List α}
    (d : α) (h : m.drop t = r :: rest) :
    t < m.length ∧ m.getD t d = r ∧ m.drop (t + 1) = rest := by
  have h0 : m[t]? = some r := by
    have h1 := List.getElem?_drop m t 0
    rw [h] at h1
    simpa using h1.symm
  obtain ⟨hlt, hget⟩ := List.getElem?_eq_some.mp h0
  refine ⟨hlt, ?_, ?_⟩
  · rw [List.getD_eq_getElem m d hlt, hget]
  · rw [← List.drop_drop, h]
    rfl

/-- The size counters live modulo 2 to the 64. -/
theorem add_one_mod_U64 (a : Nat) : (a % U64 + 1) % U64 = (a + 1) % U64 := by
  conv_rhs => rw [Nat.add_mod]
  rw [Nat.mod_eq_of_lt (show 1 < U64 by norm_num [U64])]



/-- Membership gives a position. -/
theorem mem_exists_getD {l : List Nat} {k : Nat} (h : k ∈ l) :
    ∃ q, q < l.length ∧ l.getD q 0 = k := by
  obtain ⟨i, hi, hset⟩ := List.mem_iff_getElem.mp h
  exact ⟨i, hi, by rw [List.getD_eq_getElem l 0 hi]; exact hset⟩

/-- The last element of a nonempty chain ignores the default. -/
theorem lastD_nonempty_eq (l : List Nat) (h : l ≠ []) (d d' : Nat) :
    lastD l d = lastD l d' := by
  rw [lastD, lastD, List.getLast?_eq_getLast l h, Option.getD_some, Option.getD_some]

/-- One header-construction step: a fresh column node spliced into the ring
before the root advances the header invariant by one name. -/
theorem hdrInv_step (hdrs : List String) (n : Nat) (s : H) (name : String)
    (hname : hdrs.getD n "" = name) (hI : HdrInv hdrs n s) :
    HdrInv hdrs (n + 1)
      (RowAppend (newColNode s name).1 0 (newColNode s name).2) := by
  have hlen := hI.len
  have hs1len : (newColNode s name).1.length = s.length + 1 := by
    simp [newColNode, length_updMeta, newNode_length]
  have hs1old : ∀ x, x < s.length → getN (newColNode s name).1 x = getN s x := by
    intro x hx
    show getN (updMeta (newNode s).1 (newNode s).2 _) x = getN s x
    rw [newNode_idx, getN_updMeta_ne _ _ _ (Nat.ne_of_lt hx), getN_newNode_old s hx]
  have hs1new : getN (newColNode s name).1 s.length =
      { right := s.length, up := s.length, left := s.length, down := s.length,
        col := none, meta := some { size := 0, name := name } } := by
    show getN (updMeta (newNode s).1 (newNode s).2 _) s.length = _
    rw [newNode_idx, getN_updMeta_self _ _ (by rw [newNode_length]; omega),
      getN_newNode_new]
  have hs1rl : (getN (newColNode s name).1 0).left = n := by
    rw [hs1old 0 (by omega), hI.rootleft]
  have hidx : (newColNode s name).2 = s.length := rfl
  rw [hidx]
  obtain ⟨hframe, hnew, hroot, hrLnode, _⟩ :=
    RowAppend_spec (newColNode s name).1 0 s.length
      (by omega) (by omega) (by omega)
      (by rw [hs1rl]; omega) (by rw [hs1rl]; omega)
  rw [hs1rl] at hframe hnew hroot hrLnode
  refine ⟨?_, ?_, ?_, ?_⟩
  · rw [RowAppend_length, hs1len, hlen]
  · rw [if_neg (by omega), hroot]
    by_cases hn0 : n = 0
    · rw [if_pos hn0]
      show s.length = 1
      omega
    · rw [if_neg hn0]
      show (getN (newColNode s name).1 0).right = 1
      rw [hs1old 0 (by omega), hI.rootright, if_neg hn0]
  · rw [hroot]
    show s.length = n + 1
    omega
  · intro k hk
    by_cases hkn : k = n
    · subst hkn
      have hkidx : k + 1 = s.length := by omega
      rw [hkidx, hnew]
      apply nodeEq
      · rw [if_pos rfl]
      · rw [hs1new]
      · rfl
      · rw [hs1new]
      · rw [hs1new]
      · rw [hs1new, hname]
    · by_cases hk1n : k + 1 = n
      · have hn0 : n ≠ 0 := by omega
        have hold := hI.node k (by omega)
        rw [hk1n] at hold
        rw [hk1n, hrLnode hn0]
        apply nodeEq
        · show s.length = if n = n + 1 then 0 else k + 2
          rw [if_neg (by omega)]
          omega
        · show (getN (newColNode s name).1 n).up = n
          rw [hs1old n (by omega), hold]
        · show (getN (newColNode s name).1 n).left = k
          rw [hs1old n (by omega), hold]
        · show (getN (newColNode s name).1 n).down = n
          rw [hs1old n (by omega), hold]
        · show (getN (newColNode s name).1 n).col = (none : Option Nat)
          rw [hs1old n (by omega), hold]
        · show (getN (newColNode s name).1 n).meta =
            some { size := 0, name := hdrs.getD k "" }
          rw [hs1old n (by omega), hold]
      · rw [hframe (k + 1) (by omega) (by omega) (by omega),
          hs1old (k + 1) (by omega), hI.node k (by omega)]
        apply nodeEq
        · show (if k + 1 = n then 0 else k + 2) = if k + 1 = n + 1 then 0 else k + 2
          rw [if_neg (by omega), if_neg (by omega)]
        · rfl
        · rfl
        · rfl
        · rfl
        · rfl

/-- Running the header loop from a partially built ring completes it. -/
theorem buildHeaders_inv :
    ∀ (rest : List String) (n : Nat) (s : H) (hdrs : List String),
      hdrs.drop n = rest → n ≤ hdrs.length → HdrInv hdrs n s →
      HdrInv hdrs hdrs.length (buildHeaders 0 s rest) := by
  intro rest
  induction rest with
  | nil =>
    intro n s hdrs hdrop hle hI
    have hlen : hdrs.length - n = 0 := by
      have := congrArg List.length hdrop
      rw [List.length_drop] at this
      simpa using this
    have hn : n = hdrs.length := by omega
    rw [buildHeaders, ← hn]
    exact hI
  | cons name rest2 ih =>
    intro n s hdrs hdrop hle hI
    obtain ⟨hlt, hgetD, hdrop2⟩ := drop_cons_facts "" hdrop
    show HdrInv hdrs hdrs.length
      (buildHeaders 0 (RowAppend (newColNode s name).1 0 (newColNode s name).2) rest2)
    exact ih (n + 1) _ hdrs hdrop2 (by omega) (hdrInv_step hdrs n s name hgetD hI)

/-- The initial heap holding only the self-linked root. -/
theorem hdrInv_init (hdrs : List String) :
    HdrInv hdrs 0
      [{ right := 0, up := 0, left := 0, down := 0, col := none,
         meta := some { size := 0, name := "root" } }] := by
  refine ⟨rfl, rfl, rfl, ?_⟩
  intro k hk
  exact absurd hk (Nat.not_lt_zero k)

/-- A complete header ring is the row-loop invariant at zero rows. -/
theorem buildInv_init (hdrs : List String) (m : List (List Int)) (s : H)
    (hI : HdrInv hdrs hdrs.length s) : BuildInv hdrs m 0 s := by
  refine ⟨?_, hI.rootright, ?_, ?_, ?_, ?_, ?_, ?_⟩
  · rw [hI.len]
    simp [cellCount]
    omega
  · intro k hk
    rw [hI.node k hk]
  · intro k hk
    rw [hI.node k hk]
    simp [colNodes, colNodesGo]
  · intro k hk
    rw [hI.node k hk]
    simp [colNodes, colNodesGo, lastD]
  · intro k hk
    show (getN s (k + 1)).down = k + 1
    rw [hI.node k hk]
  · intro i hi
    exact absurd hi (Nat.not_lt_zero i)
  · intro i hi
    exact absurd hi (Nat.not_lt_zero i)



/-- The data-node block of a single row. -/
theorem colNodesGo_single (C base : Nat) (row : List Int) (k : Nat) :
    colNodesGo C base [row] k =
      match idxIn k (rowPos C row) with
      | some q => [base + q]
      | none => [] := by
  rw [colNodesGo]
  cases h : idxIn k (rowPos C row) with
  | some q => rfl
  | none => rfl

/-- One outer iteration: building input row t via the inner loop preserves
the construction invariant and advances it by one row. -/
theorem buildInv_step (hdrs : List String) (m : List (List Int)) (t : Nat) (s : H)
    (ht : t < m.length) (hrect : ∀ row ∈ m, hdrs.length ≤ row.length)
    (hI : BuildInv hdrs m t s) :
    ∃ s', buildRowGo hdrs.length s (m.getD t []) 0 none ((getN s 0).right) = some s' ∧
      BuildInv hdrs m (t + 1) s' := by
  have hlen := hI.len
  have hrowlen : hdrs.length ≤ (m.getD t []).length := hrect _ (getD_mem m [] t ht)
  have hchainmem : ∀ k, ∀ x ∈ colNodes hdrs.length (m.take t) k,
      1 + hdrs.length ≤ x ∧ x < s.length := by
    intro k x hx
    have hb := colNodesGo_bounds hdrs.length (m.take t) (1 + hdrs.length) k x hx
    omega
  have hupval : ∀ k, k < hdrs.length → (getN s (k + 1)).up =
      lastD (colNodes hdrs.length (m.take t) k) (k + 1) := hI.hdrup
  have hupbound : ∀ k, k < hdrs.length → (getN s (k + 1)).up < s.length := by
    intro k hk
    rw [hupval k hk]
    cases hc : colNodes hdrs.length (m.take t) k with
    | nil =>
      show lastD [] (k + 1) < s.length
      show k + 1 < s.length
      omega
    | cons a l =>
      have hmm2 : lastD (a :: l) (k + 1) ∈ colNodes hdrs.length (m.take t) k := by
        rw [hc]
        exact lastD_mem _ (by simp)
      have := hchainmem k _ hmm2
      omega
  have hL : LoopHyps s (m.getD t []) 0 hdrs.length 0 s.length hdrs.length := by
    refine ⟨by omega, hrowlen, by omega, by omega, ?_, ?_, ?_, ?_, ?_⟩
    · intro k _ hk1
      rw [hI.hdrright k (by omega), if_neg (by omega)]
    · intro k hk
      have hkC : k < hdrs.length := by
        have := rowPosFrom_mem k hk
        omega
      rw [hI.hdrmeta k hkC]
      rfl
    · intro k hk
      have hkC : k < hdrs.length := by
        have := rowPosFrom_mem k hk
        omega
      exact hupbound k hkC
    · intro k hk k2 hk2 hne
      have hkC : k < hdrs.length := by
        have := rowPosFrom_mem k hk
        omega
      have hkC2 : k2 < hdrs.length := by
        have := rowPosFrom_mem k2 hk2
        omega
      rw [hupval k hkC, hupval k2 hkC2]
      cases hc : colNodes hdrs.length (m.take t) k with
      | nil =>
        cases hc2 : colNodes hdrs.length (m.take t) k2 with
        | nil =>
          show lastD [] (k + 1) ≠ lastD [] (k2 + 1)
          show k + 1 ≠ k2 + 1
          omega
        | cons a2 l2 =>
          have hmm2 : lastD (a2 :: l2) (k2 + 1) ∈ colNodes hdrs.length (m.take t) k2 := by
            rw [hc2]
            exact lastD_mem _ (by simp)
          have hb := hchainmem k2 _ hmm2
          show lastD [] (k + 1) ≠ lastD (a2 :: l2) (k2 + 1)
          show k + 1 ≠ lastD (a2 :: l2) (k2 + 1)
          omega
      | cons a l =>
        cases hc2 : colNodes hdrs.length (m.take t) k2 with
        | nil =>
          have hmm1 : lastD (a :: l) (k + 1) ∈ colNodes hdrs.length (m.take t) k := by
            rw [hc]
            exact lastD_mem _ (by simp)
          have hb := hchainmem k _ hmm1
          show lastD (a :: l) (k + 1) ≠ lastD [] (k2 + 1)
          show lastD (a :: l) (k + 1) ≠ k2 + 1
          omega
        | cons a2 l2 =>
          intro heq
          have hmm1 : lastD (a :: l) (k + 1) ∈ colNodes hdrs.length (m.take t) k := by
            rw [hc]
            exact lastD_mem _ (by simp)
          have hmm2 : lastD (a2 :: l2) (k2 + 1) ∈ colNodes hdrs.length (m.take t) k2 := by
            rw [hc2]
            exact lastD_mem _ (by simp)
          rw [heq] at hmm1
          exact hne (colNodesGo_disj hdrs.length (m.take t) (1 + hdrs.length) k k2 _ hmm1 hmm2)
    · intro h0
      exact absurd h0 (lt_irrefl 0)
  obtain ⟨s2, hrun, hRB⟩ :=
    buildRowGo_spec hdrs.length s (m.getD t []) 0 0 s.length hdrs.length hL
  rw [if_pos rfl] at hrun
  have hhead : buildRowGo hdrs.length s (m.getD t []) 0 none ((getN s 0).right) =
      buildRowGo hdrs.length s (m.getD t []) 0 none (0 + 1) := by
    cases hC : hdrs.length with
    | zero => rfl
    | succ C2 =>
      have h1 : (getN s 0).right = 1 := by
        rw [hI.rootright, if_neg (by omega)]
      rw [h1]
  refine ⟨s2, by rw [hhead]; exact hrun, ?_⟩
  have htake : m.take (t + 1) = m.take t ++ [m.getD t []] := take_succ_getD m t ht
  have hcc : cellCount hdrs.length (m.take (t + 1)) =
      cellCount hdrs.length (m.take t) + (rowPos hdrs.length (m.getD t [])).length := by
    rw [htake, cellCount_append, cellCount_cons]
    simp [cellCount]
  have hRBlen : s2.length = s.length + (rowPos hdrs.length (m.getD t [])).length :=
    hRB.len
  have hcell : ∀ qr, qr < (rowPos hdrs.length (m.getD t [])).length →
      getN s2 (s.length + qr) =
        { right := if qr + 1 < (rowPos hdrs.length (m.getD t [])).length
                   then s.length + qr + 1 else s.length,
          up := (getN s ((rowPos hdrs.length (m.getD t [])).getD qr 0 + 1)).up,
          left := if qr = 0
                  then s.length + (rowPos hdrs.length (m.getD t [])).length - 1
                  else s.length + qr - 1,
          down := (rowPos hdrs.length (m.getD t [])).getD qr 0 + 1,
          col := some ((rowPos hdrs.length (m.getD t [])).getD qr 0 + 1),
          meta := none } := hRB.cell
  have hhdr : ∀ qr, qr < (rowPos hdrs.length (m.getD t [])).length →
      (getN s2 ((rowPos hdrs.length (m.getD t [])).getD qr 0 + 1)).up = s.length + qr ∧
      (getN s2 ((rowPos hdrs.length (m.getD t [])).getD qr 0 + 1)).meta =
        Option.map (fun mt => { size := (mt.size + 1) % U64, name := mt.name })
          ((getN s ((rowPos hdrs.length (m.getD t [])).getD qr 0 + 1)).meta) ∧
      (getN s2 ((getN s ((rowPos hdrs.length (m.getD t [])).getD qr 0 + 1)).up)).down =
        s.length + qr := hRB.hdr
  have hright : ∀ x, x < s.length → (getN s2 x).right = (getN s x).right :=
    fun x hx => hRB.right x hx (Or.inl rfl)
  have hcolf : ∀ x, x < s.length → (getN s2 x).col = (getN s x).col := hRB.col
  have hdownf : ∀ x, x < s.length →
      (∀ k ∈ rowPos hdrs.length (m.getD t []), x ≠ (getN s (k + 1)).up) →
      (getN s2 x).down = (getN s x).down := hRB.down
  have hupmeta : ∀ x, x < s.length →
      (∀ k ∈ rowPos hdrs.length (m.getD t []), x ≠ k + 1) →
      (getN s2 x).up = (getN s x).up ∧ (getN s2 x).meta = (getN s x).meta := hRB.upmeta
  have hguard_ne : ∀ k, k ∉ rowPos hdrs.length (m.getD t []) →
      ∀ k2, k2 ∈ rowPos hdrs.length (m.getD t []) → k + 1 ≠ k2 + 1 := by
    intro k hk k2 hk2 heq
    have h2 : k = k2 := by omega
    exact hk (by rw [h2]; exact hk2)
  have hbase : 1 + hdrs.length + cellCount hdrs.length (m.take t) = s.length := hlen.symm
  have hcolsplit : ∀ k, colNodes hdrs.length (m.take (t + 1)) k =
      colNodes hdrs.length (m.take t) k ++
        colNodesGo hdrs.length s.length [m.getD t []] k := by
    intro k
    rw [colNodes, htake, colNodesGo_append, hbase]
    rfl
  have hb_some : ∀ k q, idxIn k (rowPos hdrs.length (m.getD t [])) = some q →
      colNodes hdrs.length (m.take (t + 1)) k =
        colNodes hdrs.length (m.take t) k ++ [s.length + q] := by
    intro k q hq
    rw [hcolsplit k, colNodesGo_single, hq]
  have hb_none : ∀ k, idxIn k (rowPos hdrs.length (m.getD t [])) = none →
      colNodes hdrs.length (m.take (t + 1)) k = colNodes hdrs.length (m.take t) k := by
    intro k hq
    rw [hcolsplit k, colNodesGo_single, hq]
    exact List.append_nil _
  have hfr_down : ∀ x, x < s.length →
      (∀ k2, k2 ∈ rowPos hdrs.length (m.getD t []) →
        x ≠ lastD (colNodes hdrs.length (m.take t) k2) (k2 + 1)) →
      (getN s2 x).down = (getN s x).down := by
    intro x hx hguard
    refine hdownf x hx ?_
    intro k2 hk2
    have hk2C : k2 < hdrs.length := by
      have := rowPosFrom_mem k2 hk2
      omega
    rw [hupval k2 hk2C]
    exact hguard k2 hk2
  have hlast_sep : ∀ k k2, k < hdrs.length → k2 < hdrs.length → k ≠ k2 →
      ∀ x ∈ colNodes hdrs.length (m.take t) k,
        x ≠ lastD (colNodes hdrs.length (m.take t) k2) (k2 + 1) := by
    intro k k2 hk hk2 hne x hx
    cases hc2 : colNodes hdrs.length (m.take t) k2 with
    | nil =>
      have hb := hchainmem k x hx
      show x ≠ lastD [] (k2 + 1)
      show x ≠ k2 + 1
      omega
    | cons b l2 =>
      intro heq
      have hm2 : lastD (b :: l2) (k2 + 1) ∈ colNodes hdrs.length (m.take t) k2 := by
        rw [hc2]
        exact lastD_mem _ (by simp)
      rw [heq] at hx
      exact hne (colNodesGo_disj hdrs.length (m.take t) (1 + hdrs.length) k k2 _ hx hm2)
  have hlast_self : ∀ k, ∀ x ∈ (colNodes hdrs.length (m.take t) k).dropLast,
      x ≠ lastD (colNodes hdrs.length (m.take t) k) (k + 1) := by
    intro k x hx
    have hne : colNodes hdrs.length (m.take t) k ≠ [] := by
      intro hc
      rw [hc] at hx
      simp at hx
    exact mem_dropLast_ne_lastD (colNodesGo_nodup _ _ _ _) _ hx hne
  have hrowbound : ∀ i, i < t →
      rowBase hdrs.length m i + (rowPos hdrs.length (m.getD i [])).length ≤ s.length := by
    intro i hi
    have h9 : cellCount hdrs.length (m.take (i + 1)) =
        cellCount hdrs.length (m.take i) + (rowPos hdrs.length (m.getD i [])).length := by
      rw [take_succ_getD m i (by omega), cellCount_append, cellCount_cons]
      simp [cellCount]
    have h10 := cellCount_take_le hdrs.length m (show i + 1 ≤ t by omega)
    rw [hlen]
    show 1 + hdrs.length + cellCount hdrs.length (m.take i) +
        (rowPos hdrs.length (m.getD i [])).length ≤
      1 + hdrs.length + cellCount hdrs.length (m.take t)
    omega
  have hrbt : rowBase hdrs.length m t = s.length := hlen.symm
  refine ⟨?_, ?_, ?_, ?_, ?_, ?_, ?_, ?_⟩
  · rw [hRBlen, hlen, hcc]
    omega
  · rw [hright 0 (by omega), hI.rootright]
  · intro k hk
    rw [hright (k + 1) (by omega), hI.hdrright k hk]
  · intro k hk
    cases hidx : idxIn k (rowPos hdrs.length (m.getD t [])) with
    | none =>
      have hnotin : k ∉ rowPos hdrs.length (m.getD t []) := idxIn_none.mp hidx
      rw [(hupmeta (k + 1) (by omega) (hguard_ne k hnotin)).2, hI.hdrmeta k hk,
        hb_none k hidx]
    | some q =>
      obtain ⟨hqlt, hqget⟩ := idxIn_lt hidx
      have hh := hhdr q hqlt
      rw [hqget] at hh
      rw [hh.2.1, hI.hdrmeta k hk, hb_some k q hidx]
      simp [List.length_append, add_one_mod_U64]
  · intro k hk
    cases hidx : idxIn k (rowPos hdrs.length (m.getD t [])) with
    | none =>
      have hnotin : k ∉ rowPos hdrs.length (m.getD t []) := idxIn_none.mp hidx
      rw [(hupmeta (k + 1) (by omega) (hguard_ne k hnotin)).1, hupval k hk,
        hb_none k hidx]
    | some q =>
      obtain ⟨hqlt, hqget⟩ := idxIn_lt hidx
      have hh := hhdr q hqlt
      rw [hqget] at hh
      rw [hh.1, hb_some k q hidx, lastD_concat]
  · intro k hk
    cases hidx : idxIn k (rowPos hdrs.length (m.getD t [])) with
    | none =>
      have hnotin : k ∉ rowPos hdrs.length (m.getD t []) := idxIn_none.mp hidx
      have hstart : (getN s2 (k + 1)).down = (getN s (k + 1)).down := by
        refine hfr_down (k + 1) (by omega) ?_
        intro k2 hk2
        have hk2C : k2 < hdrs.length := by
          have := rowPosFrom_mem k2 hk2
          omega
        have hkk : k2 ≠ k := by
          intro hh2
          exact hnotin (by rw [← hh2]; exact hk2)
        cases hc2 : colNodes hdrs.length (m.take t) k2 with
        | nil =>
          show k + 1 ≠ lastD [] (k2 + 1)
          show k + 1 ≠ k2 + 1
          omega
        | cons b l2 =>
          have hm2 : lastD (b :: l2) (k2 + 1) ∈ colNodes hdrs.length (m.take t) k2 := by
            rw [hc2]
            exact lastD_mem _ (by simp)
          have hb := hchainmem k2 _ hm2
          omega
      rw [hb_none k hidx, hstart]
      refine chainSteps_congr (hI.chains k hk) ?_
      intro x hx
      have hxlt : x < s.length := (hchainmem k x hx).2
      show (getN s2 x).down = (getN s x).down
      refine hfr_down x hxlt ?_
      intro k2 hk2
      have hk2C : k2 < hdrs.length := by
        have := rowPosFrom_mem k2 hk2
        omega
      have hkk : k ≠ k2 := by
        intro hh2
        exact hnotin (by rw [hh2]; exact hk2)
      exact hlast_sep k k2 hk hk2C hkk x hx
    | some q =>
      obtain ⟨hqlt, hqget⟩ := idxIn_lt hidx
      have hh := hhdr q hqlt
      rw [hqget] at hh
      have hmem : k ∈ rowPos hdrs.length (m.getD t []) := by
        rw [← hqget]
        exact getD_mem _ 0 q hqlt
      cases hc : colNodes hdrs.length (m.take t) k with
      | nil =>
        have h6 := hh.2.2
        have h7 : (getN s (k + 1)).up = k + 1 := by
          rw [hupval k hk, hc]
          rfl
        rw [h7] at h6
        rw [hb_some k q hidx, hc]
        refine ⟨h6, by omega, ?_⟩
        show (getN s2 (s.length + q)).down = k + 1
        rw [hcell q hqlt]
        show (rowPos hdrs.length (m.getD t [])).getD q 0 + 1 = k + 1
        rw [hqget]
      | cons a l =>
        have hstart : (getN s2 (k + 1)).down = (getN s (k + 1)).down := by
          refine hfr_down (k + 1) (by omega) ?_
          intro k2 hk2
          have hk2C : k2 < hdrs.length := by
            have := rowPosFrom_mem k2 hk2
            omega
          cases hc2 : colNodes hdrs.length (m.take t) k2 with
          | nil =>
            show k + 1 ≠ lastD [] (k2 + 1)
            show k + 1 ≠ k2 + 1
            intro heq
            have h12 : k = k2 := by omega
            rw [← h12] at hc2
            rw [hc2] at hc
            simp at hc
          | cons b l2 =>
            have hm2 : lastD (b :: l2) (k2 + 1) ∈ colNodes hdrs.length (m.take t) k2 := by
              rw [hc2]
              exact lastD_mem _ (by simp)
            have hb := hchainmem k2 _ hm2
            omega
        have hold := hI.chains k hk
        rw [hc] at hold
        have hkeep : ∀ x ∈ (a :: l).dropLast,
            (fun nd => nd.down) (getN s2 x) = (fun nd => nd.down) (getN s x) := by
          intro x hx
          have hxin : x ∈ colNodes hdrs.length (m.take t) k := by
            rw [hc]
            exact List.dropLast_subset _ hx
          have hxlt : x < s.length := (hchainmem k x hxin).2
          show (getN s2 x).down = (getN s x).down
          refine hfr_down x hxlt ?_
          intro k2 hk2
          have hk2C : k2 < hdrs.length := by
            have := rowPosFrom_mem k2 hk2
            omega
          by_cases hkk : k2 = k
          · rw [hkk]
            refine hlast_self k x ?_
            rw [hc]
            exact hx
          · exact hlast_sep k k2 hk hk2C (fun hh2 => hkk hh2.symm) x hxin
        have hlastpt : (fun nd => nd.down) (getN s2 (lastD (a :: l) 0)) =
            s.length + q := by
          have h5 : lastD (a :: l) 0 = lastD (a :: l) (k + 1) :=
            lastD_nonempty_eq _ (by simp) 0 (k + 1)
          rw [h5]
          have h6 := hh.2.2
          rw [hupval k hk, hc] at h6
          exact h6
        have hbdown : (fun nd => nd.down) (getN s2 (s.length + q)) = k + 1 := by
          show (getN s2 (s.length + q)).down = k + 1
          rw [hcell q hqlt]
          show (rowPos hdrs.length (m.getD t [])).getD q 0 + 1 = k + 1
          rw [hqget]
        have hbne : s.length + q ≠ k + 1 := by omega
        have hres := chainSteps_snoc (by simp) hold hkeep hlastpt hbdown hbne
        rw [hb_some k q hidx, hc, hstart]
        exact hres
  · intro i hi q hq
    by_cases hit : i = t
    · subst hit
      rw [hrbt, hcell q hq]
    · have hit2 : i < t := by omega
      have hb := hrowbound i hit2
      rw [hcolf _ (by omega)]
      exact hI.cols i hit2 q hq
  · intro i hi hpos
    by_cases hit : i = t
    · subst hit
      rw [hrbt]
      by_cases h1 : 1 < (rowPos hdrs.length (m.getD i [])).length
      · have hstep : ∀ q, q + 1 < (rowPos hdrs.length (m.getD i [])).length - 1 →
            (fun nd => nd.right) (getN s2 (s.length + 1 + q)) = s.length + 1 + q + 1 := by
          intro q hq
          show (getN s2 (s.length + 1 + q)).right = s.length + 1 + q + 1
          have h3 : s.length + 1 + q = s.length + (q + 1) := by omega
          rw [h3, hcell (q + 1) (by omega),
            if_pos (show q + 1 + 1 < (rowPos hdrs.length (m.getD i [])).length by omega)]
        have hlast : (fun nd => nd.right)
            (getN s2 (s.length + 1 +
              ((rowPos hdrs.length (m.getD i [])).length - 1 - 1))) = s.length := by
          show (getN s2 (s.length + 1 +
            ((rowPos hdrs.length (m.getD i [])).length - 1 - 1))).right = s.length
          have h4 : s.length + 1 + ((rowPos hdrs.length (m.getD i [])).length - 1 - 1) =
              s.length + ((rowPos hdrs.length (m.getD i [])).length - 1) := by omega
          rw [h4, hcell ((rowPos hdrs.length (m.getD i [])).length - 1) (by omega),
            if_neg (by omega)]
        have hne2 : ∀ q, q < (rowPos hdrs.length (m.getD i [])).length - 1 →
            s.length + 1 + q ≠ s.length := by
          intro q _
          omega
        have hrg := chainSteps_range' ((rowPos hdrs.length (m.getD i [])).length - 1)
          (s.length + 1) s.length (by omega) hstep hlast hne2
        have hstart0 : (getN s2 s.length).right = s.length + 1 := by
          have h2 := hcell 0 (by omega)
          rw [Nat.add_zero] at h2
          rw [h2, if_pos (show 0 + 1 < (rowPos hdrs.length (m.getD i [])).length by omega)]
        rw [hstart0]
        exact hrg
      · have h0 : (rowPos hdrs.length (m.getD i [])).length - 1 = 0 := by omega
        have h2 := hcell 0 (by omega)
        rw [Nat.add_zero] at h2
        rw [h0]
        show (getN s2 s.length).right = s.length
        rw [h2, if_neg (by omega)]
    · have hit2 : i < t := by omega
      have hb := hrowbound i hit2
      have hstart : (getN s2 (rowBase hdrs.length m i)).right =
          (getN s (rowBase hdrs.length m i)).right := hright _ (by omega)
      rw [hstart]
      refine chainSteps_congr (hI.rings i hit2 hpos) ?_
      intro x hx
      have hxb := List.mem_range'_1.mp hx
      show (getN s2 x).right = (getN s x).right
      exact hright x (by omega)



/-- Running the outer loop over the remaining rows completes the invariant. -/
theorem buildRows_inv :
    ∀ (rest : List (List Int)) (t : Nat) (s : H) (hdrs : List String)
      (m : List (List Int)), m.drop t = rest →
      (∀ row ∈ m, hdrs.length ≤ row.length) → BuildInv hdrs m t s →
      ∃ s', buildRows hdrs.length s 0 rest = some s' ∧
        BuildInv hdrs m (t + rest.length) s' := by
  intro rest
  induction rest with
  | nil =>
    intro t s hdrs m hdrop hrect hI
    exact ⟨s, rfl, hI⟩
  | cons row rest2 ih =>
    intro t s hdrs m hdrop hrect hI
    obtain ⟨hlt, hgetD, hdrop2⟩ := drop_cons_facts [] hdrop
    obtain ⟨s1, hrun1, hI1⟩ := buildInv_step hdrs m t s hlt hrect hI
    obtain ⟨s2, hrun2, hI2⟩ := ih (t + 1) s1 hdrs m hdrop2 hrect hI1
    refine ⟨s2, ?_, ?_⟩
    · rw [hgetD] at hrun1
      rw [buildRows, hrun1]
      exact hrun2
    · have heq : t + (row :: rest2).length = t + 1 + rest2.length := by
        rw [List.length_cons]
        omega
      rw [heq]
      exact hI2

/-- NewSparseMatrix runs to completion on a rectangular matrix and its heap
satisfies the full construction invariant. -/
theorem newSparseMatrix_inv (m : List (List Int)) (hdrs : List String)
    (hrect : ∀ row ∈ m, hdrs.length ≤ row.length) :
    ∃ s, NewSparseMatrix m hdrs = some (s, 0) ∧ BuildInv hdrs m m.length s := by
  have hH := buildHeaders_inv hdrs 0
    [{ right := 0, up := 0, left := 0, down := 0, col := none,
       meta := some { size := 0, name := "root" } }] hdrs rfl (Nat.zero_le _)
    (hdrInv_init hdrs)
  have hB0 := buildInv_init hdrs m _ hH
  obtain ⟨s', hrun, hI⟩ := buildRows_inv m 0 _ hdrs m rfl hrect hB0
  refine ⟨s', ?_, ?_⟩
  · simp only [NewSparseMatrix]
    rw [hrun]
  · have h0 : 0 + m.length = m.length := by omega
    rw [h0] at hI
    exact hI

/-- Claim C9: NewSparseMatrix builds one column header per name, appended
into the circular header row anchored at the root in name order; for each
input row, one data node per nonzero cell (positive, which under the spec's
non-negative input contract is the same thing) in column order, each
appended to the bottom of its column — bumping that column's live size — and
to the end of the row's circular list; an input row with no such cells
contributes no nodes. -/
theorem newSparseMatrix_structure (m : List (List Int)) (hdrs : List String)
    (hrect : ∀ row ∈ m, hdrs.length ≤ row.length)
    (hnn : ∀ row ∈ m, ∀ v ∈ row, 0 ≤ v) :
    ∃ s, NewSparseMatrix m hdrs = some (s, 0) ∧
      s.length = 1 + hdrs.length + cellCount hdrs.length m ∧
      walkF (fun nd => nd.right) (s.length + 1) s 0 ((getN s 0).right) =
        some (List.range' 1 hdrs.length) ∧
      (∀ k, k < hdrs.length → hdrName s (k + 1) = hdrs.getD k "") ∧
      (∀ i, i < m.length →
        rowPos hdrs.length (m.getD i []) = rowNonzero hdrs.length (m.getD i [])) ∧
      (∀ k, k < hdrs.length →
        walkF (fun nd => nd.down) (s.length + 1) s (k + 1) ((getN s (k + 1)).down) =
          some (colNodes hdrs.length m k) ∧
        hdrSize s (k + 1) = (colNodes hdrs.length m k).length % U64) ∧
      (∀ i, i < m.length →
        (∀ q, q < (rowPos hdrs.length (m.getD i [])).length →
          (getN s (rowBase hdrs.length m i + q)).col =
            some ((rowPos hdrs.length (m.getD i [])).getD q 0 + 1)) ∧
        (0 < (rowPos hdrs.length (m.getD i [])).length →
          walkF (fun nd => nd.right) (s.length + 1) s (rowBase hdrs.length m i)
              ((getN s (rowBase hdrs.length m i)).right) =
            some (List.range' (rowBase hdrs.length m i + 1)
              ((rowPos hdrs.length (m.getD i [])).length - 1)))) ∧
      (∀ i, i < m.length → rowPos hdrs.length (m.getD i []) = [] →
        rowBase hdrs.length m (i + 1) = rowBase hdrs.length m i) := by
  obtain ⟨s, hrun, hI⟩ := newSparseMatrix_inv m hdrs hrect
  have htl : m.take m.length = m := List.take_length m
  refine ⟨s, hrun, ?_, ?_, ?_, ?_, ?_, ?_, ?_⟩
  · have h2 := hI.len
    rw [htl] at h2
    exact h2
  · by_cases hC : hdrs.length = 0
    · have h1 : (getN s 0).right = 0 := by
        rw [hI.rootright, if_pos hC]
      rw [h1, hC]
      show walkF (fun nd => nd.right) (s.length + 1) s 0 0 = some []
      rw [walkF, if_pos rfl]
    · have hch : chainSteps (fun nd => nd.right) s (List.range' 1 hdrs.length) 0 1 := by
        refine chainSteps_range' hdrs.length 1 0 (by omega) ?_ ?_ ?_
        · intro q hq
          show (getN s (1 + q)).right = 1 + q + 1
          have h2 : 1 + q = q + 1 := by omega
          rw [h2, hI.hdrright q (by omega), if_neg (by omega)]
        · show (getN s (1 + (hdrs.length - 1))).right = 0
          have h2 : 1 + (hdrs.length - 1) = hdrs.length - 1 + 1 := by omega
          rw [h2, hI.hdrright (hdrs.length - 1) (by omega), if_pos (by omega)]
        · intro q hq
          omega
      have hfuel : (List.range' 1 hdrs.length).length < s.length + 1 := by
        rw [List.length_range']
        have h3 := hI.len
        omega
      have h1 : (getN s 0).right = 1 := by
        rw [hI.rootright, if_neg hC]
      rw [h1]
      exact walkF_of_chainSteps hch hfuel
  · intro k hk
    have h2 := hI.hdrmeta k hk
    simp [hdrName, h2]
  · intro i hi
    have hrow : m.getD i [] ∈ m := getD_mem m [] i hi
    have hlen2 : hdrs.length ≤ (m.getD i []).length := hrect _ hrow
    rw [rowPos, rowPosFrom, rowNonzero]
    refine List.filter_congr ?_
    intro q hq
    have hqC : q < hdrs.length := by
      have := List.mem_range'_1.mp hq
      omega
    have hv : (m.getD i []).getD q 0 ∈ m.getD i [] := getD_mem _ 0 q (by omega)
    have hnn2 := hnn _ hrow _ hv
    by_cases h0 : (m.getD i []).getD q 0 = 0
    · have h1 : ¬((0 : Int) < (m.getD i []).getD q 0) := by
        rw [h0]
        exact lt_irrefl 0
      have h2 : ¬((m.getD i []).getD q 0 ≠ 0) := fun hh => hh h0
      rw [decide_eq_false h1, decide_eq_false h2]
    · have hpos : (0 : Int) < (m.getD i []).getD q 0 :=
        lt_of_le_of_ne hnn2 (Ne.symm h0)
      rw [decide_eq_true hpos, decide_eq_true h0]
  · intro k hk
    constructor
    · have hch := hI.chains k hk
      rw [htl] at hch
      have hfuel : (colNodes hdrs.length m k).length < s.length + 1 := by
        have h2 := colNodesGo_le hdrs.length m (1 + hdrs.length) k
        have h3 := hI.len
        rw [htl] at h3
        show (colNodesGo hdrs.length (1 + hdrs.length) m k).length < s.length + 1
        omega
      exact walkF_of_chainSteps hch hfuel
    · have h2 := hI.hdrmeta k hk
      rw [htl] at h2
      simp [hdrSize, h2]
  · intro i hi
    constructor
    · intro q hq
      exact hI.cols i hi q hq
    · intro hpos
      have hch := hI.rings i hi hpos
      have h9 : cellCount hdrs.length (m.take (i + 1)) =
          cellCount hdrs.length (m.take i) + (rowPos hdrs.length (m.getD i [])).length := by
        rw [take_succ_getD m i hi, cellCount_append, cellCount_cons]
        simp [cellCount]
      have h10 := cellCount_take_le hdrs.length m (show i + 1 ≤ m.length by omega)
      have h3 := hI.len
      rw [htl] at h3 h10
      have hfuel : (List.range' (rowBase hdrs.length m i + 1)
          ((rowPos hdrs.length (m.getD i [])).length - 1)).length < s.length + 1 := by
        rw [List.length_range']
        omega
      exact walkF_of_chainSteps hch hfuel
  · intro i hi hempty
    show 1 + hdrs.length + cellCount hdrs.length (m.take (i + 1)) =
      1 + hdrs.length + cellCount hdrs.length (m.take i)
    have h9 : cellCount hdrs.length (m.take (i + 1)) =
        cellCount hdrs.length (m.take i) + (rowPos hdrs.length (m.getD i [])).length := by
      rw [take_succ_getD m i hi, cellCount_append, cellCount_cons]
      simp [cellCount]
    rw [hempty, List.length_nil] at h9
    omega



/-- Witness for claim C9: the Knuth example matrix is rectangular with
non-negative entries, and the structural characterisation applies to it. -/
theorem newSparseMatrix_structure_witness :
    (∀ row ∈ knuthMatrix, knuthHeaders.length ≤ row.length) ∧
    (∀ row ∈ knuthMatrix, ∀ v ∈ row, 0 ≤ v) ∧
    (∃ s, NewSparseMatrix knuthMatrix knuthHeaders = some (s, 0) ∧
      s.length = 1 + knuthHeaders.length + cellCount knuthHeaders.length knuthMatrix ∧
      walkF (fun nd => nd.right) (s.length + 1) s 0 ((getN s 0).right) =
        some (List.range' 1 knuthHeaders.length) ∧
      (∀ k, k < knuthHeaders.length → hdrName s (k + 1) = knuthHeaders.getD k "") ∧
      (∀ i, i < knuthMatrix.length →
        rowPos knuthHeaders.length (knuthMatrix.getD i []) =
          rowNonzero knuthHeaders.length (knuthMatrix.getD i [])) ∧
      (∀ k, k < knuthHeaders.length →
        walkF (fun nd => nd.down) (s.length + 1) s (k + 1) ((getN s (k + 1)).down) =
          some (colNodes knuthHeaders.length knuthMatrix k) ∧
        hdrSize s (k + 1) = (colNodes knuthHeaders.length knuthMatrix k).length % U64) ∧
      (∀ i, i < knuthMatrix.length →
        (∀ q, q < (rowPos knuthHeaders.length (knuthMatrix.getD i [])).length →
          (getN s (rowBase knuthHeaders.length knuthMatrix i + q)).col =
            some ((rowPos knuthHeaders.length (knuthMatrix.getD i [])).getD q 0 + 1)) ∧
        (0 < (rowPos knuthHeaders.length (knuthMatrix.getD i [])).length →
          walkF (fun nd => nd.right) (s.length + 1) s
              (rowBase knuthHeaders.length knuthMatrix i)
              ((getN s (rowBase knuthHeaders.length knuthMatrix i)).right) =
            some (List.range' (rowBase knuthHeaders.length knuthMatrix i + 1)
              ((rowPos knuthHeaders.length (knuthMatrix.getD i [])).length - 1)))) ∧
      (∀ i, i < knuthMatrix.length →
        rowPos knuthHeaders.length (knuthMatrix.getD i []) = [] →
        rowBase knuthHeaders.length knuthMatrix (i + 1) =
          rowBase knuthHeaders.length knuthMatrix i)) :=
  ⟨by decide, by decide,
   newSparseMatrix_structure knuthMatrix knuthHeaders (by decide) (by decide)⟩


end GoCover
